import Mathlib

/-!
# Verification of `parallel_odd_even_sort.cpp` (sequential sorting variants)

Shallow embedding of the four sequential sorting functions
`sortListing1` .. `sortListing4` from
`src/c++_implementation/parallel_odd_even_sort.cpp`, together with proofs of
the specification's claims about them.

Modelling conventions:
* The `int` array is a `List ℤ`; the size parameter `n` is a `ℕ`.
  Reads are `List.getD` and writes `List.set` (the bounds claims below show
  every access index is `< n`, so for arrays of length `n` this agrees with
  C++ array indexing).  C++ `int` arithmetic on the loop indices is embedded
  as exact natural arithmetic; all index quantities in these loops are
  non-negative, and a C++ comparison `a < b - c` whose right side could go
  negative coincides with the truncated-subtraction reading over `ℕ`
  (`a < b - c` is false in both readings when `c ≥ b`, since `a ≥ 0`).
* Each C++ `for` loop becomes either a structural fold/list traversal (when
  its iteration space is a closed arithmetic progression) or a well-founded
  recursion mirroring the loop exactly (for the `p += p` / `p *= 2` doubling
  loops, the `k /= 2` halving loops, and the `j += 2*k` stepping loops).
  The recursive versions carry the guard conjuncts `0 < p` / `0 < k` that the
  enclosing loops always establish; they are required for the recursions to
  be well founded, exactly as the C++ loops would fail to terminate without
  them.
* Each sorting function is also given a "schedule" form: the list of index
  pairs at which it performs its conditional compare-exchange, in execution
  order, and a theorem showing the loop nest equals folding `cmpExch` over
  that schedule.  The schedules are data independent (the loop bounds and
  block tests never read the array), which is what makes this factoring
  exact.
-/

namespace OddEvenSort

set_option maxRecDepth 4000

/-! ## Arithmetic-progression loops -/

/-- The visited values of the C++ loop `for (v = start; v < stop; v += step)`,
as an explicit list: `start, start + step, start + 2*step, …`, all `< stop`.
For `step = 0` the C++ loop would not terminate; this closed form is only
ever used (and only ever equated with the recursive loop form) for
`0 < step`. -/
def stepRange (start step stop : ℕ) : List ℕ :=
  (List.range ((stop - start + (step - 1)) / step)).map fun t => start + step * t

theorem lt_ceilDiv_iff {s : ℕ} (hs : 0 < s) (t d : ℕ) :
    t < (d + (s - 1)) / s ↔ s * t < d := by
  rw [show (t < (d + (s - 1)) / s ↔ t + 1 ≤ (d + (s - 1)) / s) from Iff.rfl,
      Nat.le_div_iff_mul_le hs]
  have h : (t + 1) * s = s * t + s := by ring
  omega

theorem mem_stepRange {step : ℕ} (hs : 0 < step) {v start stop : ℕ} :
    v ∈ stepRange start step stop ↔ ∃ t, v = start + step * t ∧ v < stop := by
  unfold stepRange
  simp only [List.mem_map, List.mem_range]
  constructor
  · rintro ⟨t, ht, rfl⟩
    exact ⟨t, rfl, by have := (lt_ceilDiv_iff hs t (stop - start)).1 ht; omega⟩
  · rintro ⟨t, rfl, hv⟩
    exact ⟨t, by rw [lt_ceilDiv_iff hs]; omega, rfl⟩

theorem stepRange_eq_cons {step : ℕ} (hs : 0 < step) (start stop : ℕ)
    (h : start < stop) :
    stepRange start step stop = start :: stepRange (start + step) step stop := by
  unfold stepRange
  have hc : (stop - start + (step - 1)) / step =
      (stop - (start + step) + (step - 1)) / step + 1 := by
    rcases le_or_lt stop (start + step) with hle | hlt
    · have h1 : stop - (start + step) = 0 := by omega
      have h2 : stop - start + (step - 1) = (stop - start - 1) + 1 * step := by omega
      rw [h1, h2, Nat.add_mul_div_right _ _ hs,
          Nat.div_eq_of_lt (by omega), Nat.div_eq_of_lt (by omega)]
    · have h2 : stop - start + (step - 1) =
          (stop - (start + step) + (step - 1)) + 1 * step := by omega
      rw [h2, Nat.add_mul_div_right _ _ hs]
  rw [hc, List.range_succ_eq_map]
  simp only [List.map_cons, Nat.mul_zero, Nat.add_zero, List.map_map]
  congr 1
  apply List.map_congr_left
  intro t _
  simp only [Function.comp_apply, Nat.succ_eq_add_one]
  ring

theorem stepRange_eq_nil {start step stop : ℕ} (h : stop ≤ start) :
    stepRange start step stop = [] := by
  unfold stepRange
  have h1 : stop - start = 0 := by omega
  rcases Nat.eq_zero_or_pos step with rfl | hs
  · simp [h1]
  · rw [h1, Nat.zero_add, Nat.div_eq_of_lt (by omega), List.range_zero,
        List.map_nil]

/-! ## The compare-exchange primitive and schedule application -/

/-- The compare-exchange from the C++ source: at indices `x` and `y` it
performs `if (A[x] > A[y]) swap(A[x], A[y]);`. -/
def cmpExch (x y : ℕ) (A : List ℤ) : List ℤ :=
  if A.getD y 0 < A.getD x 0 then (A.set x (A.getD y 0)).set y (A.getD x 0)
  else A

/-- Apply a schedule of compare-exchanges left to right (execution order). -/
def applyPairs (ps : List (ℕ × ℕ)) (A : List ℤ) : List ℤ :=
  ps.foldl (fun B q => cmpExch q.1 q.2 B) A

theorem applyPairs_nil (A : List ℤ) : applyPairs [] A = A := rfl

theorem applyPairs_cons (q : ℕ × ℕ) (ps : List (ℕ × ℕ)) (A : List ℤ) :
    applyPairs (q :: ps) A = applyPairs ps (cmpExch q.1 q.2 A) := rfl

theorem applyPairs_append (ps qs : List (ℕ × ℕ)) (A : List ℤ) :
    applyPairs (ps ++ qs) A = applyPairs qs (applyPairs ps A) := by
  simp [applyPairs, List.foldl_append]

@[simp] theorem length_cmpExch (x y : ℕ) (A : List ℤ) :
    (cmpExch x y A).length = A.length := by
  unfold cmpExch
  split <;> simp

@[simp] theorem length_applyPairs (ps : List (ℕ × ℕ)) (A : List ℤ) :
    (applyPairs ps A).length = A.length := by
  induction ps generalizing A with
  | nil => rfl
  | cons q ps ih => rw [applyPairs_cons, ih, length_cmpExch]

/-! ## Listing 1 (`sortListing1`, lines 182–193)

```cpp
for (int p = 1; p < n; p += p)
    for (int k = p; k > 0; k /= 2)
        for (int j = k % p; j + k < n; j += 2 * k)
            for (int i = 0; i < n-j-k; i++)
                if ((j+i) / (p+p) == (j+i+k)/(p+p))
                    if (A[j+i] > A[j+i+k])
                        swap(A[j+i], A[j+i+k]);
```
-/

/-- Pairs at which the innermost loop of Listing 1 compare-exchanges:
`i` ranges over `0 ≤ i < n-j-k` (a loop-invariant bound), and the division
test guards the block boundary. -/
def l1I (n p k j : ℕ) : List (ℕ × ℕ) :=
  (List.range (n - j - k)).filterMap fun i =>
    if (j + i) / (p + p) = (j + i + k) / (p + p) then some (j + i, j + i + k)
    else none

/-- Pairs of Listing 1's `j`-loop: `j` from `k % p` while `j + k < n`,
stepping by `2*k`. -/
def l1J (n p k : ℕ) : List (ℕ × ℕ) :=
  (stepRange (k % p) (2 * k) (n - k)).flatMap fun j => l1I n p k j

/-- Listing 1's `k`-loop runs `k = p, p/2, …, 1`; for `p = 2^a` these are
exactly `2^a, 2^(a-1), …, 2^0`, which we enumerate by exponent. -/
def l1K (n a : ℕ) : List (ℕ × ℕ) :=
  ((List.range (a + 1)).reverse).flatMap fun b => l1J n (2 ^ a) (2 ^ b)

/-- Listing 1's phase loop visits `p = 1, 2, 4, …` while `p < n`: exactly the
powers `2^a < n`, in increasing order (`a < n` always suffices as `a < 2^a`).
`batcher1Pairs n` is the full schedule of compare-exchanged index pairs of
`sortListing1` on an array of size `n`, in execution order. -/
def batcher1Pairs (n : ℕ) : List (ℕ × ℕ) :=
  (List.range n).flatMap fun a => if 2 ^ a < n then l1K n a else []

/-- Listing 1's innermost loop, threading the array through the
compare-exchanges exactly as the C++ does. -/
def run1I (n p k j : ℕ) (A : List ℤ) : List ℤ :=
  (List.range (n - j - k)).foldl
    (fun B i =>
      if (j + i) / (p + p) = (j + i + k) / (p + p) then
        cmpExch (j + i) (j + i + k) B
      else B) A

/-- Listing 1's `j`-loop as a literal recursion (`j += 2*k` while
`j + k < n`); the `0 < k` guard is established by the enclosing `k`-loop and
is what makes the C++ loop (and this recursion) terminate. -/
def run1J (n p k j : ℕ) (A : List ℤ) : List ℤ :=
  if 0 < k ∧ j + k < n then run1J n p k (j + 2 * k) (run1I n p k j A) else A
termination_by n - j
decreasing_by omega

/-- Listing 1's `k`-loop as a literal recursion: `k /= 2` while `k > 0`. -/
def run1K (n p k : ℕ) (A : List ℤ) : List ℤ :=
  if 0 < k then run1K n p (k / 2) (run1J n p k (k % p) A) else A
termination_by k
decreasing_by omega

/-- Listing 1's phase loop as a literal recursion: `p += p` while `p < n`;
the `0 < p` guard is established by the initial value `p = 1`. -/
def run1P (n p : ℕ) (A : List ℤ) : List ℤ :=
  if 0 < p ∧ p < n then run1P n (p + p) (run1K n p p A) else A
termination_by n - p
decreasing_by omega

/-- `sortListing1` (C++ lines 182–193): sorts `A` (size `n`) by Batcher's
odd-even merge network, Sedgewick's formulation. -/
def sortListing1 (A : List ℤ) (n : ℕ) : List ℤ := run1P n 1 A

/-! ## Listing 2 (`sortListing2`, lines 245–256)

```cpp
for(int p = 1; p < n; p *= 2)
    for(int k = p; k > 0; k /= 2)
        for(int j = k % p; j + k < 2*p; j += 2*k)
            for(int i = 0; i < k; i++)
                for(int m = i + j; m < n - k; m += 2*p)
                    if(A[m] > A[m+k])
                        swap(A[m], A[m+k]);
```
-/

/-- Pairs of Listing 2's innermost `m`-loop: `m` from `i + j` while
`m < n - k`, stepping by `2*p`; every visited `m` compare-exchanges
`(m, m+k)` (no block test — exclusion is by the loop bounds). -/
def l2M (n p k i j : ℕ) : List (ℕ × ℕ) :=
  (stepRange (i + j) (2 * p) (n - k)).map fun m => (m, m + k)

/-- Pairs of Listing 2's `i`-loop: `0 ≤ i < k`. -/
def l2I (n p k j : ℕ) : List (ℕ × ℕ) :=
  (List.range k).flatMap fun i => l2M n p k i j

/-- Pairs of Listing 2's `j`-loop: `j` from `k % p` while `j + k < 2*p`,
stepping by `2*k`. -/
def l2J (n p k : ℕ) : List (ℕ × ℕ) :=
  (stepRange (k % p) (2 * k) (2 * p - k)).flatMap fun j => l2I n p k j

/-- Listing 2's `k`-loop by exponent (`p = 2^a`, `k = 2^b`, `b = a … 0`). -/
def l2K (n a : ℕ) : List (ℕ × ℕ) :=
  ((List.range (a + 1)).reverse).flatMap fun b => l2J n (2 ^ a) (2 ^ b)

/-- Full schedule of `sortListing2` on size `n`, in execution order. -/
def batcher2Pairs (n : ℕ) : List (ℕ × ℕ) :=
  (List.range n).flatMap fun a => if 2 ^ a < n then l2K n a else []

/-- Listing 2's `m`-loop, threading the array; the `0 < p` guard is from the
phase loop (`p` starts at 1 and doubles). -/
def run2M (n p k i j m : ℕ) (A : List ℤ) : List ℤ :=
  if 0 < p ∧ m < n - k then run2M n p k i j (m + 2 * p) (cmpExch m (m + k) A)
  else A
termination_by n - m
decreasing_by omega

/-- Listing 2's `i`-loop, threading the array. -/
def run2I (n p k j : ℕ) (A : List ℤ) : List ℤ :=
  (List.range k).foldl (fun B i => run2M n p k i j (i + j) B) A

/-- Listing 2's `j`-loop, threading the array. -/
def run2J (n p k j : ℕ) (A : List ℤ) : List ℤ :=
  if 0 < k ∧ j + k < 2 * p then run2J n p k (j + 2 * k) (run2I n p k j A)
  else A
termination_by 2 * p - j
decreasing_by omega

/-- Listing 2's `k`-loop, threading the array. -/
def run2K (n p k : ℕ) (A : List ℤ) : List ℤ :=
  if 0 < k then run2K n p (k / 2) (run2J n p k (k % p) A) else A
termination_by k
decreasing_by omega

/-- Listing 2's phase loop, threading the array. -/
def run2P (n p : ℕ) (A : List ℤ) : List ℤ :=
  if 0 < p ∧ p < n then run2P n (2 * p) (run2K n p p A) else A
termination_by n - p
decreasing_by omega

/-- `sortListing2` (C++ lines 245–256). -/
def sortListing2 (A : List ℤ) (n : ℕ) : List ℤ := run2P n 1 A

/-! ## Listing 3 (`sortListing3`, lines 335–346)

```cpp
for (int p = 1; p < n; p *= 2)
    for (int k = p; k > 0; k /= 2)
        for (int j = k % p; j + k < n; j += 2*k)
            for (int i = std::min(k, n-j-k); i--;)
                if ((j+i)/(2*p) == (j+i+k)/(2*p))
                    if (A[j+i] > A[j+i+k])
                        std::swap(A[j+i], A[j+i+k]);
```
-/

/-- Pairs of Listing 3's innermost loop: `i` descends from
`min(k, n-j-k) - 1` to `0`. -/
def l3I (n p k j : ℕ) : List (ℕ × ℕ) :=
  ((List.range (min k (n - j - k))).reverse).filterMap fun i =>
    if (j + i) / (2 * p) = (j + i + k) / (2 * p) then some (j + i, j + i + k)
    else none

/-- Pairs of Listing 3's `j`-loop. -/
def l3J (n p k : ℕ) : List (ℕ × ℕ) :=
  (stepRange (k % p) (2 * k) (n - k)).flatMap fun j => l3I n p k j

/-- Listing 3's `k`-loop by exponent. -/
def l3K (n a : ℕ) : List (ℕ × ℕ) :=
  ((List.range (a + 1)).reverse).flatMap fun b => l3J n (2 ^ a) (2 ^ b)

/-- Full schedule of `sortListing3` on size `n`, in execution order. -/
def batcher3Pairs (n : ℕ) : List (ℕ × ℕ) :=
  (List.range n).flatMap fun a => if 2 ^ a < n then l3K n a else []

/-- Listing 3's innermost loop, threading the array (the descending `i--`
traversal). -/
def run3I (n p k j : ℕ) (A : List ℤ) : List ℤ :=
  ((List.range (min k (n - j - k))).reverse).foldl
    (fun B i =>
      if (j + i) / (2 * p) = (j + i + k) / (2 * p) then
        cmpExch (j + i) (j + i + k) B
      else B) A

/-- Listing 3's `j`-loop, threading the array. -/
def run3J (n p k j : ℕ) (A : List ℤ) : List ℤ :=
  if 0 < k ∧ j + k < n then run3J n p k (j + 2 * k) (run3I n p k j A) else A
termination_by n - j
decreasing_by omega

/-- Listing 3's `k`-loop, threading the array. -/
def run3K (n p k : ℕ) (A : List ℤ) : List ℤ :=
  if 0 < k then run3K n p (k / 2) (run3J n p k (k % p) A) else A
termination_by k
decreasing_by omega

/-- Listing 3's phase loop, threading the array. -/
def run3P (n p : ℕ) (A : List ℤ) : List ℤ :=
  if 0 < p ∧ p < n then run3P n (2 * p) (run3K n p p A) else A
termination_by n - p
decreasing_by omega

/-- `sortListing3` (C++ lines 335–346). -/
def sortListing3 (A : List ℤ) (n : ℕ) : List ℤ := run3P n 1 A

/-! ## Listing 4 (`sortListing4`, lines 397–408)

```cpp
for(int p = 1; p < n; p *= 2)
    for(int k = p; k > 0; k /= 2)
        for(int j = k & (p - 1); j + k < n; j += 2*k)
            if((j | (2*p - 1)) == ((j+k) | (2*p - 1)))
                for(int i = std::min(k, n-j-k); i--;)
                    if(A[j+i] > A[j+i+k])
                        std::swap(A[j+i], A[j+i+k]);
```
-/

/-- Pairs of Listing 4's inner loop: the bitmask block test is on `j` only,
outside the `i`-loop; when it holds, every `i` emits a pair. -/
def l4I (n p k j : ℕ) : List (ℕ × ℕ) :=
  if (j ||| (2 * p - 1)) = ((j + k) ||| (2 * p - 1)) then
    ((List.range (min k (n - j - k))).reverse).map fun i => (j + i, j + i + k)
  else []

/-- Pairs of Listing 4's `j`-loop: `j` starts at `k & (p - 1)`. -/
def l4J (n p k : ℕ) : List (ℕ × ℕ) :=
  (stepRange (k &&& (p - 1)) (2 * k) (n - k)).flatMap fun j => l4I n p k j

/-- Listing 4's `k`-loop by exponent. -/
def l4K (n a : ℕ) : List (ℕ × ℕ) :=
  ((List.range (a + 1)).reverse).flatMap fun b => l4J n (2 ^ a) (2 ^ b)

/-- Full schedule of `sortListing4` on size `n`, in execution order. -/
def batcher4Pairs (n : ℕ) : List (ℕ × ℕ) :=
  (List.range n).flatMap fun a => if 2 ^ a < n then l4K n a else []

/-- Listing 4's inner loop, threading the array. -/
def run4I (n p k j : ℕ) (A : List ℤ) : List ℤ :=
  if (j ||| (2 * p - 1)) = ((j + k) ||| (2 * p - 1)) then
    ((List.range (min k (n - j - k))).reverse).foldl
      (fun B i => cmpExch (j + i) (j + i + k) B) A
  else A

/-- Listing 4's `j`-loop, threading the array. -/
def run4J (n p k j : ℕ) (A : List ℤ) : List ℤ :=
  if 0 < k ∧ j + k < n then run4J n p k (j + 2 * k) (run4I n p k j A) else A
termination_by n - j
decreasing_by omega

/-- Listing 4's `k`-loop, threading the array. -/
def run4K (n p k : ℕ) (A : List ℤ) : List ℤ :=
  if 0 < k then run4K n p (k / 2) (run4J n p k (k &&& (p - 1)) A) else A
termination_by k
decreasing_by omega

/-- Listing 4's phase loop, threading the array. -/
def run4P (n p : ℕ) (A : List ℤ) : List ℤ :=
  if 0 < p ∧ p < n then run4P n (2 * p) (run4K n p p A) else A
termination_by n - p
decreasing_by omega

/-- `sortListing4` (C++ lines 397–408). -/
def sortListing4 (A : List ℤ) (n : ℕ) : List ℤ := run4P n 1 A

/-! ## The loop nests equal folding `cmpExch` over the schedules -/

theorem foldl_filterMap_cmpExch (c : ℕ → Prop) [DecidablePred c]
    (f g : ℕ → ℕ) :
    ∀ (L : List ℕ) (A : List ℤ),
      L.foldl (fun B i => if c i then cmpExch (f i) (g i) B else B) A =
        applyPairs (L.filterMap fun i => if c i then some (f i, g i) else none)
          A := by
  intro L
  induction L with
  | nil => intro A; rfl
  | cons hd tl ih =>
    intro A
    by_cases h : c hd
    · simp only [List.foldl_cons, List.filterMap_cons, if_pos h]
      rw [applyPairs_cons, ih]
    · simp only [List.foldl_cons, List.filterMap_cons, if_neg h]
      rw [ih]

theorem foldl_map_cmpExch (f g : ℕ → ℕ) :
    ∀ (L : List ℕ) (A : List ℤ),
      L.foldl (fun B i => cmpExch (f i) (g i) B) A =
        applyPairs (L.map fun i => (f i, g i)) A := by
  intro L
  induction L with
  | nil => intro A; rfl
  | cons hd tl ih =>
    intro A
    simp only [List.foldl_cons, List.map_cons]
    rw [applyPairs_cons, ih]

theorem foldl_applyPairs_flatMap (F : ℕ → List (ℕ × ℕ)) :
    ∀ (L : List ℕ) (A : List ℤ),
      L.foldl (fun B i => applyPairs (F i) B) A = applyPairs (L.flatMap F) A := by
  intro L
  induction L with
  | nil => intro A; rfl
  | cons hd tl ih =>
    intro A
    simp only [List.foldl_cons, List.flatMap_cons]
    rw [applyPairs_append, ih]

theorem run1I_eq (n p k j : ℕ) (A : List ℤ) :
    run1I n p k j A = applyPairs (l1I n p k j) A :=
  foldl_filterMap_cmpExch _ _ _ _ _

theorem run1J_eq (n p k : ℕ) (hk : 0 < k) :
    ∀ (d j : ℕ) (A : List ℤ), n - j ≤ d →
      run1J n p k j A =
        applyPairs ((stepRange j (2 * k) (n - k)).flatMap fun j' =>
          l1I n p k j') A := by
  intro d
  induction d with
  | zero =>
    intro j A hd
    rw [run1J, if_neg (by omega), stepRange_eq_nil (by omega)]
    rfl
  | succ d ih =>
    intro j A hd
    rw [run1J]
    by_cases h : j + k < n
    · rw [if_pos ⟨hk, h⟩, stepRange_eq_cons (by omega) _ _ (by omega),
        List.flatMap_cons, applyPairs_append, ← run1I_eq, ih _ _ (by omega)]
    · rw [if_neg (by tauto), stepRange_eq_nil (by omega)]
      rfl

theorem run1K_eq (n p : ℕ) :
    ∀ (c : ℕ) (A : List ℤ),
      run1K n p (2 ^ c) A =
        applyPairs (((List.range (c + 1)).reverse).flatMap fun b =>
          l1J n p (2 ^ b)) A := by
  intro c
  induction c with
  | zero =>
    intro A
    rw [run1K, if_pos (by norm_num), run1K, if_neg (by norm_num)]
    show run1J n p 1 (1 % p) A = _
    rw [run1J_eq n p 1 one_pos n _ _ (by omega)]
    simp [l1J, List.range_succ, pow_zero]
  | succ c ih =>
    intro A
    have h2 : (2 : ℕ) ^ (c + 1) / 2 = 2 ^ c := by
      rw [pow_succ, Nat.mul_div_cancel _ (by norm_num)]
    rw [run1K, if_pos (pow_pos (by norm_num) _), h2, ih]
    conv_rhs => rw [List.range_succ, List.reverse_append,
      List.reverse_singleton, List.singleton_append, List.flatMap_cons,
      applyPairs_append]
    rw [run1J_eq n p (2 ^ (c + 1)) (pow_pos (by norm_num) _) n _ _ (by omega)]
    rfl

theorem drop_range_cons {n t : ℕ} (h : t < n) :
    (List.range n).drop t = t :: (List.range n).drop (t + 1) := by
  rw [List.drop_eq_getElem_cons (by simpa using h)]
  simp

theorem mem_drop_range {n t a : ℕ} (h : a ∈ (List.range n).drop t) : t ≤ a := by
  rcases List.mem_iff_getElem.1 h with ⟨i, hi, hget⟩
  have h1 : t + i < (List.range n).length := by
    have := List.length_drop t (List.range n) ▸ hi
    simp only [List.length_range] at *
    omega
  rw [List.getElem_drop, List.getElem_range] at hget
  omega

theorem run1P_eq (n : ℕ) :
    ∀ (d t : ℕ) (A : List ℤ), n - 2 ^ t ≤ d →
      run1P n (2 ^ t) A =
        applyPairs (((List.range n).drop t).flatMap fun a =>
          if 2 ^ a < n then l1K n a else []) A := by
  intro d
  induction d with
  | zero =>
    intro t A hd
    have hnil : ((List.range n).drop t).flatMap
        (fun a => if 2 ^ a < n then l1K n a else []) = [] := by
      rw [List.flatMap_eq_nil_iff]
      intro a ha
      have h1 : 2 ^ t ≤ 2 ^ a :=
        Nat.pow_le_pow_right (by norm_num) (mem_drop_range ha)
      rw [if_neg (by omega)]
    rw [run1P, if_neg (by omega), hnil]
    rfl
  | succ d ih =>
    intro t A hd
    by_cases h : 2 ^ t < n
    · have ht : t < n := lt_trans (Nat.lt_two_pow t) h
      have h0 : 0 < 2 ^ t := pow_pos (by norm_num) t
      have hih : n - 2 ^ (t + 1) ≤ d := by
        have h2 : 2 ^ (t + 1) = 2 * 2 ^ t := by ring
        omega
      rw [run1P, if_pos ⟨h0, h⟩,
        show 2 ^ t + 2 ^ t = 2 ^ (t + 1) by ring,
        ih (t + 1) _ hih,
        drop_range_cons ht, List.flatMap_cons, applyPairs_append,
        if_pos h, run1K_eq n (2 ^ t) t]
      rfl
    · have hnil : ((List.range n).drop t).flatMap
          (fun a => if 2 ^ a < n then l1K n a else []) = [] := by
        rw [List.flatMap_eq_nil_iff]
        intro a ha
        have h1 : 2 ^ t ≤ 2 ^ a :=
          Nat.pow_le_pow_right (by norm_num) (mem_drop_range ha)
        rw [if_neg (by omega)]
      rw [run1P, if_neg (by omega), hnil]
      rfl

/-- `sortListing1` applies exactly the schedule `batcher1Pairs n`, in order. -/
theorem sortListing1_eq (A : List ℤ) (n : ℕ) :
    sortListing1 A n = applyPairs (batcher1Pairs n) A := by
  have h := run1P_eq n n 0 A (by omega)
  simpa [sortListing1, batcher1Pairs] using h

theorem run2M_eq (n p k i j : ℕ) (hp : 0 < p) :
    ∀ (d m : ℕ) (A : List ℤ), n - k - m ≤ d →
      run2M n p k i j m A =
        applyPairs ((stepRange m (2 * p) (n - k)).map fun m' => (m', m' + k))
          A := by
  intro d
  induction d with
  | zero =>
    intro m A hd
    rw [run2M, if_neg (by omega), stepRange_eq_nil (by omega)]
    rfl
  | succ d ih =>
    intro m A hd
    by_cases h : m < n - k
    · rw [run2M, if_pos ⟨hp, h⟩, stepRange_eq_cons (by omega) _ _ h,
        List.map_cons, applyPairs_cons, ih _ _ (by omega)]
    · rw [run2M, if_neg (by tauto), stepRange_eq_nil (by omega)]
      rfl

theorem run2I_eq (n p k j : ℕ) (hp : 0 < p) (A : List ℤ) :
    run2I n p k j A = applyPairs (l2I n p k j) A := by
  unfold run2I
  have hfun : (fun (B : List ℤ) (i : ℕ) => run2M n p k i j (i + j) B) =
      fun B i => applyPairs (l2M n p k i j) B := by
    funext B i
    exact run2M_eq n p k i j hp n (i + j) B (by omega)
  rw [hfun, foldl_applyPairs_flatMap]
  rfl

theorem run2J_eq (n p k : ℕ) (hp : 0 < p) (hk : 0 < k) :
    ∀ (d j : ℕ) (A : List ℤ), 2 * p - j ≤ d →
      run2J n p k j A =
        applyPairs ((stepRange j (2 * k) (2 * p - k)).flatMap fun j' =>
          l2I n p k j') A := by
  intro d
  induction d with
  | zero =>
    intro j A hd
    rw [run2J, if_neg (by omega), stepRange_eq_nil (by omega)]
    rfl
  | succ d ih =>
    intro j A hd
    by_cases h : j + k < 2 * p
    · rw [run2J, if_pos ⟨hk, h⟩, stepRange_eq_cons (by omega) _ _ (by omega),
        List.flatMap_cons, applyPairs_append, ← run2I_eq n p k j hp,
        ih _ _ (by omega)]
    · rw [run2J, if_neg (by tauto), stepRange_eq_nil (by omega)]
      rfl

theorem run2K_eq (n p : ℕ) (hp : 0 < p) :
    ∀ (c : ℕ) (A : List ℤ),
      run2K n p (2 ^ c) A =
        applyPairs (((List.range (c + 1)).reverse).flatMap fun b =>
          l2J n p (2 ^ b)) A := by
  intro c
  induction c with
  | zero =>
    intro A
    rw [run2K, if_pos (by norm_num), run2K, if_neg (by norm_num)]
    show run2J n p 1 (1 % p) A = _
    rw [run2J_eq n p 1 hp one_pos (2 * p) _ _ (by omega)]
    simp [l2J, List.range_succ, pow_zero]
  | succ c ih =>
    intro A
    have h2 : (2 : ℕ) ^ (c + 1) / 2 = 2 ^ c := by
      rw [pow_succ, Nat.mul_div_cancel _ (by norm_num)]
    rw [run2K, if_pos (pow_pos (by norm_num) _), h2, ih]
    conv_rhs => rw [List.range_succ, List.reverse_append,
      List.reverse_singleton, List.singleton_append, List.flatMap_cons,
      applyPairs_append]
    rw [run2J_eq n p (2 ^ (c + 1)) hp (pow_pos (by norm_num) _) (2 * p) _ _
      (by omega)]
    rfl

theorem run2P_eq (n : ℕ) :
    ∀ (d t : ℕ) (A : List ℤ), n - 2 ^ t ≤ d →
      run2P n (2 ^ t) A =
        applyPairs (((List.range n).drop t).flatMap fun a =>
          if 2 ^ a < n then l2K n a else []) A := by
  intro d
  induction d with
  | zero =>
    intro t A hd
    have hnil : ((List.range n).drop t).flatMap
        (fun a => if 2 ^ a < n then l2K n a else []) = [] := by
      rw [List.flatMap_eq_nil_iff]
      intro a ha
      have h1 : 2 ^ t ≤ 2 ^ a :=
        Nat.pow_le_pow_right (by norm_num) (mem_drop_range ha)
      rw [if_neg (by omega)]
    rw [run2P, if_neg (by omega), hnil]
    rfl
  | succ d ih =>
    intro t A hd
    by_cases h : 2 ^ t < n
    · have ht : t < n := lt_trans (Nat.lt_two_pow t) h
      have h0 : 0 < 2 ^ t := pow_pos (by norm_num) t
      have hih : n - 2 ^ (t + 1) ≤ d := by
        have h2 : 2 ^ (t + 1) = 2 * 2 ^ t := by ring
        omega
      rw [run2P, if_pos ⟨h0, h⟩,
        show 2 * 2 ^ t = 2 ^ (t + 1) by ring,
        ih (t + 1) _ hih,
        drop_range_cons ht, List.flatMap_cons, applyPairs_append,
        if_pos h, run2K_eq n (2 ^ t) h0 t]
      rfl
    · have hnil : ((List.range n).drop t).flatMap
          (fun a => if 2 ^ a < n then l2K n a else []) = [] := by
        rw [List.flatMap_eq_nil_iff]
        intro a ha
        have h1 : 2 ^ t ≤ 2 ^ a :=
          Nat.pow_le_pow_right (by norm_num) (mem_drop_range ha)
        rw [if_neg (by omega)]
      rw [run2P, if_neg (by omega), hnil]
      rfl

/-- `sortListing2` applies exactly the schedule `batcher2Pairs n`, in order. -/
theorem sortListing2_eq (A : List ℤ) (n : ℕ) :
    sortListing2 A n = applyPairs (batcher2Pairs n) A := by
  have h := run2P_eq n n 0 A (by omega)
  simpa [sortListing2, batcher2Pairs] using h

theorem run3I_eq (n p k j : ℕ) (A : List ℤ) :
    run3I n p k j A = applyPairs (l3I n p k j) A :=
  foldl_filterMap_cmpExch _ _ _ _ _

theorem run3J_eq (n p k : ℕ) (hk : 0 < k) :
    ∀ (d j : ℕ) (A : List ℤ), n - j ≤ d →
      run3J n p k j A =
        applyPairs ((stepRange j (2 * k) (n - k)).flatMap fun j' =>
          l3I n p k j') A := by
  intro d
  induction d with
  | zero =>
    intro j A hd
    rw [run3J, if_neg (by omega), stepRange_eq_nil (by omega)]
    rfl
  | succ d ih =>
    intro j A hd
    by_cases h : j + k < n
    · rw [run3J, if_pos ⟨hk, h⟩, stepRange_eq_cons (by omega) _ _ (by omega),
        List.flatMap_cons, applyPairs_append, ← run3I_eq, ih _ _ (by omega)]
    · rw [run3J, if_neg (by tauto), stepRange_eq_nil (by omega)]
      rfl

theorem run3K_eq (n p : ℕ) :
    ∀ (c : ℕ) (A : List ℤ),
      run3K n p (2 ^ c) A =
        applyPairs (((List.range (c + 1)).reverse).flatMap fun b =>
          l3J n p (2 ^ b)) A := by
  intro c
  induction c with
  | zero =>
    intro A
    rw [run3K, if_pos (by norm_num), run3K, if_neg (by norm_num)]
    show run3J n p 1 (1 % p) A = _
    rw [run3J_eq n p 1 one_pos n _ _ (by omega)]
    simp [l3J, List.range_succ, pow_zero]
  | succ c ih =>
    intro A
    have h2 : (2 : ℕ) ^ (c + 1) / 2 = 2 ^ c := by
      rw [pow_succ, Nat.mul_div_cancel _ (by norm_num)]
    rw [run3K, if_pos (pow_pos (by norm_num) _), h2, ih]
    conv_rhs => rw [List.range_succ, List.reverse_append,
      List.reverse_singleton, List.singleton_append, List.flatMap_cons,
      applyPairs_append]
    rw [run3J_eq n p (2 ^ (c + 1)) (pow_pos (by norm_num) _) n _ _ (by omega)]
    rfl

theorem run3P_eq (n : ℕ) :
    ∀ (d t : ℕ) (A : List ℤ), n - 2 ^ t ≤ d →
      run3P n (2 ^ t) A =
        applyPairs (((List.range n).drop t).flatMap fun a =>
          if 2 ^ a < n then l3K n a else []) A := by
  intro d
  induction d with
  | zero =>
    intro t A hd
    have hnil : ((List.range n).drop t).flatMap
        (fun a => if 2 ^ a < n then l3K n a else []) = [] := by
      rw [List.flatMap_eq_nil_iff]
      intro a ha
      have h1 : 2 ^ t ≤ 2 ^ a :=
        Nat.pow_le_pow_right (by norm_num) (mem_drop_range ha)
      rw [if_neg (by omega)]
    rw [run3P, if_neg (by omega), hnil]
    rfl
  | succ d ih =>
    intro t A hd
    by_cases h : 2 ^ t < n
    · have ht : t < n := lt_trans (Nat.lt_two_pow t) h
      have h0 : 0 < 2 ^ t := pow_pos (by norm_num) t
      have hih : n - 2 ^ (t + 1) ≤ d := by
        have h2 : 2 ^ (t + 1) = 2 * 2 ^ t := by ring
        omega
      rw [run3P, if_pos ⟨h0, h⟩,
        show 2 * 2 ^ t = 2 ^ (t + 1) by ring,
        ih (t + 1) _ hih,
        drop_range_cons ht, List.flatMap_cons, applyPairs_append,
        if_pos h, run3K_eq n (2 ^ t) t]
      rfl
    · have hnil : ((List.range n).drop t).flatMap
          (fun a => if 2 ^ a < n then l3K n a else []) = [] := by
        rw [List.flatMap_eq_nil_iff]
        intro a ha
        have h1 : 2 ^ t ≤ 2 ^ a :=
          Nat.pow_le_pow_right (by norm_num) (mem_drop_range ha)
        rw [if_neg (by omega)]
      rw [run3P, if_neg (by omega), hnil]
      rfl

/-- `sortListing3` applies exactly the schedule `batcher3Pairs n`, in order. -/
theorem sortListing3_eq (A : List ℤ) (n : ℕ) :
    sortListing3 A n = applyPairs (batcher3Pairs n) A := by
  have h := run3P_eq n n 0 A (by omega)
  simpa [sortListing3, batcher3Pairs] using h

theorem run4I_eq (n p k j : ℕ) (A : List ℤ) :
    run4I n p k j A = applyPairs (l4I n p k j) A := by
  unfold run4I l4I
  by_cases h : (j ||| (2 * p - 1)) = ((j + k) ||| (2 * p - 1))
  · rw [if_pos h, if_pos h, foldl_map_cmpExch]
  · rw [if_neg h, if_neg h]
    rfl

theorem run4J_eq (n p k : ℕ) (hk : 0 < k) :
    ∀ (d j : ℕ) (A : List ℤ), n - j ≤ d →
      run4J n p k j A =
        applyPairs ((stepRange j (2 * k) (n - k)).flatMap fun j' =>
          l4I n p k j') A := by
  intro d
  induction d with
  | zero =>
    intro j A hd
    rw [run4J, if_neg (by omega), stepRange_eq_nil (by omega)]
    rfl
  | succ d ih =>
    intro j A hd
    by_cases h : j + k < n
    · rw [run4J, if_pos ⟨hk, h⟩, stepRange_eq_cons (by omega) _ _ (by omega),
        List.flatMap_cons, applyPairs_append, ← run4I_eq, ih _ _ (by omega)]
    · rw [run4J, if_neg (by tauto), stepRange_eq_nil (by omega)]
      rfl

theorem run4K_eq (n p : ℕ) :
    ∀ (c : ℕ) (A : List ℤ),
      run4K n p (2 ^ c) A =
        applyPairs (((List.range (c + 1)).reverse).flatMap fun b =>
          l4J n p (2 ^ b)) A := by
  intro c
  induction c with
  | zero =>
    intro A
    rw [run4K, if_pos (by norm_num), run4K, if_neg (by norm_num)]
    show run4J n p 1 (1 &&& (p - 1)) A = _
    rw [run4J_eq n p 1 one_pos n _ _ (by omega)]
    simp [l4J, List.range_succ, pow_zero]
  | succ c ih =>
    intro A
    have h2 : (2 : ℕ) ^ (c + 1) / 2 = 2 ^ c := by
      rw [pow_succ, Nat.mul_div_cancel _ (by norm_num)]
    rw [run4K, if_pos (pow_pos (by norm_num) _), h2, ih]
    conv_rhs => rw [List.range_succ, List.reverse_append,
      List.reverse_singleton, List.singleton_append, List.flatMap_cons,
      applyPairs_append]
    rw [run4J_eq n p (2 ^ (c + 1)) (pow_pos (by norm_num) _) n _ _ (by omega)]
    rfl

theorem run4P_eq (n : ℕ) :
    ∀ (d t : ℕ) (A : List ℤ), n - 2 ^ t ≤ d →
      run4P n (2 ^ t) A =
        applyPairs (((List.range n).drop t).flatMap fun a =>
          if 2 ^ a < n then l4K n a else []) A := by
  intro d
  induction d with
  | zero =>
    intro t A hd
    have hnil : ((List.range n).drop t).flatMap
        (fun a => if 2 ^ a < n then l4K n a else []) = [] := by
      rw [List.flatMap_eq_nil_iff]
      intro a ha
      have h1 : 2 ^ t ≤ 2 ^ a :=
        Nat.pow_le_pow_right (by norm_num) (mem_drop_range ha)
      rw [if_neg (by omega)]
    rw [run4P, if_neg (by omega), hnil]
    rfl
  | succ d ih =>
    intro t A hd
    by_cases h : 2 ^ t < n
    · have ht : t < n := lt_trans (Nat.lt_two_pow t) h
      have h0 : 0 < 2 ^ t := pow_pos (by norm_num) t
      have hih : n - 2 ^ (t + 1) ≤ d := by
        have h2 : 2 ^ (t + 1) = 2 * 2 ^ t := by ring
        omega
      rw [run4P, if_pos ⟨h0, h⟩,
        show 2 * 2 ^ t = 2 ^ (t + 1) by ring,
        ih (t + 1) _ hih,
        drop_range_cons ht, List.flatMap_cons, applyPairs_append,
        if_pos h, run4K_eq n (2 ^ t) t]
      rfl
    · have hnil : ((List.range n).drop t).flatMap
          (fun a => if 2 ^ a < n then l4K n a else []) = [] := by
        rw [List.flatMap_eq_nil_iff]
        intro a ha
        have h1 : 2 ^ t ≤ 2 ^ a :=
          Nat.pow_le_pow_right (by norm_num) (mem_drop_range ha)
        rw [if_neg (by omega)]
      rw [run4P, if_neg (by omega), hnil]
      rfl

/-- `sortListing4` applies exactly the schedule `batcher4Pairs n`, in order. -/
theorem sortListing4_eq (A : List ℤ) (n : ℕ) :
    sortListing4 A n = applyPairs (batcher4Pairs n) A := by
  have h := run4P_eq n n 0 A (by omega)
  simpa [sortListing4, batcher4Pairs] using h

/-! ## Division / modulus helpers -/

/-- The block test `x / d = (x + y) / d` says exactly that `x` and `x + y`
lie in the same length-`d` block: `x % d + y < d`. -/
theorem div_eq_div_add_iff {d : ℕ} (h : 0 < d) (x y : ℕ) :
    x / d = (x + y) / d ↔ x % d + y < d := by
  constructor
  · intro he
    by_contra hc
    push_neg at hc
    have h1 := Nat.div_add_mod x d
    have hmod := Nat.mod_lt x h
    have h2 : x / d + 1 ≤ (x + y) / d := by
      rw [Nat.le_div_iff_mul_le h]
      nlinarith
    omega
  · intro hlt
    have hxy : x + y = d * (x / d) + (x % d + y) := by
      have := Nat.div_add_mod x d
      omega
    rw [hxy, Nat.mul_add_div h, Nat.div_eq_of_lt hlt, Nat.add_zero]

theorem mod_div_eq_of_eq {x m q r : ℕ} (hm : 0 < m) (hx : x = m * q + r)
    (hr : r < m) : x % m = r ∧ x / m = q := by
  constructor
  · rw [hx, Nat.mul_add_mod, Nat.mod_eq_of_lt hr]
  · rw [hx, Nat.mul_add_div hm, Nat.div_eq_of_lt hr, Nat.add_zero]

/-- `mod_div_eq_of_eq` with all arguments explicit, for call sites where
the quotient cannot be inferred. -/
theorem mod_div_eq_of_eqE (x m q r : ℕ) (hm : 0 < m) (hx : x = m * q + r)
    (hr : r < m) : x % m = r ∧ x / m = q :=
  mod_div_eq_of_eq hm hx hr

/-! ## Pointwise behaviour of `cmpExch`, and permutation facts -/

theorem getD_set_self {l : List ℤ} {i : ℕ} (a : ℤ) (h : i < l.length) :
    (l.set i a).getD i 0 = a := by
  simp [List.getD_eq_getElem?_getD, List.getElem?_set_self, h]

theorem getD_set_ne {l : List ℤ} {i j : ℕ} (a : ℤ) (h : i ≠ j) :
    (l.set i a).getD j 0 = l.getD j 0 := by
  simp [List.getD_eq_getElem?_getD, List.getElem?_set_ne h]

theorem cmpExch_getD_fst {x y : ℕ} (hxy : x ≠ y) {A : List ℤ}
    (hx : x < A.length) :
    (cmpExch x y A).getD x 0 = min (A.getD x 0) (A.getD y 0) := by
  unfold cmpExch
  split
  · rw [getD_set_ne _ (Ne.symm hxy), getD_set_self _ hx]
    omega
  · rw [min_eq_left (by omega)]

theorem cmpExch_getD_snd (x : ℕ) {y : ℕ} {A : List ℤ}
    (hy : y < A.length) :
    (cmpExch x y A).getD y 0 = max (A.getD x 0) (A.getD y 0) := by
  unfold cmpExch
  split
  · rw [getD_set_self _ (by simpa using hy)]
    omega
  · rw [max_eq_right (by omega)]

theorem cmpExch_getD_other {x y z : ℕ} (hx : z ≠ x) (hy : z ≠ y)
    (A : List ℤ) : (cmpExch x y A).getD z 0 = A.getD z 0 := by
  unfold cmpExch
  split
  · rw [getD_set_ne _ (Ne.symm hy), getD_set_ne _ (Ne.symm hx)]
  · rfl

/-- When the operands are already ordered, `cmpExch` does nothing. -/
theorem cmpExch_of_le {x y : ℕ} {A : List ℤ}
    (h : A.getD x 0 ≤ A.getD y 0) : cmpExch x y A = A := by
  unfold cmpExch
  rw [if_neg (by omega)]

theorem perm_pick (a : ℤ) :
    ∀ (t : List ℤ) (v : ℕ), v < t.length →
      List.Perm (t.getD v 0 :: t.set v a) (a :: t) := by
  intro t
  induction t with
  | nil => intro v hv; simp at hv
  | cons b s ih =>
    intro v hv
    cases v with
    | zero =>
      simpa using List.Perm.swap a b s
    | succ v =>
      have h1 : ((b :: s).getD (v + 1) 0 :: (b :: s).set (v + 1) a) =
          (s.getD v 0 :: b :: s.set v a) := by simp
      rw [h1]
      exact List.Perm.trans (List.Perm.swap b _ _)
        (List.Perm.trans (List.Perm.cons b (ih v (by simpa using hv)))
          (List.Perm.swap a b s))

theorem perm_set_set : ∀ (A : List ℤ) (x y : ℕ), x < y → y < A.length →
    List.Perm ((A.set x (A.getD y 0)).set y (A.getD x 0)) A := by
  intro A
  induction A with
  | nil => intro x y _ hy; simp at hy
  | cons a t ih =>
    intro x y hxy hy
    cases x with
    | zero =>
      cases y with
      | zero => omega
      | succ y =>
        have h1 : ((a :: t).set 0 ((a :: t).getD (y + 1) 0)).set (y + 1)
            ((a :: t).getD 0 0) = (t.getD y 0 :: t.set y a) := by simp
        rw [h1]
        exact perm_pick a t y (by simpa using hy)
    | succ x =>
      cases y with
      | zero => omega
      | succ y =>
        have h1 : ((a :: t).set (x + 1) ((a :: t).getD (y + 1) 0)).set (y + 1)
            ((a :: t).getD (x + 1) 0) =
            (a :: (t.set x (t.getD y 0)).set y (t.getD x 0)) := by simp
        rw [h1]
        exact List.Perm.cons a (ih x y (by omega) (by simpa using hy))

theorem cmpExch_perm {x y : ℕ} (hxy : x < y) {A : List ℤ}
    (hy : y < A.length) : List.Perm (cmpExch x y A) A := by
  unfold cmpExch
  split
  · exact perm_set_set A x y hxy hy
  · exact List.Perm.refl A

/-! ## Arithmetic characterization of the emitted pair sets

For a merge stage with phase `p` and distance `k` the four listings emit
pairs `(x, x + k)`; which `x` occur is characterized by:
* `sameBlock p k x` — `x` and `x + k` lie in the same `2p`-aligned block
  (this is what the division test of listings 1/3 and the bitmask test of
  listing 4 decide);
* `inWindow p k x` — the residue of `x` mod `2k` lies in the window
  `[k % p, k % p + k)` cut out by the `j`/`i` loop structure.
-/

/-- `x` and `x + k` lie in the same `2p`-aligned block. -/
def sameBlock (p k x : ℕ) : Prop := x % (2 * p) + k < 2 * p

/-- `x mod 2k` lies in the stage window `[k % p, k % p + k)`. -/
def inWindow (p k x : ℕ) : Prop :=
  k % p ≤ x % (2 * k) ∧ x % (2 * k) < k % p + k

instance (p k x : ℕ) : Decidable (sameBlock p k x) := by
  unfold sameBlock; infer_instance

instance (p k x : ℕ) : Decidable (inWindow p k x) := by
  unfold inWindow; infer_instance

theorem div_test_iff_sameBlock {p : ℕ} (hp : 0 < p) (x k : ℕ) :
    x / (p + p) = (x + k) / (p + p) ↔ sameBlock p k x := by
  unfold sameBlock
  have h2 : p + p = 2 * p := by ring
  rw [h2, div_eq_div_add_iff (by omega)]

theorem mem_l1I {n p k j : ℕ} (hp : 0 < p) {q : ℕ × ℕ} :
    q ∈ l1I n p k j ↔
      ∃ i, j + i + k < n ∧ sameBlock p k (j + i) ∧ q = (j + i, j + i + k) := by
  unfold l1I
  simp only [List.mem_filterMap, List.mem_range]
  constructor
  · rintro ⟨i, hi, hif⟩
    split at hif
    · cases hif
      exact ⟨i, by omega, (div_test_iff_sameBlock hp _ _).1 (by assumption),
        rfl⟩
    · cases hif
  · rintro ⟨i, hn, hb, rfl⟩
    exact ⟨i, by omega,
      by rw [if_pos ((div_test_iff_sameBlock hp _ _).2 hb)]⟩

theorem mem_l1J {n p k : ℕ} (hp : 0 < p) (hk : 0 < k) {q : ℕ × ℕ} :
    q ∈ l1J n p k ↔
      ∃ x, q = (x, x + k) ∧ k % p ≤ x ∧ x + k < n ∧ sameBlock p k x := by
  unfold l1J
  simp only [List.mem_flatMap]
  constructor
  · rintro ⟨j, hj, hq⟩
    rw [mem_stepRange (by omega)] at hj
    obtain ⟨t, rfl, hjlt⟩ := hj
    rw [mem_l1I hp] at hq
    obtain ⟨i, hin, hblock, rfl⟩ := hq
    refine ⟨k % p + 2 * k * t + i, rfl, ?_, ?_, hblock⟩
    · generalize 2 * k * t = w
      omega
    · omega
  · rintro ⟨x, rfl, hx0, hxn, hblock⟩
    refine ⟨k % p, ?_, ?_⟩
    · rw [mem_stepRange (by omega)]
      exact ⟨0, by ring, by omega⟩
    · rw [mem_l1I hp]
      refine ⟨x - k % p, by omega, ?_, ?_⟩
      · rw [show k % p + (x - k % p) = x from by omega]
        exact hblock
      · rw [show k % p + (x - k % p) = x from by omega]

theorem mem_l3I {n p k j : ℕ} (hp : 0 < p) {q : ℕ × ℕ} :
    q ∈ l3I n p k j ↔
      ∃ i, i < k ∧ j + i + k < n ∧ sameBlock p k (j + i) ∧
        q = (j + i, j + i + k) := by
  unfold l3I
  simp only [List.mem_filterMap, List.mem_reverse, List.mem_range]
  constructor
  · rintro ⟨i, hi, hif⟩
    split at hif
    · cases hif
      refine ⟨i, by omega, by omega, ?_, rfl⟩
      exact (div_eq_div_add_iff (by omega) _ _).1 (by assumption)
    · cases hif
  · rintro ⟨i, hik, hn, hb, rfl⟩
    refine ⟨i, by omega, ?_⟩
    rw [if_pos ((div_eq_div_add_iff (by omega) _ _).2 hb)]

theorem mem_l3J {n p k : ℕ} (hp : 0 < p) (hk : 0 < k) {q : ℕ × ℕ} :
    q ∈ l3J n p k ↔
      ∃ x, q = (x, x + k) ∧ x + k < n ∧ inWindow p k x ∧ sameBlock p k x := by
  unfold l3J
  simp only [List.mem_flatMap]
  have hkp : k % p ≤ k := Nat.mod_le k p
  constructor
  · rintro ⟨j, hj, hq⟩
    rw [mem_stepRange (by omega)] at hj
    obtain ⟨t, rfl, hjlt⟩ := hj
    rw [mem_l3I hp] at hq
    obtain ⟨i, hik, hin, hblock, rfl⟩ := hq
    refine ⟨k % p + 2 * k * t + i, rfl, by omega, ?_, hblock⟩
    have hmod : (k % p + 2 * k * t + i) % (2 * k) = k % p + i := by
      have := mod_div_eq_of_eqE (k % p + 2 * k * t + i) (2 * k) t
        (k % p + i) (by omega) (by ring) (by omega)
      exact this.1
    unfold inWindow
    rw [hmod]
    omega
  · rintro ⟨x, rfl, hxn, hwin, hblock⟩
    obtain ⟨hw1, hw2⟩ := hwin
    have hdm := Nat.div_add_mod x (2 * k)
    have hmlt : x % (2 * k) < 2 * k := Nat.mod_lt x (by omega)
    refine ⟨k % p + 2 * k * (x / (2 * k)), ?_, ?_⟩
    · rw [mem_stepRange (by omega)]
      refine ⟨x / (2 * k), rfl, ?_⟩
      generalize hg : 2 * k * (x / (2 * k)) = w at hdm ⊢
      omega
    · rw [mem_l3I hp]
      refine ⟨x % (2 * k) - k % p, by omega, ?_⟩
      rw [show k % p + 2 * k * (x / (2 * k)) + (x % (2 * k) - k % p) = x from by
        generalize hg : 2 * k * (x / (2 * k)) = w at hdm ⊢
        omega]
      exact ⟨hxn, hblock, rfl⟩

/-! ### Listing 4's bit tricks -/

theorem testBit_high (x m i : ℕ) :
    x.testBit (m + i) = (x / 2 ^ m).testBit i := by
  rw [Nat.testBit_to_div_mod, Nat.testBit_to_div_mod,
    Nat.div_div_eq_div_mul, ← pow_add]

/-- The C++ test `(x | (2^m - 1)) == (y | (2^m - 1))` of Listing 4 compares
the blocks `x / 2^m` and `y / 2^m`. -/
theorem lor_mask_eq_iff (m x y : ℕ) :
    (x ||| (2 ^ m - 1)) = (y ||| (2 ^ m - 1)) ↔ x / 2 ^ m = y / 2 ^ m := by
  constructor
  · intro h
    apply Nat.eq_of_testBit_eq
    intro i
    have hx := congrArg (fun z => z.testBit (m + i)) h
    simp only [Nat.testBit_lor, Nat.testBit_two_pow_sub_one] at hx
    rw [decide_eq_false (by omega), Bool.or_false, Bool.or_false,
      testBit_high, testBit_high] at hx
    exact hx
  · intro h
    apply Nat.eq_of_testBit_eq
    intro i
    rcases lt_or_le i m with hi | hi
    · simp only [Nat.testBit_lor, Nat.testBit_two_pow_sub_one,
        decide_eq_true hi, Bool.or_true]
    · obtain ⟨i', rfl⟩ := Nat.exists_eq_add_of_le hi
      simp only [Nat.testBit_lor, Nat.testBit_two_pow_sub_one,
        decide_eq_false (show ¬(m + i' < m) from by omega), Bool.or_false]
      rw [testBit_high, testBit_high, h]

/-- For stage parameters `p = 2^a`, `k = 2^b` with `b ≤ a`, and `j` of the
loop form `k % p + 2k·s`: all positions `j + i` with `i < k` are in the same
block as `j` — Listing 4's one-per-`j` test is equivalent to the per-element
test of Listings 1 and 3. -/
theorem window_block_shift {a b : ℕ} (hba : b ≤ a) (s i : ℕ)
    (hi : i < 2 ^ b) :
    sameBlock (2 ^ a) (2 ^ b) (2 ^ b % 2 ^ a + 2 * 2 ^ b * s) ↔
      sameBlock (2 ^ a) (2 ^ b) (2 ^ b % 2 ^ a + 2 * 2 ^ b * s + i) := by
  set k := 2 ^ b with hk
  set p := 2 ^ a with hp
  set j := k % p + 2 * k * s with hj
  have hkpos : 0 < k := by positivity
  have hppos : 0 < p := by positivity
  rcases eq_or_lt_of_le hba with rfl | hba'
  · -- k = p : the window start is 0, both tests always hold
    have hpk : p = k := by rw [hp, hk]
    have hkp : k % p = 0 := by rw [hpk, Nat.mod_self]
    have hj2p : j % (2 * p) = 0 := by
      rw [hj, hkp, Nat.zero_add, hpk, Nat.mul_mod_right]
    have hji : (j + i) % (2 * p) = i := by
      have h1 : j + i = 2 * p * s + i := by rw [hj, hkp, hpk]; ring
      exact (mod_div_eq_of_eq (by omega) h1 (by omega)).1
    unfold sameBlock
    rw [hj2p, hji]
    omega
  · -- k < p
    have hklt : k < p := Nat.pow_lt_pow_right (by norm_num) hba'
    have hkp : k % p = k := Nat.mod_eq_of_lt hklt
    obtain ⟨c, hc⟩ : 2 * k ∣ 2 * p := by
      rw [hk, hp, show 2 * 2 ^ b = 2 ^ (b + 1) from by ring,
        show 2 * 2 ^ a = 2 ^ (a + 1) from by ring]
      exact pow_dvd_pow 2 (by omega)
    -- j % 2k = k
    have hjmod : j % (2 * k) = k := by
      have h1 : j = 2 * k * s + k := by rw [hj, hkp]; ring
      exact (mod_div_eq_of_eq (by omega) h1 (by omega)).1
    have hrmod : j % (2 * p) % (2 * k) = k := by
      rw [Nat.mod_mod_of_dvd j ⟨c, hc⟩, hjmod]
    set r := j % (2 * p) with hr
    have hrlt : r < 2 * p := Nat.mod_lt j (by omega)
    obtain ⟨u, hru⟩ : ∃ u, r = 2 * k * u + k := by
      refine ⟨r / (2 * k), ?_⟩
      have h1 := Nat.div_add_mod r (2 * k)
      rw [hrmod] at h1
      omega
    have hulup : 2 * k * u + k < 2 * k * c := by omega
    have huc : u < c := by
      by_contra hge
      push_neg at hge
      have h2 := Nat.mul_le_mul_left (2 * k) hge
      omega
    have hric : 2 * k * (u + 1) ≤ 2 * k * c := Nat.mul_le_mul_left _ (by omega)
    have he1 : 2 * k * (u + 1) = 2 * k * u + 2 * k := by ring
    have hri : r + i < 2 * p := by omega
    have hji2 : (j + i) % (2 * p) = r + i := by
      have h1 := Nat.div_add_mod j (2 * p)
      exact (mod_div_eq_of_eqE _ _ (j / (2 * p)) _ (by omega) (by omega) hri).1
    unfold sameBlock
    rw [hji2]
    constructor
    · intro hsb
      have h2 : 2 * k * (u + 1) < 2 * k * c := by omega
      have h3 : u + 1 < c := Nat.lt_of_mul_lt_mul_left h2
      have h4 : 2 * k * (u + 2) ≤ 2 * k * c := Nat.mul_le_mul_left _ (by omega)
      have he2 : 2 * k * (u + 2) = 2 * k * u + 4 * k := by ring
      omega
    · intro hsb
      omega

theorem mem_l4I {n a k j : ℕ} {q : ℕ × ℕ} :
    q ∈ l4I n (2 ^ a) k j ↔
      sameBlock (2 ^ a) k j ∧
        ∃ i, i < k ∧ j + i + k < n ∧ q = (j + i, j + i + k) := by
  unfold l4I
  have hm : 2 * 2 ^ a = 2 ^ (a + 1) := by ring
  have htest : ((j ||| (2 * 2 ^ a - 1)) = ((j + k) ||| (2 * 2 ^ a - 1))) ↔
      sameBlock (2 ^ a) k j := by
    rw [hm, lor_mask_eq_iff, ← hm, div_eq_div_add_iff (by positivity)]
    exact Iff.rfl
  by_cases h : sameBlock (2 ^ a) k j
  · rw [if_pos (htest.2 h)]
    simp only [List.mem_map, List.mem_reverse, List.mem_range]
    constructor
    · rintro ⟨i, hi, rfl⟩
      exact ⟨h, i, by omega, by omega, rfl⟩
    · rintro ⟨-, i, hik, hn, rfl⟩
      exact ⟨i, by omega, rfl⟩
  · rw [if_neg (fun hc => h (htest.1 hc))]
    simp only [List.not_mem_nil, false_iff]
    rintro ⟨hc, -⟩
    exact h hc

theorem mem_l4J {n a b : ℕ} (hba : b ≤ a) {q : ℕ × ℕ} :
    q ∈ l4J n (2 ^ a) (2 ^ b) ↔
      ∃ x, q = (x, x + 2 ^ b) ∧ x + 2 ^ b < n ∧
        inWindow (2 ^ a) (2 ^ b) x ∧ sameBlock (2 ^ a) (2 ^ b) x := by
  set k := 2 ^ b with hk
  set p := 2 ^ a with hp
  have hkpos : 0 < k := by positivity
  have hppos : 0 < p := by positivity
  have hkp : k % p ≤ k := Nat.mod_le k p
  have hmask : k &&& (p - 1) = k % p := by
    rw [hk, hp, Nat.and_pow_two_sub_one_eq_mod]
  unfold l4J
  rw [hmask]
  simp only [List.mem_flatMap]
  constructor
  · rintro ⟨j, hj, hq⟩
    rw [mem_stepRange (by omega)] at hj
    obtain ⟨t, rfl, hjlt⟩ := hj
    rw [hp, mem_l4I, ← hp] at hq
    obtain ⟨hblockj, i, hik, hin, rfl⟩ := hq
    have hblock : sameBlock p k (k % p + 2 * k * t + i) := by
      rw [hk, hp] at hblockj ⊢
      exact (window_block_shift hba t i (hk ▸ hik)).1 hblockj
    refine ⟨k % p + 2 * k * t + i, rfl, by omega, ?_, hblock⟩
    have hmod : (k % p + 2 * k * t + i) % (2 * k) = k % p + i := by
      exact (mod_div_eq_of_eqE (k % p + 2 * k * t + i) (2 * k) t
        (k % p + i) (by omega) (by ring) (by omega)).1
    unfold inWindow
    rw [hmod]
    omega
  · rintro ⟨x, rfl, hxn, hwin, hblock⟩
    obtain ⟨hw1, hw2⟩ := hwin
    have hdm := Nat.div_add_mod x (2 * k)
    have hmlt : x % (2 * k) < 2 * k := Nat.mod_lt x (by omega)
    set i := x % (2 * k) - k % p with hi
    have hxeq : k % p + 2 * k * (x / (2 * k)) + i = x := by
      generalize hg : 2 * k * (x / (2 * k)) = w at hdm ⊢
      omega
    have hblockj : sameBlock p k (k % p + 2 * k * (x / (2 * k))) := by
      rw [hk, hp]
      exact (window_block_shift hba (x / (2 * k)) i (by rw [← hk]; omega)).2
        (by rw [← hk, ← hp, hxeq]; exact hblock)
    refine ⟨k % p + 2 * k * (x / (2 * k)), ?_, ?_⟩
    · rw [mem_stepRange (by omega)]
      refine ⟨x / (2 * k), rfl, ?_⟩
      generalize hg : 2 * k * (x / (2 * k)) = w at hdm ⊢
      omega
    · rw [hp, mem_l4I, ← hp]
      refine ⟨hblockj, i, by omega, by omega, ?_⟩
      rw [hxeq]

/-! ### Listing 2's loop bounds -/

theorem mem_l2M {n p k i j : ℕ} (hp : 0 < p) {q : ℕ × ℕ} :
    q ∈ l2M n p k i j ↔
      ∃ t, q = (i + j + 2 * p * t, i + j + 2 * p * t + k) ∧
        i + j + 2 * p * t + k < n := by
  unfold l2M
  simp only [List.mem_map]
  constructor
  · rintro ⟨m, hm, rfl⟩
    rw [mem_stepRange (by omega)] at hm
    obtain ⟨t, rfl, hlt⟩ := hm
    exact ⟨t, rfl, by omega⟩
  · rintro ⟨t, rfl, hlt⟩
    refine ⟨i + j + 2 * p * t, ?_, rfl⟩
    rw [mem_stepRange (by omega)]
    exact ⟨t, rfl, by omega⟩

theorem mem_l2I {n p k j : ℕ} (hp : 0 < p) (hjk : j + k ≤ 2 * p)
    {q : ℕ × ℕ} :
    q ∈ l2I n p k j ↔
      ∃ i, i < k ∧ ∃ m, q = (m, m + k) ∧ m + k < n ∧
        m % (2 * p) = i + j := by
  unfold l2I
  simp only [List.mem_flatMap, List.mem_range]
  constructor
  · rintro ⟨i, hik, hq⟩
    rw [mem_l2M hp] at hq
    obtain ⟨t, rfl, hlt⟩ := hq
    refine ⟨i, hik, i + j + 2 * p * t, rfl, hlt, ?_⟩
    exact (mod_div_eq_of_eqE _ _ t _ (by omega) (by ring) (by omega)).1
  · rintro ⟨i, hik, m, rfl, hmk, hmod⟩
    refine ⟨i, hik, ?_⟩
    rw [mem_l2M hp]
    refine ⟨m / (2 * p), ?_, ?_⟩
    · have h1 := Nat.div_add_mod m (2 * p)
      have h2 : m = i + j + 2 * p * (m / (2 * p)) := by omega
      rw [← h2]
    · have h1 := Nat.div_add_mod m (2 * p)
      omega

theorem mem_l2J {n p k : ℕ} (hp : 0 < p) (hk : 0 < k) (hdvd : k ∣ p)
    {q : ℕ × ℕ} :
    q ∈ l2J n p k ↔
      ∃ x, q = (x, x + k) ∧ x + k < n ∧ inWindow p k x ∧ sameBlock p k x := by
  obtain ⟨c, hc⟩ := hdvd
  have hdvd2 : 2 * k ∣ 2 * p := ⟨c, by rw [hc]; ring⟩
  have hklep : k ≤ p := Nat.le_of_dvd hp ⟨c, hc⟩
  have hkp : k % p ≤ k := Nat.mod_le k p
  unfold l2J
  simp only [List.mem_flatMap]
  constructor
  · rintro ⟨j, hj, hq⟩
    rw [mem_stepRange (by omega)] at hj
    obtain ⟨s, rfl, hjlt⟩ := hj
    set j := k % p + 2 * k * s with hjdef
    have hj2p : j + k ≤ 2 * p := by omega
    rw [mem_l2I hp hj2p] at hq
    obtain ⟨i, hik, m, rfl, hmk, hmod⟩ := hq
    have hwmod : m % (2 * k) = k % p + i := by
      rw [← Nat.mod_mod_of_dvd m hdvd2, hmod, hjdef]
      exact (mod_div_eq_of_eqE _ _ s _ (by omega) (by ring) (by omega)).1
    have hblock : m % (2 * p) + k < 2 * p := by
      rw [hmod]
      rcases eq_or_lt_of_le hklep with rfl | hlt
      · -- k = p
        have hk0 : k % k = 0 := Nat.mod_self k
        have hs0 : 2 * k * s + k < 2 * k := by
          rw [hjdef, hk0] at hjlt
          omega
        have hs0' : s = 0 := by
          by_contra hne
          have h1 : 2 * k * 1 ≤ 2 * k * s :=
            Nat.mul_le_mul_left _ (by omega)
          omega
        rw [hjdef, hk0, hs0']
        have he : 2 * k * 0 = 0 := by ring
        omega
      · -- k < p
        have hkpk : k % p = k := Nat.mod_eq_of_lt hlt
        have hjk2 : 2 * k * (s + 1) < 2 * k * c := by
          have he : 2 * k * (s + 1) = 2 * k * s + 2 * k := by ring
          have hcc : 2 * k * c = 2 * p := by rw [hc]; ring
          rw [hjdef, hkpk] at hjlt
          omega
        have hsc : s + 1 < c := Nat.lt_of_mul_lt_mul_left hjk2
        have h4 : 2 * k * (s + 2) ≤ 2 * k * c := Nat.mul_le_mul_left _ (by omega)
        have he2 : 2 * k * (s + 2) = 2 * k * s + 4 * k := by ring
        have hcc : 2 * k * c = 2 * p := by rw [hc]; ring
        rw [hjdef, hkpk]
        omega
    exact ⟨m, rfl, hmk, ⟨by omega, by omega⟩, hblock⟩
  · rintro ⟨x, rfl, hxn, hwin, hblock⟩
    obtain ⟨hw1, hw2⟩ := hwin
    unfold sameBlock at hblock
    have hr2k : x % (2 * p) % (2 * k) = x % (2 * k) :=
      Nat.mod_mod_of_dvd x hdvd2
    have hrlt : x % (2 * p) < 2 * p := Nat.mod_lt x (by omega)
    have hmlt : x % (2 * k) < 2 * k := Nat.mod_lt x (by omega)
    obtain ⟨w, hw⟩ : ∃ w, x % (2 * p) = 2 * k * w + x % (2 * k) := by
      refine ⟨x % (2 * p) / (2 * k), ?_⟩
      have h1 := Nat.div_add_mod (x % (2 * p)) (2 * k)
      rw [hr2k] at h1
      omega
    set i := x % (2 * k) - k % p with hi
    have hjbound : k % p + 2 * k * w + k < 2 * p := by
      rcases eq_or_lt_of_le hklep with rfl | hlt
      · -- k = p : here 2k = 2p, so w = 0
        have hk0 : k % k = 0 := Nat.mod_self k
        have hw0 : 2 * k * w = 0 := by omega
        omega
      · have hkpk : k % p = k := Nat.mod_eq_of_lt hlt
        have he : 2 * k * (w + 1) = 2 * k * w + 2 * k := by ring
        omega
    refine ⟨k % p + 2 * k * w, ?_, ?_⟩
    · rw [mem_stepRange (by omega)]
      exact ⟨w, rfl, by omega⟩
    · rw [mem_l2I hp (by omega)]
      exact ⟨i, by omega, x, rfl, hxn, by omega⟩

/-! ### Full-schedule membership -/

theorem mem_revRange_flatMap {α : Type} (F : ℕ → List α) (a : ℕ) (x : α) :
    (x ∈ ((List.range (a + 1)).reverse).flatMap F) ↔ ∃ b, b ≤ a ∧ x ∈ F b := by
  simp only [List.mem_flatMap, List.mem_reverse, List.mem_range,
    Nat.lt_succ_iff]

theorem mem_phases_flatMap {α : Type} (F : ℕ → List α) (n : ℕ) (x : α) :
    (x ∈ (List.range n).flatMap fun a => if 2 ^ a < n then F a else []) ↔
      ∃ a, 2 ^ a < n ∧ x ∈ F a := by
  simp only [List.mem_flatMap, List.mem_range]
  constructor
  · rintro ⟨a, han, hx⟩
    by_cases h : 2 ^ a < n
    · rw [if_pos h] at hx
      exact ⟨a, h, hx⟩
    · rw [if_neg h] at hx
      cases hx
  · rintro ⟨a, h, hx⟩
    refine ⟨a, lt_trans (Nat.lt_two_pow a) h, ?_⟩
    rw [if_pos h]
    exact hx

theorem mem_batcher1Pairs {n : ℕ} {q : ℕ × ℕ} :
    q ∈ batcher1Pairs n ↔
      ∃ a b, b ≤ a ∧ 2 ^ a < n ∧ q ∈ l1J n (2 ^ a) (2 ^ b) := by
  unfold batcher1Pairs
  rw [mem_phases_flatMap]
  constructor
  · rintro ⟨a, han, hq⟩
    rw [show l1K n a = ((List.range (a + 1)).reverse).flatMap
        (fun b => l1J n (2 ^ a) (2 ^ b)) from rfl,
      mem_revRange_flatMap] at hq
    obtain ⟨b, hba, hq⟩ := hq
    exact ⟨a, b, hba, han, hq⟩
  · rintro ⟨a, b, hba, han, hq⟩
    refine ⟨a, han, ?_⟩
    rw [show l1K n a = ((List.range (a + 1)).reverse).flatMap
        (fun b => l1J n (2 ^ a) (2 ^ b)) from rfl,
      mem_revRange_flatMap]
    exact ⟨b, hba, hq⟩

theorem mem_batcher2Pairs {n : ℕ} {q : ℕ × ℕ} :
    q ∈ batcher2Pairs n ↔
      ∃ a b, b ≤ a ∧ 2 ^ a < n ∧ q ∈ l2J n (2 ^ a) (2 ^ b) := by
  unfold batcher2Pairs
  rw [mem_phases_flatMap]
  constructor
  · rintro ⟨a, han, hq⟩
    rw [show l2K n a = ((List.range (a + 1)).reverse).flatMap
        (fun b => l2J n (2 ^ a) (2 ^ b)) from rfl,
      mem_revRange_flatMap] at hq
    obtain ⟨b, hba, hq⟩ := hq
    exact ⟨a, b, hba, han, hq⟩
  · rintro ⟨a, b, hba, han, hq⟩
    refine ⟨a, han, ?_⟩
    rw [show l2K n a = ((List.range (a + 1)).reverse).flatMap
        (fun b => l2J n (2 ^ a) (2 ^ b)) from rfl,
      mem_revRange_flatMap]
    exact ⟨b, hba, hq⟩

theorem mem_batcher3Pairs {n : ℕ} {q : ℕ × ℕ} :
    q ∈ batcher3Pairs n ↔
      ∃ a b, b ≤ a ∧ 2 ^ a < n ∧ q ∈ l3J n (2 ^ a) (2 ^ b) := by
  unfold batcher3Pairs
  rw [mem_phases_flatMap]
  constructor
  · rintro ⟨a, han, hq⟩
    rw [show l3K n a = ((List.range (a + 1)).reverse).flatMap
        (fun b => l3J n (2 ^ a) (2 ^ b)) from rfl,
      mem_revRange_flatMap] at hq
    obtain ⟨b, hba, hq⟩ := hq
    exact ⟨a, b, hba, han, hq⟩
  · rintro ⟨a, b, hba, han, hq⟩
    refine ⟨a, han, ?_⟩
    rw [show l3K n a = ((List.range (a + 1)).reverse).flatMap
        (fun b => l3J n (2 ^ a) (2 ^ b)) from rfl,
      mem_revRange_flatMap]
    exact ⟨b, hba, hq⟩

theorem mem_batcher4Pairs {n : ℕ} {q : ℕ × ℕ} :
    q ∈ batcher4Pairs n ↔
      ∃ a b, b ≤ a ∧ 2 ^ a < n ∧ q ∈ l4J n (2 ^ a) (2 ^ b) := by
  unfold batcher4Pairs
  rw [mem_phases_flatMap]
  constructor
  · rintro ⟨a, han, hq⟩
    rw [show l4K n a = ((List.range (a + 1)).reverse).flatMap
        (fun b => l4J n (2 ^ a) (2 ^ b)) from rfl,
      mem_revRange_flatMap] at hq
    obtain ⟨b, hba, hq⟩ := hq
    exact ⟨a, b, hba, han, hq⟩
  · rintro ⟨a, b, hba, han, hq⟩
    refine ⟨a, han, ?_⟩
    rw [show l4K n a = ((List.range (a + 1)).reverse).flatMap
        (fun b => l4J n (2 ^ a) (2 ^ b)) from rfl,
      mem_revRange_flatMap]
    exact ⟨b, hba, hq⟩

/-! ### The reference network of the specification -/

/-- Modelled from the spec (§3 "Invariant", §4.1 table and glossary):
Batcher's odd-even merge network restricted to indices `< n` — for every
phase `p = 2^a < n` and merge distance `k = 2^b ≤ p`, the comparators
`(x, x + k)` whose position `x` lies in the stage window
`x mod 2k ∈ [k mod p, k mod p + k)`, whose endpoints lie in the same
`2p`-aligned merge block, and whose second index is `< n` ("pairs whose
second index would be `≥ n` are skipped"). -/
def specBatcherNet (n : ℕ) (q : ℕ × ℕ) : Prop :=
  ∃ a b x, b ≤ a ∧ 2 ^ a < n ∧ q = (x, x + 2 ^ b) ∧ x + 2 ^ b < n ∧
    inWindow (2 ^ a) (2 ^ b) x ∧ sameBlock (2 ^ a) (2 ^ b) x

theorem batcher2Pairs_iff_net {n : ℕ} {q : ℕ × ℕ} :
    q ∈ batcher2Pairs n ↔ specBatcherNet n q := by
  rw [mem_batcher2Pairs]
  unfold specBatcherNet
  constructor
  · rintro ⟨a, b, hba, han, hq⟩
    rw [mem_l2J (by positivity) (by positivity) (pow_dvd_pow 2 hba)] at hq
    obtain ⟨x, rfl, hxn, hwin, hblock⟩ := hq
    exact ⟨a, b, x, hba, han, rfl, hxn, hwin, hblock⟩
  · rintro ⟨a, b, x, hba, han, rfl, hxn, hwin, hblock⟩
    refine ⟨a, b, hba, han, ?_⟩
    rw [mem_l2J (by positivity) (by positivity) (pow_dvd_pow 2 hba)]
    exact ⟨x, rfl, hxn, hwin, hblock⟩

theorem batcher3Pairs_iff_net {n : ℕ} {q : ℕ × ℕ} :
    q ∈ batcher3Pairs n ↔ specBatcherNet n q := by
  rw [mem_batcher3Pairs]
  unfold specBatcherNet
  constructor
  · rintro ⟨a, b, hba, han, hq⟩
    rw [mem_l3J (by positivity) (by positivity)] at hq
    obtain ⟨x, rfl, hxn, hwin, hblock⟩ := hq
    exact ⟨a, b, x, hba, han, rfl, hxn, hwin, hblock⟩
  · rintro ⟨a, b, x, hba, han, rfl, hxn, hwin, hblock⟩
    refine ⟨a, b, hba, han, ?_⟩
    rw [mem_l3J (by positivity) (by positivity)]
    exact ⟨x, rfl, hxn, hwin, hblock⟩

theorem batcher4Pairs_iff_net {n : ℕ} {q : ℕ × ℕ} :
    q ∈ batcher4Pairs n ↔ specBatcherNet n q := by
  rw [mem_batcher4Pairs]
  unfold specBatcherNet
  constructor
  · rintro ⟨a, b, hba, han, hq⟩
    rw [mem_l4J hba] at hq
    obtain ⟨x, rfl, hxn, hwin, hblock⟩ := hq
    exact ⟨a, b, x, hba, han, rfl, hxn, hwin, hblock⟩
  · rintro ⟨a, b, x, hba, han, rfl, hxn, hwin, hblock⟩
    refine ⟨a, b, hba, han, ?_⟩
    rw [mem_l4J hba]
    exact ⟨x, rfl, hxn, hwin, hblock⟩

/-- Listing 1's wider inner loop (`i < n-j-k` instead of `i < k`) revisits
pairs, but every pair it visits still belongs to the network: a visited pair
`(x, x+k)` outside the stage window of its `(p,k)` stage is the stage-`(k,k)`
comparator of the phase `p' = k`. -/
theorem batcher1Pairs_iff_net {n : ℕ} {q : ℕ × ℕ} :
    q ∈ batcher1Pairs n ↔ specBatcherNet n q := by
  rw [mem_batcher1Pairs]
  unfold specBatcherNet
  constructor
  · rintro ⟨a, b, hba, han, hq⟩
    rw [mem_l1J (by positivity) (by positivity)] at hq
    obtain ⟨x, rfl, hx0, hxn, hblock⟩ := hq
    have hmlt : x % (2 * 2 ^ b) < 2 * 2 ^ b := Nat.mod_lt x (by positivity)
    rcases lt_or_le (x % (2 * 2 ^ b)) (2 ^ b) with hlow | hhigh
    · -- below the window: this is the `k = p` comparator of phase `2^b`
      refine ⟨b, b, x, le_refl b, by omega, rfl, hxn, ?_, ?_⟩
      · unfold inWindow
        rw [Nat.mod_self]
        omega
      · unfold sameBlock
        omega
    · -- in the window: same stage
      have hbalt : b < a := by
        rcases eq_or_lt_of_le hba with rfl | h
        · exfalso
          unfold sameBlock at hblock
          omega
        · exact h
      have hkp : 2 ^ b % 2 ^ a = 2 ^ b :=
        Nat.mod_eq_of_lt (Nat.pow_lt_pow_right (by norm_num) hbalt)
      refine ⟨a, b, x, hba, han, rfl, hxn, ?_, hblock⟩
      unfold inWindow
      rw [hkp]
      omega
  · rintro ⟨a, b, x, hba, han, rfl, hxn, hwin, hblock⟩
    refine ⟨a, b, hba, han, ?_⟩
    rw [mem_l1J (by positivity) (by positivity)]
    refine ⟨x, rfl, ?_, hxn, hblock⟩
    obtain ⟨hw1, hw2⟩ := hwin
    exact le_trans hw1 (Nat.mod_le x _)

/-! ### Index-disjointness of the pairs inside one `(p,k,j)` group -/

/-- Two comparator pairs touch no common array position. -/
def pairDisj (q1 q2 : ℕ × ℕ) : Prop :=
  q1.1 ≠ q2.1 ∧ q1.1 ≠ q2.2 ∧ q1.2 ≠ q2.1 ∧ q1.2 ≠ q2.2

instance (q1 q2 : ℕ × ℕ) : Decidable (pairDisj q1 q2) := by
  unfold pairDisj; infer_instance

theorem stepRange_pairwise (start step stop : ℕ) :
    (stepRange start step stop).Pairwise fun m m' => m + step ≤ m' := by
  unfold stepRange
  rw [List.pairwise_map]
  apply List.Pairwise.imp_of_mem ?_ (List.pairwise_lt_range _)
  intro t t' _ _ htt
  have h1 : step * (t + 1) ≤ step * t' := Nat.mul_le_mul_left _ (by omega)
  have h2 : step * (t + 1) = step * t + step := by ring
  omega

theorem l3I_pairwise (n p k j : ℕ) : (l3I n p k j).Pairwise pairDisj := by
  unfold l3I
  rw [List.pairwise_filterMap, List.pairwise_reverse]
  apply List.Pairwise.imp_of_mem ?_ (List.pairwise_lt_range _)
  intro i i' hi hi' hlt q hq q' hq'
  rw [List.mem_range] at hi hi'
  have hik : i < k := by omega
  have hik' : i' < k := by omega
  split at hq
  · rw [Option.mem_some_iff] at hq
    split at hq'
    · rw [Option.mem_some_iff] at hq'
      subst hq hq'
      unfold pairDisj
      simp only [Prod.fst, Prod.snd]
      omega
    · cases hq'
  · cases hq

theorem l4I_pairwise (n p k j : ℕ) : (l4I n p k j).Pairwise pairDisj := by
  unfold l4I
  split
  · rw [List.pairwise_map, List.pairwise_reverse]
    apply List.Pairwise.imp_of_mem ?_ (List.pairwise_lt_range _)
    intro i i' hi hi' hlt
    rw [List.mem_range] at hi hi'
    unfold pairDisj
    simp only [Prod.fst, Prod.snd]
    omega
  · exact List.Pairwise.nil

theorem l2I_pairwise (n p k j : ℕ) (hp : 0 < p) (hkp : k ≤ p) :
    (l2I n p k j).Pairwise pairDisj := by
  unfold l2I
  rw [List.pairwise_flatMap]
  constructor
  · intro i _
    unfold l2M
    rw [List.pairwise_map]
    apply List.Pairwise.imp ?_ (stepRange_pairwise _ _ _)
    intro m m' hmm
    unfold pairDisj
    simp only [Prod.fst, Prod.snd]
    omega
  · apply List.Pairwise.imp_of_mem ?_ (List.pairwise_lt_range _)
    intro i i' hi hi' hlt q hq q' hq'
    rw [List.mem_range] at hi hi'
    rw [mem_l2M hp] at hq hq'
    obtain ⟨t, rfl, -⟩ := hq
    obtain ⟨t', rfl, -⟩ := hq'
    have key : ∀ (u v s s' : ℕ), u < 2 * p → v < 2 * p →
        u + 2 * p * s = v + 2 * p * s' → u = v := by
      intro u v s s' hu hv he
      have h1 : (u + 2 * p * s) % (2 * p) = u :=
        (mod_div_eq_of_eqE _ _ s _ (by omega) (by ring) hu).1
      have h2 : (v + 2 * p * s') % (2 * p) = v :=
        (mod_div_eq_of_eqE _ _ s' _ (by omega) (by ring) hv).1
      rw [he, h2] at h1
      exact h1.symm
    unfold pairDisj
    simp only [Prod.fst, Prod.snd]
    refine ⟨?_, ?_, ?_, ?_⟩
    · intro he
      have := key i i' t t' (by omega) (by omega) (by omega)
      omega
    · intro he
      have := key i (i' + k) t t' (by omega) (by omega) (by omega)
      omega
    · intro he
      have := key (i + k) i' t t' (by omega) (by omega) (by omega)
      omega
    · intro he
      have := key i i' t t' (by omega) (by omega) (by omega)
      omega

/-- Applying any schedule of in-bounds pairs permutes the array. -/
theorem applyPairs_perm {ps : List (ℕ × ℕ)} {A : List ℤ}
    (h : ∀ q ∈ ps, q.1 < q.2 ∧ q.2 < A.length) :
    List.Perm (applyPairs ps A) A := by
  induction ps generalizing A with
  | nil => exact List.Perm.refl A
  | cons q ps ih =>
    rw [applyPairs_cons]
    have hq := h q (List.mem_cons_self q ps)
    have h1 : List.Perm (cmpExch q.1 q.2 A) A := cmpExch_perm hq.1 hq.2
    refine List.Perm.trans (ih ?_) h1
    intro r hr
    have := h r (List.mem_cons_of_mem q hr)
    rwa [length_cmpExch]

/-! ### Bounds and permutation corollaries -/

theorem net_bounds {n : ℕ} {q : ℕ × ℕ} (h : specBatcherNet n q) :
    q.1 < q.2 ∧ q.2 < n := by
  obtain ⟨a, b, x, hba, han, rfl, hxn, -, -⟩ := h
  have hb : 0 < 2 ^ b := pow_pos (by norm_num) b
  exact ⟨by simp only [Prod.fst, Prod.snd]; omega,
    by simp only [Prod.snd]; omega⟩

theorem batcher1Pairs_bounds {n : ℕ} {q : ℕ × ℕ} (h : q ∈ batcher1Pairs n) :
    q.1 < q.2 ∧ q.2 < n := net_bounds (batcher1Pairs_iff_net.1 h)

theorem batcher2Pairs_bounds {n : ℕ} {q : ℕ × ℕ} (h : q ∈ batcher2Pairs n) :
    q.1 < q.2 ∧ q.2 < n := net_bounds (batcher2Pairs_iff_net.1 h)

theorem batcher3Pairs_bounds {n : ℕ} {q : ℕ × ℕ} (h : q ∈ batcher3Pairs n) :
    q.1 < q.2 ∧ q.2 < n := net_bounds (batcher3Pairs_iff_net.1 h)

theorem batcher4Pairs_bounds {n : ℕ} {q : ℕ × ℕ} (h : q ∈ batcher4Pairs n) :
    q.1 < q.2 ∧ q.2 < n := net_bounds (batcher4Pairs_iff_net.1 h)

theorem sortListing1_perm {n : ℕ} {A : List ℤ} (h : A.length = n) :
    List.Perm (sortListing1 A n) A := by
  rw [sortListing1_eq]
  exact applyPairs_perm fun q hq => by
    have hb := batcher1Pairs_bounds hq
    omega

theorem sortListing2_perm {n : ℕ} {A : List ℤ} (h : A.length = n) :
    List.Perm (sortListing2 A n) A := by
  rw [sortListing2_eq]
  exact applyPairs_perm fun q hq => by
    have hb := batcher2Pairs_bounds hq
    omega

theorem sortListing3_perm {n : ℕ} {A : List ℤ} (h : A.length = n) :
    List.Perm (sortListing3 A n) A := by
  rw [sortListing3_eq]
  exact applyPairs_perm fun q hq => by
    have hb := batcher3Pairs_bounds hq
    omega

theorem sortListing4_perm {n : ℕ} {A : List ℤ} (h : A.length = n) :
    List.Perm (sortListing4 A n) A := by
  rw [sortListing4_eq]
  exact applyPairs_perm fun q hq => by
    have hb := batcher4Pairs_bounds hq
    omega

/-! ## Functional view of compare-exchange schedules

For the sortedness proof we work with total states `f : ℕ → ℤ`; a
compare-exchange writes the min to the lower index and the max to the upper
index. -/

/-- Compare-exchange on a functional state. -/
def cmpExchF (x y : ℕ) (f : ℕ → ℤ) : ℕ → ℤ := fun z =>
  if z = x then min (f x) (f y) else if z = y then max (f x) (f y) else f z

/-- Apply a schedule of compare-exchanges to a functional state. -/
def applyPairsF (ps : List (ℕ × ℕ)) (f : ℕ → ℤ) : ℕ → ℤ :=
  ps.foldl (fun g q => cmpExchF q.1 q.2 g) f

theorem applyPairsF_nil (f : ℕ → ℤ) : applyPairsF [] f = f := rfl

theorem applyPairsF_cons (q : ℕ × ℕ) (ps : List (ℕ × ℕ)) (f : ℕ → ℤ) :
    applyPairsF (q :: ps) f = applyPairsF ps (cmpExchF q.1 q.2 f) := rfl

theorem applyPairsF_append (ps qs : List (ℕ × ℕ)) (f : ℕ → ℤ) :
    applyPairsF (ps ++ qs) f = applyPairsF qs (applyPairsF ps f) := by
  simp [applyPairsF, List.foldl_append]

theorem cmpExchF_apply_fst (x y : ℕ) (f : ℕ → ℤ) :
    cmpExchF x y f x = min (f x) (f y) := by
  unfold cmpExchF
  rw [if_pos rfl]

theorem cmpExchF_apply_snd {x y : ℕ} (hxy : x ≠ y) (f : ℕ → ℤ) :
    cmpExchF x y f y = max (f x) (f y) := by
  unfold cmpExchF
  rw [if_neg (Ne.symm hxy), if_pos rfl]

theorem cmpExchF_apply_other {x y z : ℕ} (hx : z ≠ x) (hy : z ≠ y)
    (f : ℕ → ℤ) : cmpExchF x y f z = f z := by
  unfold cmpExchF
  rw [if_neg hx, if_neg hy]

/-- `getD` after a list-level compare-exchange agrees with the functional
compare-exchange, for in-bounds ordered pairs. -/
theorem getD_cmpExch_eq_cmpExchF {x y : ℕ} (hxy : x < y) {A : List ℤ}
    (hy : y < A.length) :
    (fun z => (cmpExch x y A).getD z 0) =
      cmpExchF x y (fun z => A.getD z 0) := by
  funext z
  by_cases hzx : z = x
  · subst hzx
    rw [cmpExchF_apply_fst, cmpExch_getD_fst (by omega) (by omega)]
  · by_cases hzy : z = y
    · subst hzy
      rw [cmpExchF_apply_snd (by omega), cmpExch_getD_snd x hy]
    · rw [cmpExchF_apply_other hzx hzy, cmpExch_getD_other hzx hzy]

/-- Transfer of a whole schedule from the list view to the functional
view. -/
theorem getD_applyPairs_eq_applyPairsF {ps : List (ℕ × ℕ)} {A : List ℤ}
    (h : ∀ q ∈ ps, q.1 < q.2 ∧ q.2 < A.length) :
    (fun z => (applyPairs ps A).getD z 0) =
      applyPairsF ps (fun z => A.getD z 0) := by
  induction ps generalizing A with
  | nil => rfl
  | cons q ps ih =>
    rw [applyPairs_cons, applyPairsF_cons]
    have hq := h q (List.mem_cons_self q ps)
    rw [ih fun r hr => by
        have := h r (List.mem_cons_of_mem q hr)
        rwa [length_cmpExch],
      getD_cmpExch_eq_cmpExchF hq.1 hq.2]

/-! ### The 0-1 principle -/

theorem cmpExchF_map_monotone {g : ℤ → ℤ} (hg : Monotone g) (x y : ℕ)
    (f : ℕ → ℤ) :
    cmpExchF x y (fun z => g (f z)) = fun z => g (cmpExchF x y f z) := by
  funext z
  unfold cmpExchF
  split
  · exact (hg.map_min).symm
  · split
    · exact (hg.map_max).symm
    · rfl

theorem applyPairsF_map_monotone {g : ℤ → ℤ} (hg : Monotone g)
    (ps : List (ℕ × ℕ)) (f : ℕ → ℤ) :
    applyPairsF ps (fun z => g (f z)) = fun z => g (applyPairsF ps f z) := by
  induction ps generalizing f with
  | nil => rfl
  | cons q ps ih =>
    rw [applyPairsF_cons, applyPairsF_cons, cmpExchF_map_monotone hg, ih]

/-- Threshold maps are monotone. -/
theorem monotone_threshold (t : ℤ) :
    Monotone (fun v : ℤ => if t ≤ v then (1 : ℤ) else 0) := by
  intro u v huv
  simp only
  by_cases h : t ≤ u
  · rw [if_pos h, if_pos (le_trans h huv)]
  · rw [if_neg h]
    split <;> norm_num

/-- The 0-1 principle: a schedule that sorts every 0-1 state sorts every
state. -/
theorem zero_one_principle (S : List (ℕ × ℕ)) (n : ℕ)
    (h01 : ∀ f : ℕ → ℤ, (∀ z, f z = 0 ∨ f z = 1) →
      ∀ i j, i < j → j < n → applyPairsF S f i ≤ applyPairsF S f j) :
    ∀ f : ℕ → ℤ, ∀ i j, i < j → j < n →
      applyPairsF S f i ≤ applyPairsF S f j := by
  intro f i j hij hj
  by_contra hc
  push_neg at hc
  set g := applyPairsF S f with hg
  have hthr := h01 (fun z => if g i ≤ f z then (1 : ℤ) else 0)
    (fun z => by simp only; split <;> simp) i j hij hj
  rw [show (fun z => if g i ≤ f z then (1 : ℤ) else 0) =
      (fun z => (fun v => if g i ≤ v then (1 : ℤ) else 0) (f z)) from rfl,
    applyPairsF_map_monotone (monotone_threshold (g i))] at hthr
  simp only [← hg] at hthr
  rw [if_pos (le_refl (g i)), if_neg (by omega)] at hthr
  norm_num at hthr

/-! ### Pointwise behaviour on pairwise-disjoint schedules -/

/-- A schedule whose pairs are all already ordered does nothing. -/
theorem applyPairsF_noop {L : List (ℕ × ℕ)} {f : ℕ → ℤ}
    (h : ∀ q ∈ L, f q.1 ≤ f q.2) : applyPairsF L f = f := by
  induction L with
  | nil => rfl
  | cons q rest ih =>
    rw [applyPairsF_cons]
    have hhd := h q (List.mem_cons_self q rest)
    have hq : cmpExchF q.1 q.2 f = f := by
      funext z
      unfold cmpExchF
      by_cases h1 : z = q.1
      · rw [if_pos h1, min_eq_left hhd, h1]
      · rw [if_neg h1]
        by_cases h2 : z = q.2
        · rw [if_pos h2, max_eq_right hhd, h2]
        · rw [if_neg h2]
    rw [hq]
    exact ih fun r hr => h r (List.mem_cons_of_mem q hr)

theorem applyPairsF_untouched {L : List (ℕ × ℕ)} {f : ℕ → ℤ} {z : ℕ}
    (h : ∀ q ∈ L, z ≠ q.1 ∧ z ≠ q.2) : applyPairsF L f z = f z := by
  induction L generalizing f with
  | nil => rfl
  | cons q rest ih =>
    rw [applyPairsF_cons,
      ih fun r hr => h r (List.mem_cons_of_mem q hr)]
    have hz := h q (List.mem_cons_self q rest)
    exact cmpExchF_apply_other hz.1 hz.2 f

theorem applyPairsF_disjoint_fst {L : List (ℕ × ℕ)} {f : ℕ → ℤ} {x y : ℕ}
    (hL : L.Pairwise pairDisj) (hq : (x, y) ∈ L) :
    applyPairsF L f x = min (f x) (f y) := by
  induction L generalizing f with
  | nil => cases hq
  | cons q rest ih =>
    rw [List.pairwise_cons] at hL
    rcases List.mem_cons.1 hq with heq | hmem
    · subst heq
      rw [applyPairsF_cons]
      rw [applyPairsF_untouched fun r hr => by
        have hd := hL.1 r hr
        unfold pairDisj at hd
        exact ⟨hd.1, hd.2.1⟩]
      exact cmpExchF_apply_fst x y f
    · rw [applyPairsF_cons, ih hL.2 hmem]
      have hd := hL.1 _ hmem
      unfold pairDisj at hd
      rw [cmpExchF_apply_other (Ne.symm hd.1) (Ne.symm hd.2.2.1),
        cmpExchF_apply_other (Ne.symm hd.2.1) (Ne.symm hd.2.2.2)]

theorem applyPairsF_disjoint_snd {L : List (ℕ × ℕ)} {f : ℕ → ℤ} {x y : ℕ}
    (hxy : x ≠ y) (hL : L.Pairwise pairDisj) (hq : (x, y) ∈ L) :
    applyPairsF L f y = max (f x) (f y) := by
  induction L generalizing f with
  | nil => cases hq
  | cons q rest ih =>
    rw [List.pairwise_cons] at hL
    rcases List.mem_cons.1 hq with heq | hmem
    · subst heq
      rw [applyPairsF_cons]
      rw [applyPairsF_untouched fun r hr => by
        have hd := hL.1 r hr
        unfold pairDisj at hd
        exact ⟨hd.2.2.1, hd.2.2.2⟩]
      exact cmpExchF_apply_snd hxy f
    · rw [applyPairsF_cons, ih hL.2 hmem]
      have hd := hL.1 _ hmem
      unfold pairDisj at hd
      rw [cmpExchF_apply_other (Ne.symm hd.1) (Ne.symm hd.2.2.1),
        cmpExchF_apply_other (Ne.symm hd.2.1) (Ne.symm hd.2.2.2)]

/-- Two pairwise-disjoint schedules with the same members have the same
effect. -/
theorem applyPairsF_eq_of_mem_eq {L1 L2 : List (ℕ × ℕ)} {f : ℕ → ℤ}
    (h1 : L1.Pairwise pairDisj) (h2 : L2.Pairwise pairDisj)
    (hord : ∀ q ∈ L1, q.1 < q.2) (hmem : ∀ q, q ∈ L1 ↔ q ∈ L2) :
    applyPairsF L1 f = applyPairsF L2 f := by
  funext z
  by_cases hf : ∃ y, (z, y) ∈ L1
  · obtain ⟨y, hy⟩ := hf
    rw [applyPairsF_disjoint_fst h1 hy,
      applyPairsF_disjoint_fst h2 ((hmem _).1 hy)]
  · by_cases hs : ∃ x, (x, z) ∈ L1
    · obtain ⟨x, hx⟩ := hs
      have hxz : x ≠ z := by
        have := hord _ hx
        omega
      rw [applyPairsF_disjoint_snd hxz h1 hx,
        applyPairsF_disjoint_snd hxz h2 ((hmem _).1 hx)]
    · push_neg at hf hs
      rw [applyPairsF_untouched fun q hq =>
          ⟨fun hzq => hf q.2 (by rw [hzq]; simpa using hq),
           fun hzq => hs q.1 (by rw [hzq]; simpa using hq)⟩,
        applyPairsF_untouched fun q hq =>
          ⟨fun hzq => hf q.2 (by
              rw [hzq]
              exact (hmem _).2 (by simpa using hq)),
           fun hzq => hs q.1 (by
              rw [hzq]
              exact (hmem _).2 (by simpa using hq))⟩]

/-! ### Residue-class counting

`Zf m z r` counts the naturals `u < z` with `u ≡ r (mod m)` (for `r < m`).
In a sorted 0-1 half whose first `z` entries are `0`, it is the number of
zeros landing on the mod-`m` chain through residue `r`; Batcher's merge
argument is arithmetic about these counts. -/

def Zf (m z r : ℕ) : ℕ := (z + (m - 1) - r) / m

theorem lt_Zf_iff {m r : ℕ} (hm : 0 < m) (hr : r < m) (z q : ℕ) :
    q < Zf m z r ↔ m * q + r < z := by
  unfold Zf
  rw [show (q < (z + (m - 1) - r) / m ↔ q + 1 ≤ (z + (m - 1) - r) / m)
      from Iff.rfl,
    Nat.le_div_iff_mul_le hm]
  have h : (q + 1) * m = m * q + m := by ring
  omega

theorem Zf_le_iff {m r : ℕ} (hm : 0 < m) (hr : r < m) (z s : ℕ) :
    Zf m z r ≤ s ↔ z ≤ m * s + r := by
  rw [← Nat.not_lt, lt_Zf_iff hm hr, Nat.not_lt]

theorem Zf_mono {m r : ℕ} {z z' : ℕ} (h : z ≤ z') :
    Zf m z r ≤ Zf m z' r :=
  Nat.div_le_div_right (by omega)

/-- Splitting a mod-`m` chain's count into its two mod-`2m` sub-chains. -/
theorem Zf_split {m r : ℕ} (hm : 0 < m) (hr : r < m) (z : ℕ) :
    Zf m z r = Zf (2 * m) z r + Zf (2 * m) z (r + m) := by
  unfold Zf
  have h1 : z + (2 * m - 1) - r = (z + (m - 1) - r) + m := by omega
  have h2 : z + (2 * m - 1) - (r + m) = z + (m - 1) - r := by omega
  rw [h1, h2]
  set A := z + (m - 1) - r with hA
  obtain ⟨Q, R, hQR, hR⟩ : ∃ Q R, A = 2 * m * Q + R ∧ R < 2 * m :=
    ⟨A / (2 * m), A % (2 * m), by
      have := Nat.div_add_mod A (2 * m)
      omega, Nat.mod_lt A (by omega)⟩
  have hl1 : m * (2 * Q) = 2 * m * Q := by ring
  have hl2 : m * (2 * Q + 1) = 2 * m * Q + m := by ring
  have hl3 : 2 * m * (Q + 1) = 2 * m * Q + 2 * m := by ring
  rcases lt_or_le R m with hRm | hRm
  · have e1 : A / m = 2 * Q + R / m := by
      have hA2 : A = m * (2 * Q) + R := by omega
      rw [hA2, Nat.mul_add_div hm]
    have e2 : A / m = 2 * Q := by
      rw [e1, Nat.div_eq_of_lt hRm]
      omega
    have e3 : (A + m) / (2 * m) = Q := by
      have hA2 : A + m = 2 * m * Q + (R + m) := by omega
      exact (mod_div_eq_of_eq (by omega) hA2 (by omega)).2
    have e4 : A / (2 * m) = Q := (mod_div_eq_of_eq (by omega) hQR hR).2
    omega
  · have e1 : A / m = 2 * Q + 1 := by
      have hA2 : A = m * (2 * Q + 1) + (R - m) := by omega
      rw [hA2, Nat.mul_add_div hm, Nat.div_eq_of_lt (by omega),
        Nat.add_zero]
    have e3 : (A + m) / (2 * m) = Q + 1 := by
      have hA2 : A + m = 2 * m * (Q + 1) + (R - m) := by omega
      exact (mod_div_eq_of_eq (by omega) hA2 (by omega)).2
    have e4 : A / (2 * m) = Q := (mod_div_eq_of_eq (by omega) hQR hR).2
    omega

/-- Sibling sub-chain counts are balanced: the `r` chain has at least as
many zeros as the `r + m` chain, and at most one more. -/
theorem Zf_sibling {m r : ℕ} (hm : 0 < m) (hr : r < m) (z : ℕ) :
    Zf (2 * m) z (r + m) ≤ Zf (2 * m) z r ∧
      Zf (2 * m) z r ≤ Zf (2 * m) z (r + m) + 1 := by
  unfold Zf
  constructor
  · exact Nat.div_le_div_right (by omega)
  · have h1 : z + (2 * m - 1) - r ≤ (z + (2 * m - 1) - (r + m)) + 2 * m := by
      omega
    calc (z + (2 * m - 1) - r) / (2 * m)
        ≤ ((z + (2 * m - 1) - (r + m)) + 2 * m) / (2 * m) :=
          Nat.div_le_div_right h1
      _ = (z + (2 * m - 1) - (r + m)) / (2 * m) + 1 :=
          Nat.add_div_right _ (by omega)

/-- For `z ≤ m` the chain count is an indicator. -/
theorem Zf_of_le {m r z : ℕ} (hm : 0 < m) (hr : r < m) (hz : z ≤ m) :
    Zf m z r = if r < z then 1 else 0 := by
  unfold Zf
  split
  · rw [show z + (m - 1) - r = (z - 1 - r) + 1 * m from by omega,
      Nat.add_mul_div_right _ _ hm, Nat.div_eq_of_lt (by omega)]
  · rw [Nat.div_eq_of_lt (by omega)]

/-! ### Zero counts of sorted 0-1 segments -/

/-- Number of zeros of `f` on `[lo, lo + len)`. -/
def zeroCount (f : ℕ → ℤ) (lo len : ℕ) : ℕ :=
  ((Finset.range len).filter fun u => f (lo + u) = 0).card

theorem zeroCount_le (f : ℕ → ℤ) (lo len : ℕ) : zeroCount f lo len ≤ len :=
  le_trans (Finset.card_filter_le _ _) (le_of_eq (Finset.card_range len))

/-- In a 0-1 segment, a `1` propagates right under sortedness. -/
theorem ones_propagate {f : ℕ → ℤ} {lo len : ℕ}
    (h01 : ∀ u, u < len → f (lo + u) = 0 ∨ f (lo + u) = 1)
    (hsort : ∀ u, u + 1 < len → f (lo + u) ≤ f (lo + u + 1)) :
    ∀ d u, f (lo + u) = 1 → u + d < len → f (lo + (u + d)) = 1 := by
  intro d
  induction d with
  | zero => intro u h1 _; simpa using h1
  | succ d ih =>
    intro u h1 hlt
    have hd := ih u h1 (by omega)
    have hs := hsort (u + d) (by omega)
    have h2 := h01 (u + d + 1) (by omega)
    rw [show lo + (u + d) + 1 = lo + (u + (d + 1)) from by omega] at hs
    rw [hd] at hs
    rcases h2 with h2 | h2
    · rw [show lo + (u + d + 1) = lo + (u + (d + 1)) from by omega] at h2
      rw [h2] at hs
      norm_num at hs
    · rwa [show lo + (u + d + 1) = lo + (u + (d + 1)) from by omega] at h2

/-- A sorted 0-1 segment is determined by its zero count. -/
theorem sorted01_indicator {f : ℕ → ℤ} {lo len : ℕ}
    (h01 : ∀ u, u < len → f (lo + u) = 0 ∨ f (lo + u) = 1)
    (hsort : ∀ u, u + 1 < len → f (lo + u) ≤ f (lo + u + 1)) :
    ∀ u, u < len →
      f (lo + u) = if u < zeroCount f lo len then 0 else 1 := by
  intro u hu
  rcases h01 u hu with h0 | h1
  · rw [h0, eq_comm, if_pos]
    have hsub : Finset.range (u + 1) ⊆
        (Finset.range len).filter fun w => f (lo + w) = 0 := by
      intro w hw
      rw [Finset.mem_range] at hw
      rw [Finset.mem_filter, Finset.mem_range]
      refine ⟨by omega, ?_⟩
      by_contra hne
      have h1w : f (lo + w) = 1 := by
        rcases h01 w (by omega) with h | h
        · exact absurd h hne
        · exact h
      have := ones_propagate h01 hsort (u - w) w h1w (by omega)
      rw [show w + (u - w) = u from by omega, h0] at this
      norm_num at this
    have := Finset.card_le_card hsub
    rw [Finset.card_range] at this
    unfold zeroCount
    omega
  · rw [h1, eq_comm, if_neg]
    have hsub : ((Finset.range len).filter fun w => f (lo + w) = 0) ⊆
        Finset.range u := by
      intro w hw
      rw [Finset.mem_filter, Finset.mem_range] at hw
      rw [Finset.mem_range]
      by_contra hge
      have := ones_propagate h01 hsort (w - u) u h1 (by omega)
      rw [show u + (w - u) = w from by omega, hw.2] at this
      norm_num at this
    have := Finset.card_le_card hsub
    rw [Finset.card_range] at this
    unfold zeroCount
    omega

/-! ### The phase invariant

After the phase `p = 2^a` has run its stages `k = 2^a, …, 2^b`, a 0-1 state
is described exactly by `valF n a f0 b`: within each `2^(a+1)`-aligned block,
every mod-`2^b` chain is sorted, and the number of zeros on chain `r` is
determined by the zero counts of the two halves of the block in the state
`f0` the phase started from. -/

/-- Length of the first half (`2^a` slots, truncated at `n`) of block `t`. -/
def halfLen1 (n a t : ℕ) : ℕ := min (2 ^ a) (n - 2 ^ (a + 1) * t)

/-- Length of the second half of block `t`. -/
def halfLen2 (n a t : ℕ) : ℕ := min (2 ^ a) (n - 2 ^ (a + 1) * t - 2 ^ a)

/-- Zeros of `f0` in the first half of block `t`. -/
def zi1 (n a : ℕ) (f0 : ℕ → ℤ) (t : ℕ) : ℕ :=
  zeroCount f0 (2 ^ (a + 1) * t) (halfLen1 n a t)

/-- Zeros of `f0` in the second half of block `t`. -/
def zi2 (n a : ℕ) (f0 : ℕ → ℤ) (t : ℕ) : ℕ :=
  zeroCount f0 (2 ^ (a + 1) * t + 2 ^ a) (halfLen2 n a t)

/-- Zeros on the mod-`2^b` chain `r` of block `t` after stage `2^b` of
phase `2^a`. -/
def Ssum (n a : ℕ) (f0 : ℕ → ℤ) (b t r : ℕ) : ℕ :=
  Zf (2 ^ b) (zi1 n a f0 t) r + Zf (2 ^ b) (zi2 n a f0 t) r

/-- The state after stage `2^b` of phase `2^a`, as a function of the state
`f0` at the start of the phase: position `z < n` holds `0` iff its chain
index is below the chain's zero count. -/
def valF (n a : ℕ) (f0 : ℕ → ℤ) (b : ℕ) : ℕ → ℤ := fun z =>
  if z < n then
    if z % 2 ^ (a + 1) / 2 ^ b <
        Ssum n a f0 b (z / 2 ^ (a + 1)) (z % 2 ^ (a + 1) % 2 ^ b) then 0
    else 1
  else f0 z

/-- `f` is non-decreasing inside every `L`-aligned block of `[0, n)`. -/
def blockOrderedF (n L : ℕ) (f : ℕ → ℤ) : Prop :=
  ∀ x, x + 1 < n → x / L = (x + 1) / L → f x ≤ f (x + 1)

/-- `f` takes only the values 0 and 1. -/
def z01 (f : ℕ → ℤ) : Prop := ∀ z, f z = 0 ∨ f z = 1

/-- A comparator `(x, x + 2^b)` of stage `(a, b)` acts at `x` iff `x` is in
the stage window, both ends are in the same `2^(a+1)` block, and the high
end is in range. -/
def stagePred (n a b x : ℕ) : Prop :=
  x + 2 ^ b < n ∧ inWindow (2 ^ a) (2 ^ b) x ∧ sameBlock (2 ^ a) (2 ^ b) x

instance (n a b x : ℕ) : Decidable (stagePred n a b x) := by
  unfold stagePred; infer_instance

/-- The canonical (duplicate-free) schedule of stage `(a, b)`, in ascending
position order. -/
def stageList (n a b : ℕ) : List (ℕ × ℕ) :=
  (List.range n).filterMap fun x =>
    if stagePred n a b x then some (x, x + 2 ^ b) else none

theorem mem_stageList {n a b : ℕ} {q : ℕ × ℕ} :
    q ∈ stageList n a b ↔ ∃ x, q = (x, x + 2 ^ b) ∧ stagePred n a b x := by
  unfold stageList
  rw [List.mem_filterMap]
  constructor
  · rintro ⟨x, _, hx⟩
    by_cases hp : stagePred n a b x
    · rw [if_pos hp] at hx
      exact ⟨x, (Option.some_inj.1 hx).symm, hp⟩
    · rw [if_neg hp] at hx
      cases hx
  · rintro ⟨x, rfl, hp⟩
    have hb : 0 < 2 ^ b := by positivity
    refine ⟨x, List.mem_range.2 (by have := hp.1; omega), ?_⟩
    rw [if_pos hp]

/-- A window position's successor at distance `2^b` is never in the
window. -/
theorem inWindow_not_succ {a b : ℕ} (hba : b ≤ a) (x : ℕ)
    (h : inWindow (2 ^ a) (2 ^ b) x) :
    ¬ inWindow (2 ^ a) (2 ^ b) (x + 2 ^ b) := by
  have hk : 0 < 2 ^ b := by positivity
  have hj0 : 2 ^ b % 2 ^ a = 0 ∨ 2 ^ b % 2 ^ a = 2 ^ b := by
    rcases Nat.lt_or_ge b a with h' | h'
    · exact Or.inr (Nat.mod_eq_of_lt (Nat.pow_lt_pow_right one_lt_two h'))
    · have hba' : b = a := le_antisymm hba h'
      rw [hba', Nat.mod_self]
      exact Or.inl rfl
  obtain ⟨q, r, hqr, hr⟩ : ∃ q r, x = 2 * 2 ^ b * q + r ∧ r < 2 * 2 ^ b :=
    ⟨x / (2 * 2 ^ b), x % (2 * 2 ^ b), by
      have := Nat.div_add_mod x (2 * 2 ^ b)
      omega, Nat.mod_lt _ (by positivity)⟩
  have hxmod : x % (2 * 2 ^ b) = r := (mod_div_eq_of_eq (by omega) hqr hr).1
  unfold inWindow at h ⊢
  rcases lt_or_le r (2 ^ b) with hrk | hrk
  · have h2 : (x + 2 ^ b) % (2 * 2 ^ b) = r + 2 ^ b := by
      have hx2 : x + 2 ^ b = 2 * 2 ^ b * q + (r + 2 ^ b) := by omega
      exact (mod_div_eq_of_eq (by omega) hx2 (by omega)).1
    rcases hj0 with h0 | h0 <;> omega
  · have h2 : (x + 2 ^ b) % (2 * 2 ^ b) = r - 2 ^ b := by
      have hlink : 2 * 2 ^ b * (q + 1) = 2 * 2 ^ b * q + 2 * 2 ^ b := by ring
      have hx2 : x + 2 ^ b = 2 * 2 ^ b * (q + 1) + (r - 2 ^ b) := by omega
      exact (mod_div_eq_of_eq (by omega) hx2 (by omega)).1
    rcases hj0 with h0 | h0 <;> omega

/-- At the top stage `k = p` the window test and the block test coincide. -/
theorem inWindow_top_iff (a x : ℕ) :
    inWindow (2 ^ a) (2 ^ a) x ↔ sameBlock (2 ^ a) (2 ^ a) x := by
  unfold inWindow sameBlock
  rw [Nat.mod_self]
  have := Nat.mod_lt x (show 0 < 2 * 2 ^ a by positivity)
  omega

/-! ### Equal-or-disjoint schedules

Variant 1 revisits comparators, so its stage lists are not duplicate-free;
but any two scheduled comparators of one stage are either identical or
touch four distinct positions, which is just as good. -/

def pairEqDisj (q1 q2 : ℕ × ℕ) : Prop := q1 = q2 ∨ pairDisj q1 q2

theorem cmpExchF_of_le {x y : ℕ} {f : ℕ → ℤ} (h : f x ≤ f y) :
    cmpExchF x y f = f := by
  funext z
  unfold cmpExchF
  by_cases h1 : z = x
  · rw [if_pos h1, min_eq_left h, h1]
  · rw [if_neg h1]
    by_cases h2 : z = y
    · rw [if_pos h2, max_eq_right h, h2]
    · rw [if_neg h2]

theorem applyPairsF_keep (x y : ℕ) (rest : List (ℕ × ℕ)) (f : ℕ → ℤ)
    (h : ∀ r ∈ rest, r = (x, y) ∨ pairDisj (x, y) r) (hfxy : f x ≤ f y) :
    applyPairsF rest f x = f x ∧ applyPairsF rest f y = f y := by
  induction rest generalizing f with
  | nil => exact ⟨rfl, rfl⟩
  | cons q t ih =>
    rw [applyPairsF_cons]
    rcases h q (List.mem_cons_self q t) with hq | hd
    · subst hq
      rw [cmpExchF_of_le hfxy]
      exact ih f (fun r hr => h r (List.mem_cons_of_mem _ hr)) hfxy
    · unfold pairDisj at hd
      have hgx : cmpExchF q.1 q.2 f x = f x :=
        cmpExchF_apply_other hd.1 hd.2.1 f
      have hgy : cmpExchF q.1 q.2 f y = f y :=
        cmpExchF_apply_other hd.2.2.1 hd.2.2.2 f
      have := ih (cmpExchF q.1 q.2 f)
        (fun r hr => h r (List.mem_cons_of_mem _ hr))
        (by rw [hgx, hgy]; exact hfxy)
      exact ⟨this.1.trans hgx, this.2.trans hgy⟩

theorem applyPairsF_eqdisj_fst {L : List (ℕ × ℕ)} {f : ℕ → ℤ} {x y : ℕ}
    (hxy : x ≠ y) (hL : ∀ q ∈ L, ∀ q' ∈ L, pairEqDisj q q')
    (hq : (x, y) ∈ L) :
    applyPairsF L f x = min (f x) (f y) := by
  induction L generalizing f with
  | nil => cases hq
  | cons q t ih =>
    rw [applyPairsF_cons]
    by_cases hqe : q = (x, y)
    · subst hqe
      have hkeep := applyPairsF_keep x y t (cmpExchF x y f)
        (fun r hr => by
          have := hL (x, y) (List.mem_cons_self _ t) r (List.mem_cons_of_mem _ hr)
          rcases this with he | hd
          · exact Or.inl he.symm
          · exact Or.inr hd)
        (by
          rw [cmpExchF_apply_fst, cmpExchF_apply_snd hxy]
          exact min_le_max)
      rw [hkeep.1, cmpExchF_apply_fst]
    · have hmem : (x, y) ∈ t := by
        rcases List.mem_cons.1 hq with he | hm
        · exact absurd he.symm hqe
        · exact hm
      have hd : pairDisj q (x, y) := by
        rcases hL q (List.mem_cons_self q t) (x, y)
          (List.mem_cons_of_mem _ hmem) with he | hd
        · exact absurd he hqe
        · exact hd
      unfold pairDisj at hd
      have hgx : cmpExchF q.1 q.2 f x = f x :=
        cmpExchF_apply_other (Ne.symm hd.1) (Ne.symm hd.2.2.1) f
      have hgy : cmpExchF q.1 q.2 f y = f y :=
        cmpExchF_apply_other (Ne.symm hd.2.1) (Ne.symm hd.2.2.2) f
      rw [ih (fun r hr s hs => hL r (List.mem_cons_of_mem _ hr)
          s (List.mem_cons_of_mem _ hs)) hmem,
        hgx, hgy]

theorem applyPairsF_eqdisj_snd {L : List (ℕ × ℕ)} {f : ℕ → ℤ} {x y : ℕ}
    (hxy : x ≠ y) (hL : ∀ q ∈ L, ∀ q' ∈ L, pairEqDisj q q')
    (hq : (x, y) ∈ L) :
    applyPairsF L f y = max (f x) (f y) := by
  induction L generalizing f with
  | nil => cases hq
  | cons q t ih =>
    rw [applyPairsF_cons]
    by_cases hqe : q = (x, y)
    · subst hqe
      have hkeep := applyPairsF_keep x y t (cmpExchF x y f)
        (fun r hr => by
          have := hL (x, y) (List.mem_cons_self _ t) r (List.mem_cons_of_mem _ hr)
          rcases this with he | hd
          · exact Or.inl he.symm
          · exact Or.inr hd)
        (by
          rw [cmpExchF_apply_fst, cmpExchF_apply_snd hxy]
          exact min_le_max)
      rw [hkeep.2, cmpExchF_apply_snd hxy]
    · have hmem : (x, y) ∈ t := by
        rcases List.mem_cons.1 hq with he | hm
        · exact absurd he.symm hqe
        · exact hm
      have hd : pairDisj q (x, y) := by
        rcases hL q (List.mem_cons_self q t) (x, y)
          (List.mem_cons_of_mem _ hmem) with he | hd
        · exact absurd he hqe
        · exact hd
      unfold pairDisj at hd
      have hgx : cmpExchF q.1 q.2 f x = f x :=
        cmpExchF_apply_other (Ne.symm hd.1) (Ne.symm hd.2.2.1) f
      have hgy : cmpExchF q.1 q.2 f y = f y :=
        cmpExchF_apply_other (Ne.symm hd.2.1) (Ne.symm hd.2.2.2) f
      rw [ih (fun r hr s hs => hL r (List.mem_cons_of_mem _ hr)
          s (List.mem_cons_of_mem _ hs)) hmem,
        hgx, hgy]

/-- Two equal-or-disjoint schedules with the same members have the same
effect, regardless of order and multiplicity. -/
theorem applyPairsF_eq_of_mem_eqdisj {L1 L2 : List (ℕ × ℕ)} {f : ℕ → ℤ}
    (h1 : ∀ q ∈ L1, ∀ q' ∈ L1, pairEqDisj q q')
    (h2 : ∀ q ∈ L2, ∀ q' ∈ L2, pairEqDisj q q')
    (hord : ∀ q ∈ L1, q.1 < q.2) (hmem : ∀ q, q ∈ L1 ↔ q ∈ L2) :
    applyPairsF L1 f = applyPairsF L2 f := by
  funext z
  by_cases hf : ∃ y, (z, y) ∈ L1
  · obtain ⟨y, hy⟩ := hf
    have hzy : z ≠ y := by have := hord _ hy; simp only at this; omega
    rw [applyPairsF_eqdisj_fst hzy h1 hy,
      applyPairsF_eqdisj_fst hzy h2 ((hmem _).1 hy)]
  · by_cases hs : ∃ x, (x, z) ∈ L1
    · obtain ⟨x, hx⟩ := hs
      have hxz : x ≠ z := by have := hord _ hx; simp only at this; omega
      rw [applyPairsF_eqdisj_snd hxz h1 hx,
        applyPairsF_eqdisj_snd hxz h2 ((hmem _).1 hx)]
    · push_neg at hf hs
      rw [applyPairsF_untouched fun q hq =>
          ⟨fun hzq => hf q.2 (by rw [hzq]; simpa using hq),
           fun hzq => hs q.1 (by rw [hzq]; simpa using hq)⟩,
        applyPairsF_untouched fun q hq =>
          ⟨fun hzq => hf q.2 (by
              rw [hzq]
              exact (hmem _).2 (by simpa using hq)),
           fun hzq => hs q.1 (by
              rw [hzq]
              exact (hmem _).2 (by simpa using hq))⟩]

/-- Any stage-shaped list (members are window comparators of stage
`(a, b)`) is equal-or-disjoint. -/
theorem wchar_eqdisj {a b : ℕ} (hba : b ≤ a) {L : List (ℕ × ℕ)}
    (hchar : ∀ q ∈ L, ∃ x, q = (x, x + 2 ^ b) ∧
      inWindow (2 ^ a) (2 ^ b) x) :
    ∀ q ∈ L, ∀ q' ∈ L, pairEqDisj q q' := by
  intro q hq q' hq'
  obtain ⟨x, rfl, hw⟩ := hchar q hq
  obtain ⟨x', rfl, hw'⟩ := hchar q' hq'
  by_cases hxx : x = x'
  · exact Or.inl (by rw [hxx])
  · refine Or.inr ⟨by simpa using hxx, ?_, ?_, by simpa using hxx⟩
    · simp only [ne_eq]
      intro hc
      exact inWindow_not_succ hba x' hw' (by rw [← hc]; exact hw)
    · simp only [ne_eq]
      intro hc
      exact inWindow_not_succ hba x hw (by rw [hc]; exact hw')

/-! ### Basic properties of the phase state -/

theorem zi1_le_halfLen1 (n a : ℕ) (f0 : ℕ → ℤ) (t : ℕ) :
    zi1 n a f0 t ≤ halfLen1 n a t := zeroCount_le _ _ _

theorem zi2_le_halfLen2 (n a : ℕ) (f0 : ℕ → ℤ) (t : ℕ) :
    zi2 n a f0 t ≤ halfLen2 n a t := zeroCount_le _ _ _

theorem halfLen1_le_pow (n a t : ℕ) : halfLen1 n a t ≤ 2 ^ a :=
  min_le_left _ _

theorem halfLen2_le_pow (n a t : ℕ) : halfLen2 n a t ≤ 2 ^ a :=
  min_le_left _ _

theorem halfLen1_le_rem (n a t : ℕ) : halfLen1 n a t ≤ n - 2 ^ (a + 1) * t :=
  min_le_right _ _

theorem halfLen2_le_rem (n a t : ℕ) :
    halfLen2 n a t ≤ n - 2 ^ (a + 1) * t - 2 ^ a :=
  min_le_right _ _

/-- Chain-count splitting: stage `b`'s chain `r` is the union of stage
`b+1`'s chains `r` and `r + 2^b`. -/
theorem Ssum_split (n a : ℕ) (f0 : ℕ → ℤ) {b r : ℕ} (t : ℕ)
    (hr : r < 2 ^ b) :
    Ssum n a f0 b t r =
      Ssum n a f0 (b + 1) t r + Ssum n a f0 (b + 1) t (r + 2 ^ b) := by
  unfold Ssum
  have h2 : (2 : ℕ) ^ (b + 1) = 2 * 2 ^ b := by rw [pow_succ]; ring
  have hb : 0 < 2 ^ b := by positivity
  rw [h2, Zf_split hb hr, Zf_split hb hr]
  ring

/-- Sibling balance at stage `b+1`: chain `r` has at least as many zeros as
chain `r + 2^b`, and at most two more (one per half). -/
theorem Ssum_sibling (n a : ℕ) (f0 : ℕ → ℤ) {b r : ℕ} (t : ℕ)
    (hr : r < 2 ^ b) :
    Ssum n a f0 (b + 1) t (r + 2 ^ b) ≤ Ssum n a f0 (b + 1) t r ∧
      Ssum n a f0 (b + 1) t r ≤ Ssum n a f0 (b + 1) t (r + 2 ^ b) + 2 := by
  unfold Ssum
  have h2 : (2 : ℕ) ^ (b + 1) = 2 * 2 ^ b := by rw [pow_succ]; ring
  have hb : 0 < 2 ^ b := by positivity
  rw [h2]
  have s1 := Zf_sibling hb hr (zi1 n a f0 t)
  have s2 := Zf_sibling hb hr (zi2 n a f0 t)
  omega

theorem valF_of_lt {n a b z : ℕ} (f0 : ℕ → ℤ) (hz : z < n) :
    valF n a f0 b z =
      if z % 2 ^ (a + 1) / 2 ^ b <
          Ssum n a f0 b (z / 2 ^ (a + 1)) (z % 2 ^ (a + 1) % 2 ^ b) then 0
      else 1 := by
  unfold valF
  rw [if_pos hz]

theorem valF_of_ge {n a b z : ℕ} (f0 : ℕ → ℤ) (hz : ¬ z < n) :
    valF n a f0 b z = f0 z := by
  unfold valF
  rw [if_neg hz]

theorem valF_z01 {n a b : ℕ} {f0 : ℕ → ℤ} (h : z01 f0) :
    z01 (valF n a f0 b) := by
  intro z
  unfold valF
  by_cases hz : z < n
  · rw [if_pos hz]
    split
    · exact Or.inl rfl
    · exact Or.inr rfl
  · rw [if_neg hz]
    exact h z

/-- After stage `(a, b)`, every in-block pair at distance `2^b` is
ordered. -/
theorem valF_step_ordered {n a b : ℕ} (f0 : ℕ → ℤ) (x : ℕ)
    (hsb : sameBlock (2 ^ a) (2 ^ b) x) (hxn : x + 2 ^ b < n) :
    valF n a f0 b x ≤ valF n a f0 b (x + 2 ^ b) := by
  have hP : (2 : ℕ) ^ (a + 1) = 2 * 2 ^ a := by rw [pow_succ]; ring
  have hPpos : 0 < 2 ^ (a + 1) := by positivity
  have hbpos : 0 < 2 ^ b := by positivity
  have hzn : x < n := by omega
  set t := x / 2 ^ (a + 1) with ht
  set c := x % 2 ^ (a + 1) with hc
  have hzd : 2 ^ (a + 1) * t + c = x := Nat.div_add_mod x _
  have hclt : c < 2 ^ (a + 1) := Nat.mod_lt x hPpos
  unfold sameBlock at hsb
  rw [← hP] at hsb
  rw [← hc] at hsb
  have hpart : (x + 2 ^ b) % 2 ^ (a + 1) = c + 2 ^ b ∧
      (x + 2 ^ b) / 2 ^ (a + 1) = t :=
    mod_div_eq_of_eq hPpos (by omega) (by omega)
  rw [valF_of_lt f0 hzn, valF_of_lt f0 hxn, hpart.1, hpart.2, ← ht, ← hc,
    Nat.add_mod_right, Nat.add_div_right c hbpos]
  set q := c / 2 ^ b
  set S := Ssum n a f0 b t (c % 2 ^ b)
  rcases lt_or_le q S with h1 | h1
  · rw [if_pos h1]
    split
    · exact le_refl 0
    · norm_num
  · rw [if_neg (by omega), if_neg (by omega)]

/-- The fully merged phase state (`b = 0`) is ordered inside every
`2^(a+1)` block. -/
theorem valF_zero_blockOrdered (n a : ℕ) (f0 : ℕ → ℤ) :
    blockOrderedF n (2 ^ (a + 1)) (valF n a f0 0) := by
  intro x hx1 hdiv
  have hPpos : 0 < 2 ^ (a + 1) := by positivity
  set t := x / 2 ^ (a + 1) with ht
  set c := x % 2 ^ (a + 1) with hc
  have hzd : 2 ^ (a + 1) * t + c = x := Nat.div_add_mod x _
  have hclt : c < 2 ^ (a + 1) := Nat.mod_lt x hPpos
  have hc1 : c + 1 < 2 ^ (a + 1) := by
    by_contra hcon
    have he : x + 1 = 2 ^ (a + 1) * (t + 1) + 0 := by
      have : 2 ^ (a + 1) * (t + 1) = 2 ^ (a + 1) * t + 2 ^ (a + 1) := by ring
      omega
    have := (mod_div_eq_of_eq hPpos he hPpos).2
    omega
  have hpart : (x + 1) % 2 ^ (a + 1) = c + 1 ∧
      (x + 1) / 2 ^ (a + 1) = t :=
    mod_div_eq_of_eq hPpos (by omega) hc1
  rw [valF_of_lt f0 (by omega), valF_of_lt f0 hx1, hpart.1, hpart.2,
    ← ht, ← hc]
  simp only [pow_zero, Nat.div_one, Nat.mod_one]
  set S := Ssum n a f0 0 t 0
  rcases lt_or_le c S with h1 | h1
  · rw [if_pos h1]
    split
    · exact le_refl 0
    · norm_num
  · rw [if_neg (by omega), if_neg (by omega)]

/-! ### The base stage `k = p` -/

/-- In the phase-entry state, the first half of each block is a sorted 0-1
run: its values are given by its zero count. -/
theorem f0_half1 {n a : ℕ} {f0 : ℕ → ℤ} (h01 : z01 f0)
    (hso : blockOrderedF n (2 ^ a) f0) {t u : ℕ}
    (hu : u < halfLen1 n a t) :
    f0 (2 ^ (a + 1) * t + u) = if u < zi1 n a f0 t then 0 else 1 := by
  have hlen1 : halfLen1 n a t ≤ 2 ^ a := halfLen1_le_pow n a t
  have hlen2 : halfLen1 n a t ≤ n - 2 ^ (a + 1) * t := halfLen1_le_rem n a t
  have hHa : (2 : ℕ) ^ (a + 1) * t = 2 ^ a * (2 * t) := by
    rw [pow_succ]; ring
  refine sorted01_indicator (fun v _ => h01 _) ?_ u hu
  intro v hv
  refine hso _ ?_ ?_
  · have hvt : 2 ^ (a + 1) * t + v + 1 ≤ 2 ^ (a + 1) * t + halfLen1 n a t := by
      omega
    have h2 : 2 ^ (a + 1) * t + halfLen1 n a t ≤ n := by
      have htn : 2 ^ (a + 1) * t ≤ n := by
        rcases le_or_lt (2 ^ (a + 1) * t) n with h | h
        · exact h
        · exfalso; omega
      omega
    omega
  · have hd1 : (2 ^ (a + 1) * t + v) / 2 ^ a = 2 * t :=
      (mod_div_eq_of_eq (by positivity) (by rw [hHa]) (by omega)).2
    have hd2 : (2 ^ (a + 1) * t + v + 1) / 2 ^ a = 2 * t :=
      (mod_div_eq_of_eq (by positivity)
        (by rw [show 2 ^ (a+1) * t + v + 1 = 2 ^ a * (2 * t) + (v + 1) from by
          rw [← hHa]; omega]) (by omega)).2
    rw [hd1, hd2]

/-- Same for the second half of each block. -/
theorem f0_half2 {n a : ℕ} {f0 : ℕ → ℤ} (h01 : z01 f0)
    (hso : blockOrderedF n (2 ^ a) f0) {t u : ℕ}
    (hu : u < halfLen2 n a t) :
    f0 (2 ^ (a + 1) * t + 2 ^ a + u) = if u < zi2 n a f0 t then 0 else 1 := by
  have hlen1 : halfLen2 n a t ≤ 2 ^ a := halfLen2_le_pow n a t
  have hlen2 : halfLen2 n a t ≤ n - 2 ^ (a + 1) * t - 2 ^ a :=
    halfLen2_le_rem n a t
  have hHa : (2 : ℕ) ^ (a + 1) * t + 2 ^ a = 2 ^ a * (2 * t + 1) := by
    rw [pow_succ]; ring
  refine sorted01_indicator (fun v _ => h01 _) ?_ u hu
  intro v hv
  refine hso _ ?_ ?_
  · have h2 : 2 ^ (a + 1) * t + 2 ^ a + halfLen2 n a t ≤ n := by
      rcases le_or_lt (2 ^ (a + 1) * t + 2 ^ a) n with h | h
      · omega
      · exfalso; omega
    omega
  · have hd1 : (2 ^ (a + 1) * t + 2 ^ a + v) / 2 ^ a = 2 * t + 1 :=
      (mod_div_eq_of_eq (by positivity) (by rw [hHa]) (by omega)).2
    have hd2 : (2 ^ (a + 1) * t + 2 ^ a + v + 1) / 2 ^ a = 2 * t + 1 :=
      (mod_div_eq_of_eq (by positivity)
        (by rw [show 2 ^ (a+1) * t + 2 ^ a + v + 1
            = 2 ^ a * (2 * t + 1) + (v + 1) from by rw [← hHa]; omega])
        (by omega)).2
    rw [hd1, hd2]

theorem stageList_eqdisj (n a b : ℕ) (hba : b ≤ a) :
    ∀ q ∈ stageList n a b, ∀ q' ∈ stageList n a b, pairEqDisj q q' :=
  wchar_eqdisj hba fun q hq => by
    obtain ⟨x, rfl, hp⟩ := mem_stageList.1 hq
    exact ⟨x, rfl, hp.2.1⟩

/-- The base stage `k = p = 2^a` of a phase: it turns the phase-entry state
into the merged-chain state `valF … a`. -/
theorem stage_base (n a : ℕ) (f0 : ℕ → ℤ) (h01 : z01 f0)
    (hso : blockOrderedF n (2 ^ a) f0) :
    applyPairsF (stageList n a a) f0 = valF n a f0 a := by
  have hP : (2 : ℕ) * 2 ^ a = 2 ^ (a + 1) := by rw [pow_succ]; ring
  have hHpos : (0 : ℕ) < 2 ^ a := by positivity
  have hPpos : (0 : ℕ) < 2 ^ (a + 1) := by positivity
  have hED := stageList_eqdisj n a a (le_refl a)
  funext z
  by_cases hz : z < n
  · obtain ⟨t, c, hzd, hclt⟩ : ∃ t c, z = 2 ^ (a + 1) * t + c ∧
        c < 2 ^ (a + 1) :=
      ⟨z / 2 ^ (a + 1), z % 2 ^ (a + 1), (Nat.div_add_mod z _).symm,
        Nat.mod_lt z hPpos⟩
    subst hzd
    have hdm := mod_div_eq_of_eq hPpos (rfl :
      2 ^ (a + 1) * t + c = 2 ^ (a + 1) * t + c) hclt
    rw [valF_of_lt f0 hz, hdm.1, hdm.2]
    rcases lt_or_le c (2 ^ a) with hc2 | hc2
    · -- offset in the first half
      have hq0 : c / 2 ^ a = 0 := Nat.div_eq_of_lt hc2
      have hr0 : c % 2 ^ a = c := Nat.mod_eq_of_lt hc2
      have hS : Ssum n a f0 a t c =
          (if c < zi1 n a f0 t then 1 else 0) +
            (if c < zi2 n a f0 t then 1 else 0) := by
        unfold Ssum
        rw [Zf_of_le hHpos hc2
            (le_trans (zi1_le_halfLen1 n a f0 t) (halfLen1_le_pow n a t)),
          Zf_of_le hHpos hc2
            (le_trans (zi2_le_halfLen2 n a f0 t) (halfLen2_le_pow n a t))]
      rw [hq0, hr0, hS]
      rcases lt_or_le (2 ^ (a + 1) * t + c + 2 ^ a) n with hb | hb
      · -- the comparator (z, z + 2^a) is scheduled
        have hsb : sameBlock (2 ^ a) (2 ^ a) (2 ^ (a + 1) * t + c) := by
          unfold sameBlock
          rw [hP, hdm.1]
          omega
        have hmem : (2 ^ (a + 1) * t + c, 2 ^ (a + 1) * t + c + 2 ^ a) ∈
            stageList n a a :=
          mem_stageList.2 ⟨_, rfl, hb, (inWindow_top_iff a _).2 hsb, hsb⟩
        rw [applyPairsF_eqdisj_fst (by omega) hED hmem]
        have hf1 : f0 (2 ^ (a + 1) * t + c) =
            if c < zi1 n a f0 t then 0 else 1 :=
          f0_half1 h01 hso (lt_min hc2 (by omega))
        have hf2 : f0 (2 ^ (a + 1) * t + c + 2 ^ a) =
            if c < zi2 n a f0 t then 0 else 1 := by
          rw [show 2 ^ (a + 1) * t + c + 2 ^ a
              = 2 ^ (a + 1) * t + 2 ^ a + c from by omega]
          exact f0_half2 h01 hso (lt_min hc2 (by omega))
        rw [hf1, hf2]
        by_cases h1 : c < zi1 n a f0 t <;> by_cases h2 : c < zi2 n a f0 t <;>
          simp [h1, h2]
      · -- partner out of range: untouched, and the second half has no zeros
        have hz2 : zi2 n a f0 t ≤ c := by
          have h1 := zi2_le_halfLen2 n a f0 t
          have h2 := halfLen2_le_rem n a t
          omega
        rw [applyPairsF_untouched ?hun]
        case hun =>
          intro q hq
          obtain ⟨x, rfl, hbound, hwin, hblk⟩ := mem_stageList.1 hq
          refine ⟨?_, ?_⟩
          · show 2 ^ (a + 1) * t + c ≠ x
            intro hzx
            omega
          · show 2 ^ (a + 1) * t + c ≠ x + 2 ^ a
            intro hzx
            rcases t with _ | s
            · omega
            · have hls : 2 ^ (a + 1) * (s + 1) = 2 ^ (a + 1) * s + 2 ^ (a + 1) := by
                ring
              have hxe : x = 2 ^ (a + 1) * s + (2 ^ a + c) := by omega
              have hxm : x % (2 * 2 ^ a) = 2 ^ a + c := by
                rw [hP, hxe]
                exact (mod_div_eq_of_eq hPpos rfl (by omega)).1
              have := (inWindow_top_iff a x).1 hwin
              unfold sameBlock at this
              omega
        have hf1 : f0 (2 ^ (a + 1) * t + c) =
            if c < zi1 n a f0 t then 0 else 1 :=
          f0_half1 h01 hso (lt_min hc2 (by omega))
        rw [hf1, if_neg (show ¬ c < zi2 n a f0 t from by omega)]
        by_cases h1 : c < zi1 n a f0 t <;> simp [h1]
    · -- offset in the second half: z is the upper end of its comparator
      have hr : c % 2 ^ a = c - 2 ^ a ∧ c / 2 ^ a = 1 :=
        mod_div_eq_of_eq hHpos (by omega) (by omega)
      have hxm := mod_div_eq_of_eq hPpos (rfl :
        2 ^ (a + 1) * t + (c - 2 ^ a) = 2 ^ (a + 1) * t + (c - 2 ^ a))
        (by omega)
      have hsb : sameBlock (2 ^ a) (2 ^ a) (2 ^ (a + 1) * t + (c - 2 ^ a)) := by
        unfold sameBlock
        rw [hP, hxm.1]
        omega
      have hmem : (2 ^ (a + 1) * t + (c - 2 ^ a),
          2 ^ (a + 1) * t + (c - 2 ^ a) + 2 ^ a) ∈ stageList n a a :=
        mem_stageList.2 ⟨_, rfl, by omega, (inWindow_top_iff a _).2 hsb, hsb⟩
      have hze : 2 ^ (a + 1) * t + c
          = 2 ^ (a + 1) * t + (c - 2 ^ a) + 2 ^ a := by omega
      rw [hze, applyPairsF_eqdisj_snd (by omega) hED hmem]
      have hf1 : f0 (2 ^ (a + 1) * t + (c - 2 ^ a)) =
          if c - 2 ^ a < zi1 n a f0 t then 0 else 1 :=
        f0_half1 h01 hso (lt_min (by omega) (by omega))
      have hf2 : f0 (2 ^ (a + 1) * t + (c - 2 ^ a) + 2 ^ a) =
          if c - 2 ^ a < zi2 n a f0 t then 0 else 1 := by
        rw [show 2 ^ (a + 1) * t + (c - 2 ^ a) + 2 ^ a
            = 2 ^ (a + 1) * t + 2 ^ a + (c - 2 ^ a) from by omega]
        exact f0_half2 h01 hso (lt_min (by omega) (by omega))
      have hS : Ssum n a f0 a t (c % 2 ^ a) =
          (if c - 2 ^ a < zi1 n a f0 t then 1 else 0) +
            (if c - 2 ^ a < zi2 n a f0 t then 1 else 0) := by
        unfold Ssum
        rw [hr.1,
          Zf_of_le hHpos (by omega)
            (le_trans (zi1_le_halfLen1 n a f0 t) (halfLen1_le_pow n a t)),
          Zf_of_le hHpos (by omega)
            (le_trans (zi2_le_halfLen2 n a f0 t) (halfLen2_le_pow n a t))]
      rw [hf1, hf2, hr.2, hS]
      by_cases h1 : c - 2 ^ a < zi1 n a f0 t <;>
        by_cases h2 : c - 2 ^ a < zi2 n a f0 t <;>
        simp [h1, h2]
  · rw [applyPairsF_untouched fun q hq => ?_, valF_of_ge f0 hz]
    obtain ⟨x, rfl, hp⟩ := mem_stageList.1 hq
    have := hp.1
    exact ⟨show z ≠ x by omega, show z ≠ x + 2 ^ a by omega⟩

/-! ### Toolkit for the refinement stages -/

theorem min_ite01 {A B C : Prop} [Decidable A] [Decidable B] [Decidable C]
    (h : C ↔ A ∨ B) :
    min (if A then (0 : ℤ) else 1) (if B then (0 : ℤ) else 1) =
      if C then 0 else 1 := by
  by_cases hA : A <;> by_cases hB : B <;> simp [hA, hB, h]

theorem max_ite01 {A B C : Prop} [Decidable A] [Decidable B] [Decidable C]
    (h : C ↔ A ∧ B) :
    max (if A then (0 : ℤ) else 1) (if B then (0 : ℤ) else 1) =
      if C then 0 else 1 := by
  by_cases hA : A <;> by_cases hB : B <;> simp [hA, hB, h]

theorem ite01_congr {A C : Prop} [Decidable A] [Decidable C] (h : C ↔ A) :
    (if A then (0 : ℤ) else 1) = if C then 0 else 1 := by
  by_cases hA : A <;> simp [hA, h]

theorem sameBlock_iff_offset {a b x t c : ℕ} (hc : c < 2 ^ (a + 1))
    (hx : x = 2 ^ (a + 1) * t + c) :
    sameBlock (2 ^ a) (2 ^ b) x ↔ c + 2 ^ b < 2 ^ (a + 1) := by
  unfold sameBlock
  rw [show (2 : ℕ) * 2 ^ a = 2 ^ (a + 1) from by rw [pow_succ]; ring,
    (mod_div_eq_of_eq (by positivity) hx hc).1]

theorem inWindow_iff_offset {a b x v w : ℕ} (hba : b < a)
    (hw : w < 2 ^ (b + 1)) (hx : x = 2 ^ (b + 1) * v + w) :
    inWindow (2 ^ a) (2 ^ b) x ↔ 2 ^ b ≤ w := by
  have hK : (2 : ℕ) * 2 ^ b = 2 ^ (b + 1) := by rw [pow_succ]; ring
  unfold inWindow
  rw [hK, (mod_div_eq_of_eq (by positivity) hx hw).1,
    Nat.mod_eq_of_lt (Nat.pow_lt_pow_right one_lt_two hba)]
  omega

theorem valF_eval {n a b t c q r : ℕ} (f0 : ℕ → ℤ)
    (hz : 2 ^ (a + 1) * t + c < n) (hc : c < 2 ^ (a + 1))
    (hq : c / 2 ^ b = q) (hr : c % 2 ^ b = r) :
    valF n a f0 b (2 ^ (a + 1) * t + c) =
      if q < Ssum n a f0 b t r then 0 else 1 := by
  rw [valF_of_lt f0 hz, (mod_div_eq_of_eq (by positivity) rfl hc).1,
    (mod_div_eq_of_eq (by positivity) rfl hc).2, hq, hr]

/-- Truncated-chain bound: when the comparator at the window position
`2^(a+1) t + c` (with `c = 2^(b+1) q' + r'`, `2^b ≤ r'`) falls off the end
of the block or off the end of the array, chain `r' - 2^b` of stage `b+1`
cannot hold more than `q' + 1` zeros. -/
theorem Ssum_top_bound {n a b : ℕ} (hba : b < a) (f0 : ℕ → ℤ)
    {t q' r' : ℕ} (hr'1 : 2 ^ b ≤ r') (hr'2 : r' < 2 ^ (b + 1))
    (hN : 2 ^ (a + 1) ≤ 2 ^ (b + 1) * q' + r' + 2 ^ b ∨
      n ≤ 2 ^ (a + 1) * t + (2 ^ (b + 1) * q' + r') + 2 ^ b) :
    Ssum n a f0 (b + 1) t (r' - 2 ^ b) ≤ q' + 1 := by
  have hK : (2 : ℕ) * 2 ^ b = 2 ^ (b + 1) := by rw [pow_succ]; ring
  have hKpos : (0 : ℕ) < 2 ^ (b + 1) := by positivity
  have hHd : (2 : ℕ) ^ a = 2 ^ (b + 1) * 2 ^ (a - b - 1) := by
    rw [← pow_add]
    congr 1
    omega
  have hP2 : (2 : ℕ) ^ (a + 1) = 2 ^ a + 2 ^ a := by rw [pow_succ]; omega
  set D := 2 ^ (a - b - 1) with hD
  set r := r' - 2 ^ b with hr
  have hrK : r < 2 ^ (b + 1) := by omega
  have hz1 : zi1 n a f0 t ≤ 2 ^ a :=
    le_trans (zi1_le_halfLen1 n a f0 t) (halfLen1_le_pow n a t)
  have hz2 : zi2 n a f0 t ≤ 2 ^ a :=
    le_trans (zi2_le_halfLen2 n a f0 t) (halfLen2_le_pow n a t)
  have hz1r : zi1 n a f0 t ≤ n - 2 ^ (a + 1) * t :=
    le_trans (zi1_le_halfLen1 n a f0 t) (halfLen1_le_rem n a t)
  have hz2r : zi2 n a f0 t ≤ n - 2 ^ (a + 1) * t - 2 ^ a :=
    le_trans (zi2_le_halfLen2 n a f0 t) (halfLen2_le_rem n a t)
  unfold Ssum
  rcases hN with hC1 | hC2
  · -- the comparator leaves its 2^(a+1) block: q' is in the last D slots
    have hD2 : 2 * D ≤ q' + 1 := by
      by_contra hcon
      have hmul : 2 ^ (b + 1) * (q' + 2) ≤ 2 ^ (b + 1) * (2 * D) :=
        Nat.mul_le_mul_left _ (by omega)
      have hl1 : 2 ^ (b + 1) * (q' + 2) =
          2 ^ (b + 1) * q' + 2 * 2 ^ (b + 1) := by ring
      have hl2 : 2 ^ (b + 1) * (2 * D) = 2 * (2 ^ (b + 1) * D) := by ring
      omega
    have hb1 : Zf (2 ^ (b + 1)) (zi1 n a f0 t) r ≤ D := by
      rw [Zf_le_iff hKpos hrK]
      omega
    have hb2 : Zf (2 ^ (b + 1)) (zi2 n a f0 t) r ≤ D := by
      rw [Zf_le_iff hKpos hrK]
      omega
    omega
  · -- the comparator leaves the array
    have hck : 2 ^ (b + 1) * q' + r' + 2 ^ b = 2 ^ (b + 1) * (q' + 1) + r := by
      have : 2 ^ (b + 1) * (q' + 1) = 2 ^ (b + 1) * q' + 2 ^ (b + 1) := by
        ring
      omega
    rcases lt_or_le (q' + 1) D with hqD | hqD
    · -- the whole tail of the block is off the array: half 2 holds no zeros
      have hb1 : Zf (2 ^ (b + 1)) (zi1 n a f0 t) r ≤ q' + 1 := by
        rw [Zf_le_iff hKpos hrK]
        omega
      have hb2 : Zf (2 ^ (b + 1)) (zi2 n a f0 t) r ≤ 0 := by
        rw [Zf_le_iff hKpos hrK]
        have hmul : 2 ^ (b + 1) * (q' + 1) ≤ 2 ^ (b + 1) * (D - 1) :=
          Nat.mul_le_mul_left _ (by omega)
        have hDpos : (0 : ℕ) < D := by positivity
        have hKD : 2 ^ (b + 1) * (D - 1) + 2 ^ (b + 1) = 2 ^ (b + 1) * D := by
          rw [← Nat.mul_succ]
          congr 1
          omega
        omega
      omega
    · have hb1 : Zf (2 ^ (b + 1)) (zi1 n a f0 t) r ≤ D := by
        rw [Zf_le_iff hKpos hrK]
        omega
      have hb2 : Zf (2 ^ (b + 1)) (zi2 n a f0 t) r ≤ q' + 1 - D := by
        rw [Zf_le_iff hKpos hrK]
        have hsub : 2 ^ (b + 1) * (q' + 1) =
            2 ^ (b + 1) * (q' + 1 - D) + 2 ^ (b + 1) * D := by
          rw [← Nat.mul_add, show q' + 1 - D + D = q' + 1 from by omega]
        omega
      omega

/-- A refinement stage `k = 2^b < p = 2^a`: applied to the stage-`(b+1)`
state it produces the stage-`b` state. -/
theorem stage_ref (n a b : ℕ) (hba : b < a) (f0 : ℕ → ℤ) :
    applyPairsF (stageList n a b) (valF n a f0 (b + 1)) = valF n a f0 b := by
  have hK : (2 : ℕ) * 2 ^ b = 2 ^ (b + 1) := by rw [pow_succ]; ring
  have hkpos : (0 : ℕ) < 2 ^ b := by positivity
  have hKpos : (0 : ℕ) < 2 ^ (b + 1) := by positivity
  have hPpos : (0 : ℕ) < 2 ^ (a + 1) := by positivity
  have hkH : (2 : ℕ) ^ b < 2 ^ a := Nat.pow_lt_pow_right one_lt_two hba
  have hHP : (2 : ℕ) ^ a + 2 ^ a = 2 ^ (a + 1) := by rw [pow_succ]; omega
  have hPK : (2 : ℕ) ^ (a + 1) = 2 ^ (b + 1) * 2 ^ (a - b) := by
    rw [← pow_add]
    congr 1
    omega
  have hED := stageList_eqdisj n a b (le_of_lt hba)
  funext z
  by_cases hz : z < n
  case neg =>
    rw [applyPairsF_untouched fun q hq => ?_, valF_of_ge f0 hz,
      valF_of_ge f0 hz]
    obtain ⟨x, rfl, hp⟩ := mem_stageList.1 hq
    have := hp.1
    exact ⟨show z ≠ x by omega, show z ≠ x + 2 ^ b by omega⟩
  case pos =>
  obtain ⟨t, c, hzd, hclt⟩ : ∃ t c, z = 2 ^ (a + 1) * t + c ∧
      c < 2 ^ (a + 1) :=
    ⟨z / 2 ^ (a + 1), z % 2 ^ (a + 1), (Nat.div_add_mod z _).symm,
      Nat.mod_lt z hPpos⟩
  subst hzd
  obtain ⟨q', r', hcd, hr'⟩ : ∃ q' r', c = 2 ^ (b + 1) * q' + r' ∧
      r' < 2 ^ (b + 1) :=
    ⟨c / 2 ^ (b + 1), c % 2 ^ (b + 1), (Nat.div_add_mod c _).symm,
      Nat.mod_lt c hKpos⟩
  subst hcd
  have hPt : 2 ^ (a + 1) * t = 2 ^ (b + 1) * (2 ^ (a - b) * t) := by
    rw [hPK]
    ring
  have hexp : ∀ v : ℕ, 2 ^ (b + 1) * (2 ^ (a - b) * t + v)
      = 2 ^ (b + 1) * (2 ^ (a - b) * t) + 2 ^ (b + 1) * v :=
    fun v => by ring
  have hxK : 2 ^ (a + 1) * t + (2 ^ (b + 1) * q' + r')
      = 2 ^ (b + 1) * (2 ^ (a - b) * t + q') + r' := by
    rw [hexp q']
    omega
  rcases lt_or_le r' (2 ^ b) with hrA | hrB
  · -- even chain slot: not a window position
    have hcb := mod_div_eq_of_eq hkpos
      (show 2 ^ (b + 1) * q' + r' = 2 ^ b * (2 * q') + r' from by
        have hl : 2 ^ b * (2 * q') = 2 ^ (b + 1) * q' := by
          rw [pow_succ]; ring
        omega) hrA
    rw [valF_eval f0 hz hclt hcb.2 hcb.1]
    have hwinz : ¬ inWindow (2 ^ a) (2 ^ b)
        (2 ^ (a + 1) * t + (2 ^ (b + 1) * q' + r')) := by
      rw [inWindow_iff_offset hba hr' hxK]
      omega
    rcases Nat.eq_zero_or_pos q' with hq0 | hq0
    · -- start of the chain: untouched, counts compare directly
      subst hq0
      rw [applyPairsF_untouched fun qq hq => ?_]
      · rw [valF_eval f0 hz hclt
          (mod_div_eq_of_eq hKpos rfl hr').2
          (mod_div_eq_of_eq hKpos rfl hr').1]
        have hsplit := Ssum_split n a f0 t hrA
        have hsib := Ssum_sibling n a f0 t hrA
        exact ite01_congr (by omega)
      · obtain ⟨x, rfl, hbound, hwin, hblk⟩ := mem_stageList.1 hq
        refine ⟨fun hzx => hwinz (by rw [hzx]; exact hwin), fun hzx => ?_⟩
        rcases t with _ | s
        · omega
        · have hls : 2 ^ (a + 1) * (s + 1)
              = 2 ^ (a + 1) * s + 2 ^ (a + 1) := by ring
          have hxe : x = 2 ^ (a + 1) * s + (2 ^ (a + 1) + r' - 2 ^ b) := by
            omega
          have := (sameBlock_iff_offset (by omega) hxe).1 hblk
          omega
    · -- interior even slot: upper end of the window comparator one step down
      obtain ⟨u, rfl⟩ : ∃ u, q' = u + 1 := ⟨q' - 1, by omega⟩
      have hKu : 2 ^ (b + 1) * (u + 1) = 2 ^ (b + 1) * u + 2 ^ (b + 1) := by
        ring
      have hxlink : 2 ^ (a + 1) * t + (2 ^ (b + 1) * u + (r' + 2 ^ b)) + 2 ^ b
          = 2 ^ (a + 1) * t + (2 ^ (b + 1) * (u + 1) + r') := by
        omega
      have hcx : 2 ^ (b + 1) * u + (r' + 2 ^ b) < 2 ^ (a + 1) := by
        omega
      have hwx : r' + 2 ^ b < 2 ^ (b + 1) := by omega
      have hmem : (2 ^ (a + 1) * t + (2 ^ (b + 1) * u + (r' + 2 ^ b)),
          2 ^ (a + 1) * t + (2 ^ (b + 1) * (u + 1) + r')) ∈
          stageList n a b := by
        refine mem_stageList.2 ⟨_, by rw [← hxlink], ?_, ?_, ?_⟩
        · omega
        · rw [inWindow_iff_offset hba hwx
            (show 2 ^ (a + 1) * t + (2 ^ (b + 1) * u + (r' + 2 ^ b))
              = 2 ^ (b + 1) * (2 ^ (a - b) * t + u) + (r' + 2 ^ b) from by
              rw [hexp u]; omega)]
          omega
        · rw [sameBlock_iff_offset hcx rfl]
          omega
      rw [applyPairsF_eqdisj_snd (by omega) hED hmem]
      rw [valF_eval f0 (by omega) hcx
          (mod_div_eq_of_eq hKpos rfl hwx).2
          (mod_div_eq_of_eq hKpos rfl hwx).1,
        valF_eval f0 hz hclt
          (mod_div_eq_of_eq hKpos rfl hr').2
          (mod_div_eq_of_eq hKpos rfl hr').1]
      have hsplit := Ssum_split n a f0 t hrA
      have hsib := Ssum_sibling n a f0 t hrA
      exact max_ite01 (by omega)
  · -- window position
    have hrk : r' - 2 ^ b < 2 ^ b := by omega
    have hcb := mod_div_eq_of_eq hkpos
      (show 2 ^ (b + 1) * q' + r' = 2 ^ b * (2 * q' + 1) + (r' - 2 ^ b) from by
        have hl : 2 ^ b * (2 * q' + 1) = 2 ^ (b + 1) * q' + 2 ^ b := by
          rw [pow_succ]; ring
        omega) hrk
    rw [valF_eval f0 hz hclt hcb.2 hcb.1]
    have hsplit := Ssum_split n a f0 t hrk
    have hsib := Ssum_sibling n a f0 t hrk
    rw [show r' - 2 ^ b + 2 ^ b = r' from by omega] at hsplit hsib
    by_cases hlow : 2 ^ (b + 1) * q' + r' + 2 ^ b < 2 ^ (a + 1) ∧
        2 ^ (a + 1) * t + (2 ^ (b + 1) * q' + r') + 2 ^ b < n
    · -- the window comparator is fully scheduled: z is its lower end
      have hz2e : 2 ^ (a + 1) * t + (2 ^ (b + 1) * q' + r') + 2 ^ b
          = 2 ^ (a + 1) * t + (2 ^ (b + 1) * (q' + 1) + (r' - 2 ^ b)) := by
        have : 2 ^ (b + 1) * (q' + 1) = 2 ^ (b + 1) * q' + 2 ^ (b + 1) := by
          ring
        omega
      have hmem : (2 ^ (a + 1) * t + (2 ^ (b + 1) * q' + r'),
          2 ^ (a + 1) * t + (2 ^ (b + 1) * q' + r') + 2 ^ b) ∈
          stageList n a b := by
        refine mem_stageList.2 ⟨_, rfl, hlow.2, ?_, ?_⟩
        · rw [inWindow_iff_offset hba hr' hxK]
          omega
        · rw [sameBlock_iff_offset hclt rfl]
          omega
      rw [applyPairsF_eqdisj_fst (by omega) hED hmem]
      rw [valF_eval f0 hz hclt
          (mod_div_eq_of_eq hKpos rfl hr').2
          (mod_div_eq_of_eq hKpos rfl hr').1]
      rw [hz2e,
        valF_eval f0 (by omega)
          (by
            have : 2 ^ (b + 1) * (q' + 1) = 2 ^ (b + 1) * q' + 2 ^ (b + 1) := by
              ring
            omega)
          (mod_div_eq_of_eq hKpos rfl (show r' - 2 ^ b < 2 ^ (b + 1) from by
            omega)).2
          (mod_div_eq_of_eq hKpos rfl (show r' - 2 ^ b < 2 ^ (b + 1) from by
            omega)).1]
      exact min_ite01 (by omega)
    · -- the comparator is truncated away: untouched window position
      have hN : 2 ^ (a + 1) ≤ 2 ^ (b + 1) * q' + r' + 2 ^ b ∨
          n ≤ 2 ^ (a + 1) * t + (2 ^ (b + 1) * q' + r') + 2 ^ b := by
        rcases not_and_or.1 hlow with h | h
        · exact Or.inl (by omega)
        · exact Or.inr (by omega)
      rw [applyPairsF_untouched fun qq hq => ?_]
      · rw [valF_eval f0 hz hclt
          (mod_div_eq_of_eq hKpos rfl hr').2
          (mod_div_eq_of_eq hKpos rfl hr').1]
        have htop := Ssum_top_bound hba f0 hrB hr' hN
        exact ite01_congr (by omega)
      · obtain ⟨x, rfl, hbound, hwin, hblk⟩ := mem_stageList.1 hq
        refine ⟨fun hzx => ?_, fun hzx => ?_⟩
        · have hbz : 2 ^ (b + 1) * q' + r' + 2 ^ b < 2 ^ (a + 1) := by
            have := (sameBlock_iff_offset hclt rfl).1 (by rw [hzx]; exact hblk)
            omega
          have hnz : 2 ^ (a + 1) * t + (2 ^ (b + 1) * q' + r') + 2 ^ b < n := by
            rw [hzx]
            exact hbound
          rcases hN with h | h <;> omega
        · have hxe : x = 2 ^ (a + 1) * t +
              (2 ^ (b + 1) * q' + (r' - 2 ^ b)) := by omega
          have := (inWindow_iff_offset hba (show r' - 2 ^ b < 2 ^ (b + 1) by
              omega)
            (show x = 2 ^ (b + 1) * (2 ^ (a - b) * t + q') + (r' - 2 ^ b) from by
              rw [hexp q']
              omega)).1 hwin
          omega

/-! ### Phase assembly and the network induction -/

/-- Stages `b = c-1, …, 0` of phase `2^a`, as one canonical schedule. -/
def stagesDown (n a c : ℕ) : List (ℕ × ℕ) :=
  ((List.range c).reverse).flatMap fun b => stageList n a b

/-- The canonical schedule of the whole phase `2^a`
(stages `k = 2^a, 2^(a-1), …, 1`). -/
def canonPhase (n a : ℕ) : List (ℕ × ℕ) := stagesDown n a (a + 1)

/-- A full network: phases `p = 2^a` for `2^a < n` in increasing order,
with stage schedules given by `Φ`. -/
def netSched (n : ℕ) (Φ : ℕ → List (ℕ × ℕ)) : List (ℕ × ℕ) :=
  (List.range n).flatMap fun a => if 2 ^ a < n then Φ a else []

theorem stagesDown_succ (n a c : ℕ) :
    stagesDown n a (c + 1) = stageList n a c ++ stagesDown n a c := by
  unfold stagesDown
  rw [List.range_succ, List.reverse_append, List.reverse_singleton,
    List.singleton_append, List.flatMap_cons]

theorem stagesDown_eq (n a : ℕ) (f0 : ℕ → ℤ) :
    ∀ c, c ≤ a →
      applyPairsF (stagesDown n a c) (valF n a f0 c) = valF n a f0 0
  | 0, _ => rfl
  | c + 1, hc => by
    rw [stagesDown_succ, applyPairsF_append, stage_ref n a c (by omega) f0]
    exact stagesDown_eq n a f0 c (by omega)

/-- A full canonical phase merges all its blocks. -/
theorem phase_canon (n a : ℕ) (f0 : ℕ → ℤ) (h01 : z01 f0)
    (hso : blockOrderedF n (2 ^ a) f0) :
    applyPairsF (canonPhase n a) f0 = valF n a f0 0 := by
  unfold canonPhase
  rw [stagesDown_succ, applyPairsF_append, stage_base n a f0 h01 hso]
  exact stagesDown_eq n a f0 a (le_refl a)

theorem blockOrderedF_trans {n L : ℕ} {f : ℕ → ℤ} (h : blockOrderedF n L f) :
    ∀ d x, x + d < n → x / L = (x + d) / L → f x ≤ f (x + d) := by
  intro d
  induction d with
  | zero => intro x _ _; exact le_refl _
  | succ d ih =>
    intro x hx hdiv
    have hd1 : x / L ≤ (x + d) / L := Nat.div_le_div_right (by omega)
    have hd2 : (x + d) / L ≤ (x + d + 1) / L := Nat.div_le_div_right (by omega)
    have hmid : x / L = (x + d) / L := by
      rw [show x + (d + 1) = x + d + 1 from by omega] at hdiv
      omega
    refine le_trans (ih x (by omega) hmid) ?_
    have := h (x + d) (by omega) (by
      rw [show x + d + 1 = x + (d + 1) from by omega]
      omega)
    rw [show x + (d + 1) = x + d + 1 from by omega]
    exact this

theorem sorted_of_blockOrdered_big {n L : ℕ} {f : ℕ → ℤ} (hL : n ≤ L)
    (h : blockOrderedF n L f) : ∀ i j, i < j → j < n → f i ≤ f j := by
  intro i j hij hj
  have hdiv : i / L = (i + (j - i)) / L := by
    rw [Nat.div_eq_of_lt (by omega), Nat.div_eq_of_lt (by omega)]
  have := blockOrderedF_trans h (j - i) i (by omega) hdiv
  rwa [show i + (j - i) = j from by omega] at this

theorem blockOrderedF_double {n t : ℕ} {f : ℕ → ℤ} (hn : n ≤ 2 ^ t)
    (h : blockOrderedF n (2 ^ t) f) : blockOrderedF n (2 ^ (t + 1)) f := by
  intro x hx _
  exact h x hx (by
    rw [Nat.div_eq_of_lt (by omega), Nat.div_eq_of_lt (by omega)])

/-- The network induction: if every phase schedule `Φ a` merges the
`2^(a+1)` blocks of a 0-1 state that is already `2^a`-block-ordered, then
running the phases with `2^a < n` in ascending order sorts every 0-1
state. -/
theorem net_tail_sorts (n : ℕ) (Φ : ℕ → List (ℕ × ℕ))
    (hΦ : ∀ a f0, z01 f0 → blockOrderedF n (2 ^ a) f0 →
      applyPairsF (Φ a) f0 = valF n a f0 0) :
    ∀ m t, n ≤ t + m → ∀ f, z01 f → blockOrderedF n (2 ^ t) f →
      ∀ i j, i < j → j < n →
        applyPairsF (((List.range n).drop t).flatMap
          fun a => if 2 ^ a < n then Φ a else []) f i ≤
        applyPairsF (((List.range n).drop t).flatMap
          fun a => if 2 ^ a < n then Φ a else []) f j := by
  intro m
  induction m with
  | zero =>
    intro t htn f h01 hbo i j hij hj
    have hdrop : (List.range n).drop t = [] := by
      apply List.drop_eq_nil_of_le
      rw [List.length_range]
      omega
    rw [hdrop]
    exact sorted_of_blockOrdered_big
      (le_trans (by omega) (le_of_lt (Nat.lt_two_pow t))) hbo i j hij hj
  | succ m ih =>
    intro t htn f h01 hbo i j hij hj
    rcases lt_or_le t n with htlt | htge
    · rw [drop_range_cons htlt, List.flatMap_cons, applyPairsF_append]
      by_cases hp : 2 ^ t < n
      · rw [if_pos hp, hΦ t f h01 hbo]
        exact ih (t + 1) (by omega) (valF n t f 0) (valF_z01 h01)
          (valF_zero_blockOrdered n t f) i j hij hj
      · rw [if_neg hp]
        exact ih (t + 1) (by omega) f h01
          (blockOrderedF_double (by omega) hbo) i j hij hj
    · have hdrop : (List.range n).drop t = [] := by
        apply List.drop_eq_nil_of_le
        rw [List.length_range]
        omega
      rw [hdrop]
      exact sorted_of_blockOrdered_big
        (le_trans htge (le_of_lt (Nat.lt_two_pow t))) hbo i j hij hj

/-- Every state (not just 0-1) is sorted by such a network. -/
theorem netSched_sorts (n : ℕ) (Φ : ℕ → List (ℕ × ℕ))
    (hΦ : ∀ a f0, z01 f0 → blockOrderedF n (2 ^ a) f0 →
      applyPairsF (Φ a) f0 = valF n a f0 0) :
    ∀ f : ℕ → ℤ, ∀ i j, i < j → j < n →
      applyPairsF (netSched n Φ) f i ≤ applyPairsF (netSched n Φ) f j := by
  refine zero_one_principle _ n ?_
  intro f h01 i j hij hj
  have h := net_tail_sorts n Φ hΦ n 0 (by omega) f h01
    (by
      intro x hx hdiv
      rw [pow_zero, Nat.div_one, Nat.div_one] at hdiv
      omega)
    i j hij hj
  rwa [List.drop_zero] at h

/-! ### The stage schedules of Listings 2, 3, 4 are the canonical ones -/

theorem stage_equiv_2 (n a b : ℕ) (hba : b ≤ a) (g : ℕ → ℤ) :
    applyPairsF (l2J n (2 ^ a) (2 ^ b)) g = applyPairsF (stageList n a b) g := by
  have hp : (0 : ℕ) < 2 ^ a := by positivity
  have hk : (0 : ℕ) < 2 ^ b := by positivity
  have hdvd : (2 : ℕ) ^ b ∣ 2 ^ a := pow_dvd_pow 2 hba
  refine applyPairsF_eq_of_mem_eqdisj ?_ (stageList_eqdisj n a b hba) ?_ ?_
  · refine wchar_eqdisj hba fun q hq => ?_
    obtain ⟨x, rfl, _, hwin, _⟩ := (mem_l2J hp hk hdvd).1 hq
    exact ⟨x, rfl, hwin⟩
  · intro q hq
    obtain ⟨x, rfl, _, _, _⟩ := (mem_l2J hp hk hdvd).1 hq
    show x < x + 2 ^ b
    omega
  · intro q
    rw [mem_l2J hp hk hdvd, mem_stageList]
    constructor
    · rintro ⟨x, rfl, h1, h2, h3⟩
      exact ⟨x, rfl, h1, h2, h3⟩
    · rintro ⟨x, rfl, h1, h2, h3⟩
      exact ⟨x, rfl, h1, h2, h3⟩

theorem stage_equiv_3 (n a b : ℕ) (hba : b ≤ a) (g : ℕ → ℤ) :
    applyPairsF (l3J n (2 ^ a) (2 ^ b)) g = applyPairsF (stageList n a b) g := by
  have hp : (0 : ℕ) < 2 ^ a := by positivity
  have hk : (0 : ℕ) < 2 ^ b := by positivity
  refine applyPairsF_eq_of_mem_eqdisj ?_ (stageList_eqdisj n a b hba) ?_ ?_
  · refine wchar_eqdisj hba fun q hq => ?_
    obtain ⟨x, rfl, _, hwin, _⟩ := (mem_l3J hp hk).1 hq
    exact ⟨x, rfl, hwin⟩
  · intro q hq
    obtain ⟨x, rfl, _, _, _⟩ := (mem_l3J hp hk).1 hq
    show x < x + 2 ^ b
    omega
  · intro q
    rw [mem_l3J hp hk, mem_stageList]
    constructor
    · rintro ⟨x, rfl, h1, h2, h3⟩
      exact ⟨x, rfl, h1, h2, h3⟩
    · rintro ⟨x, rfl, h1, h2, h3⟩
      exact ⟨x, rfl, h1, h2, h3⟩

theorem stage_equiv_4 (n a b : ℕ) (hba : b ≤ a) (g : ℕ → ℤ) :
    applyPairsF (l4J n (2 ^ a) (2 ^ b)) g = applyPairsF (stageList n a b) g := by
  refine applyPairsF_eq_of_mem_eqdisj ?_ (stageList_eqdisj n a b hba) ?_ ?_
  · refine wchar_eqdisj hba fun q hq => ?_
    obtain ⟨x, rfl, _, hwin, _⟩ := (mem_l4J hba).1 hq
    exact ⟨x, rfl, hwin⟩
  · intro q hq
    obtain ⟨x, rfl, _, _, _⟩ := (mem_l4J hba).1 hq
    show x < x + 2 ^ b
    have : (0 : ℕ) < 2 ^ b := by positivity
    omega
  · intro q
    rw [mem_l4J hba, mem_stageList]
    constructor
    · rintro ⟨x, rfl, h1, h2, h3⟩
      exact ⟨x, rfl, h1, h2, h3⟩
    · rintro ⟨x, rfl, h1, h2, h3⟩
      exact ⟨x, rfl, h1, h2, h3⟩

theorem applyPairsF_flatMap_congr {F G : ℕ → List (ℕ × ℕ)} :
    ∀ (L : List ℕ),
      (∀ b ∈ L, ∀ g : ℕ → ℤ, applyPairsF (F b) g = applyPairsF (G b) g) →
      ∀ g : ℕ → ℤ, applyPairsF (L.flatMap F) g = applyPairsF (L.flatMap G) g
  | [], _, g => rfl
  | b :: L, h, g => by
    rw [List.flatMap_cons, List.flatMap_cons, applyPairsF_append,
      applyPairsF_append, h b (List.mem_cons_self b L)]
    exact applyPairsF_flatMap_congr L
      (fun b' hb' => h b' (List.mem_cons_of_mem b hb')) _

theorem l2K_phase (n a : ℕ) (f0 : ℕ → ℤ) (h01 : z01 f0)
    (hso : blockOrderedF n (2 ^ a) f0) :
    applyPairsF (l2K n a) f0 = valF n a f0 0 := by
  rw [show applyPairsF (l2K n a) f0 = applyPairsF (canonPhase n a) f0 from
    applyPairsF_flatMap_congr ((List.range (a + 1)).reverse)
      (fun b hb => stage_equiv_2 n a b (by
        rw [List.mem_reverse, List.mem_range] at hb
        omega)) f0]
  exact phase_canon n a f0 h01 hso

theorem l3K_phase (n a : ℕ) (f0 : ℕ → ℤ) (h01 : z01 f0)
    (hso : blockOrderedF n (2 ^ a) f0) :
    applyPairsF (l3K n a) f0 = valF n a f0 0 := by
  rw [show applyPairsF (l3K n a) f0 = applyPairsF (canonPhase n a) f0 from
    applyPairsF_flatMap_congr ((List.range (a + 1)).reverse)
      (fun b hb => stage_equiv_3 n a b (by
        rw [List.mem_reverse, List.mem_range] at hb
        omega)) f0]
  exact phase_canon n a f0 h01 hso

theorem l4K_phase (n a : ℕ) (f0 : ℕ → ℤ) (h01 : z01 f0)
    (hso : blockOrderedF n (2 ^ a) f0) :
    applyPairsF (l4K n a) f0 = valF n a f0 0 := by
  rw [show applyPairsF (l4K n a) f0 = applyPairsF (canonPhase n a) f0 from
    applyPairsF_flatMap_congr ((List.range (a + 1)).reverse)
      (fun b hb => stage_equiv_4 n a b (by
        rw [List.mem_reverse, List.mem_range] at hb
        omega)) f0]
  exact phase_canon n a f0 h01 hso

/-! ### Listing 1's sweeps

Listing 1's inner loop rescans whole suffixes: each stage `(a, b)` with
`b < a` is executed as one full ascending sweep over all same-block pairs
(window or not) followed by redundant partial sweeps.  The sweep is
analysed with an explicit mid-sweep state `sweepG`: on each mod-`2^b`
chain the only comparator that moves data is the window comparator at the
chain's `critPos`; every other comparator finds its pair already ordered. -/

/-- Chain `(t, ρ)` of stage `(a, b)` moves data iff its even sub-chain has
exactly two more zeros than its odd sub-chain. -/
def swChain (n a : ℕ) (f0 : ℕ → ℤ) (b t ρ : ℕ) : Prop :=
  Ssum n a f0 (b + 1) t ρ = Ssum n a f0 (b + 1) t (ρ + 2 ^ b) + 2

instance (n a : ℕ) (f0 : ℕ → ℤ) (b t ρ : ℕ) :
    Decidable (swChain n a f0 b t ρ) := by
  unfold swChain; infer_instance

/-- The window position whose comparator performs that chain's swap
(chain slot `2β + 1` where `β` is the odd sub-chain's zero count). -/
def critPos (n a : ℕ) (f0 : ℕ → ℤ) (b t ρ : ℕ) : ℕ :=
  2 ^ (a + 1) * t +
    (2 ^ (b + 1) * Ssum n a f0 (b + 1) t (ρ + 2 ^ b) + (ρ + 2 ^ b))

/-- The state midway through the first sweep of stage `(a, b)`, with the
sweep front at position `s`: chains whose swap has already been passed are
in the stage-`b` state, the others still in the stage-`(b+1)` state. -/
def sweepG (n a : ℕ) (f0 : ℕ → ℤ) (b s : ℕ) : ℕ → ℤ := fun z =>
  if swChain n a f0 b (z / 2 ^ (a + 1)) (z % 2 ^ (a + 1) % 2 ^ b) ∧
      critPos n a f0 b (z / 2 ^ (a + 1)) (z % 2 ^ (a + 1) % 2 ^ b) < s then
    valF n a f0 b z
  else valF n a f0 (b + 1) z

/-- If `B` implies `A`, the 0-1 indicator of `A` is below that of `B`. -/
theorem ite01_le_ite01 {A B : Prop} [Decidable A] [Decidable B]
    (h : B → A) :
    (if A then (0 : ℤ) else 1) ≤ (if B then (0 : ℤ) else 1) := by
  by_cases hB : B
  · rw [if_pos (h hB), if_pos hB]
  · rw [if_neg hB]
    split <;> norm_num

/-- A swapping chain's swap comparator lies inside its block and inside the
array. -/
theorem swChain_slots {n a b : ℕ} (hba : b < a) (f0 : ℕ → ℤ) {t ρ : ℕ}
    (hρ : ρ < 2 ^ b) (hsw : swChain n a f0 b t ρ) :
    2 ^ (b + 1) * Ssum n a f0 (b + 1) t (ρ + 2 ^ b) + ρ + 2 ^ (b + 1)
        < 2 ^ (a + 1) ∧
      2 ^ (a + 1) * t +
        (2 ^ (b + 1) * Ssum n a f0 (b + 1) t (ρ + 2 ^ b) + ρ + 2 ^ (b + 1))
        < n := by
  have hK : (2 : ℕ) * 2 ^ b = 2 ^ (b + 1) := by rw [pow_succ]; ring
  have hKpos : (0 : ℕ) < 2 ^ (b + 1) := by positivity
  have hρK : ρ < 2 ^ (b + 1) := by omega
  have hHd : (2 : ℕ) ^ a = 2 ^ (b + 1) * 2 ^ (a - b - 1) := by
    rw [← pow_add]
    congr 1
    omega
  have hP2 : (2 : ℕ) ^ (a + 1) = 2 ^ a + 2 ^ a := by rw [pow_succ]; omega
  set D := 2 ^ (a - b - 1) with hD
  have hz1a : zi1 n a f0 t ≤ 2 ^ a :=
    le_trans (zi1_le_halfLen1 n a f0 t) (halfLen1_le_pow n a t)
  have hz2a : zi2 n a f0 t ≤ 2 ^ a :=
    le_trans (zi2_le_halfLen2 n a f0 t) (halfLen2_le_pow n a t)
  have hz1r : zi1 n a f0 t ≤ n - 2 ^ (a + 1) * t :=
    le_trans (zi1_le_halfLen1 n a f0 t) (halfLen1_le_rem n a t)
  have hz2r : zi2 n a f0 t ≤ n - 2 ^ (a + 1) * t - 2 ^ a :=
    le_trans (zi2_le_halfLen2 n a f0 t) (halfLen2_le_rem n a t)
  unfold swChain Ssum at hsw
  unfold Ssum
  set N1 := Zf (2 ^ (b + 1)) (zi1 n a f0 t) ρ with hN1
  set N2 := Zf (2 ^ (b + 1)) (zi2 n a f0 t) ρ with hN2
  set M1 := Zf (2 ^ (b + 1)) (zi1 n a f0 t) (ρ + 2 ^ b) with hM1
  set M2 := Zf (2 ^ (b + 1)) (zi2 n a f0 t) (ρ + 2 ^ b) with hM2
  rcases Nat.eq_zero_or_pos N2 with hN20 | hN2p
  · have hlast : 2 ^ (b + 1) * (N1 - 1) + ρ < zi1 n a f0 t := by
      rw [hN1]
      exact (lt_Zf_iff hKpos hρK (zi1 n a f0 t) (N1 - 1)).1 (by omega)
    have hl : 2 ^ (b + 1) * (N1 - 1)
        = 2 ^ (b + 1) * (M1 + M2) + 2 ^ (b + 1) := by
      rw [show N1 - 1 = M1 + M2 + 1 from by omega]
      ring
    constructor
    · omega
    · omega
  · have hN1D : N1 ≤ D := by
      rw [hN1, Zf_le_iff hKpos hρK]
      omega
    have hz2pos : 0 < zi2 n a f0 t := by
      have := (lt_Zf_iff hKpos hρK (zi2 n a f0 t) 0).1 (by omega)
      omega
    have hlast2 : 2 ^ (b + 1) * (N2 - 1) + ρ < zi2 n a f0 t := by
      rw [hN2]
      exact (lt_Zf_iff hKpos hρK (zi2 n a f0 t) (N2 - 1)).1 (by omega)
    have hl1 : 2 ^ (b + 1) * (M1 + M2 + 1)
        = 2 ^ (b + 1) * N1 + 2 ^ (b + 1) * (N2 - 1) := by
      rw [show M1 + M2 + 1 = N1 + (N2 - 1) from by omega, Nat.mul_add]
    have hl2 : 2 ^ (b + 1) * (M1 + M2 + 1)
        = 2 ^ (b + 1) * (M1 + M2) + 2 ^ (b + 1) := by ring
    have hKN1 : 2 ^ (b + 1) * N1 ≤ 2 ^ (b + 1) * D :=
      Nat.mul_le_mul_left _ hN1D
    constructor
    · omega
    · omega

/-- The swap comparator of chain `(t, ρ)` lies on chain `(t, ρ)`. -/
theorem critPos_chain {n a b : ℕ} (hba : b < a) (f0 : ℕ → ℤ) {t ρ : ℕ}
    (hρ : ρ < 2 ^ b) (hsw : swChain n a f0 b t ρ) :
    critPos n a f0 b t ρ / 2 ^ (a + 1) = t ∧
      critPos n a f0 b t ρ % 2 ^ (a + 1) % 2 ^ b = ρ := by
  have hK : (2 : ℕ) * 2 ^ b = 2 ^ (b + 1) := by rw [pow_succ]; ring
  have hkpos : (0 : ℕ) < 2 ^ b := by positivity
  have hPpos : (0 : ℕ) < 2 ^ (a + 1) := by positivity
  have hslots := swChain_slots hba f0 hρ hsw
  have hoff : 2 ^ (b + 1) * Ssum n a f0 (b + 1) t (ρ + 2 ^ b) + (ρ + 2 ^ b)
      < 2 ^ (a + 1) := by omega
  have hdm := mod_div_eq_of_eq hPpos
    (rfl : critPos n a f0 b t ρ = 2 ^ (a + 1) * t +
      (2 ^ (b + 1) * Ssum n a f0 (b + 1) t (ρ + 2 ^ b) + (ρ + 2 ^ b))) hoff
  refine ⟨hdm.2, ?_⟩
  rw [hdm.1]
  have hl : 2 ^ b * (2 * Ssum n a f0 (b + 1) t (ρ + 2 ^ b) + 1)
      = 2 ^ (b + 1) * Ssum n a f0 (b + 1) t (ρ + 2 ^ b) + 2 ^ b := by
    rw [pow_succ]
    ring
  exact (mod_div_eq_of_eq hkpos
    (show 2 ^ (b + 1) * Ssum n a f0 (b + 1) t (ρ + 2 ^ b) + (ρ + 2 ^ b)
      = 2 ^ b * (2 * Ssum n a f0 (b + 1) t (ρ + 2 ^ b) + 1) + ρ from by
      omega) hρ).1

/-- On a non-swapping chain the stage-`b` and stage-`(b+1)` states agree. -/
theorem valF_noswap_eq {n a b : ℕ} (f0 : ℕ → ℤ) (z : ℕ)
    (hns : ¬ swChain n a f0 b (z / 2 ^ (a + 1)) (z % 2 ^ (a + 1) % 2 ^ b)) :
    valF n a f0 b z = valF n a f0 (b + 1) z := by
  have hK : (2 : ℕ) * 2 ^ b = 2 ^ (b + 1) := by rw [pow_succ]; ring
  have hkpos : (0 : ℕ) < 2 ^ b := by positivity
  have hKpos : (0 : ℕ) < 2 ^ (b + 1) := by positivity
  have hPpos : (0 : ℕ) < 2 ^ (a + 1) := by positivity
  by_cases hz : z < n
  case neg => rw [valF_of_ge f0 hz, valF_of_ge f0 hz]
  case pos =>
  obtain ⟨t, c, hzd, hclt⟩ : ∃ t c, z = 2 ^ (a + 1) * t + c ∧
      c < 2 ^ (a + 1) :=
    ⟨z / 2 ^ (a + 1), z % 2 ^ (a + 1), (Nat.div_add_mod z _).symm,
      Nat.mod_lt z hPpos⟩
  subst hzd
  have hdm := mod_div_eq_of_eq hPpos (rfl :
    2 ^ (a + 1) * t + c = 2 ^ (a + 1) * t + c) hclt
  rw [hdm.2, hdm.1] at hns
  obtain ⟨q', r', hcd, hr'⟩ : ∃ q' r', c = 2 ^ (b + 1) * q' + r' ∧
      r' < 2 ^ (b + 1) :=
    ⟨c / 2 ^ (b + 1), c % 2 ^ (b + 1), (Nat.div_add_mod c _).symm,
      Nat.mod_lt c hKpos⟩
  subst hcd
  rcases lt_or_le r' (2 ^ b) with hrA | hrB
  · have hcb := mod_div_eq_of_eq hkpos
      (show 2 ^ (b + 1) * q' + r' = 2 ^ b * (2 * q') + r' from by
        have hl : 2 ^ b * (2 * q') = 2 ^ (b + 1) * q' := by
          rw [pow_succ]; ring
        omega) hrA
    rw [hcb.1] at hns
    unfold swChain at hns
    rw [valF_eval f0 hz hclt hcb.2 hcb.1,
      valF_eval f0 hz hclt
        (mod_div_eq_of_eq hKpos rfl hr').2
        (mod_div_eq_of_eq hKpos rfl hr').1]
    have hsplit := Ssum_split n a f0 t hrA
    have hsib := Ssum_sibling n a f0 t hrA
    exact ite01_congr (by omega)
  · have hrk : r' - 2 ^ b < 2 ^ b := by omega
    have hcb := mod_div_eq_of_eq hkpos
      (show 2 ^ (b + 1) * q' + r'
          = 2 ^ b * (2 * q' + 1) + (r' - 2 ^ b) from by
        have hl : 2 ^ b * (2 * q' + 1) = 2 ^ (b + 1) * q' + 2 ^ b := by
          rw [pow_succ]; ring
        omega) hrk
    rw [hcb.1] at hns
    unfold swChain at hns
    rw [show r' - 2 ^ b + 2 ^ b = r' from by omega] at hns
    rw [valF_eval f0 hz hclt hcb.2 hcb.1,
      valF_eval f0 hz hclt
        (mod_div_eq_of_eq hKpos rfl hr').2
        (mod_div_eq_of_eq hKpos rfl hr').1]
    have hsplit := Ssum_split n a f0 t hrk
    have hsib := Ssum_sibling n a f0 t hrk
    rw [show r' - 2 ^ b + 2 ^ b = r' from by omega] at hsplit hsib
    exact ite01_congr (by omega)

/-- On a swapping chain, the stage-`b` and stage-`(b+1)` states agree at
every position except the swap comparator's two ends. -/
theorem valF_swap_outside {n a b : ℕ} (f0 : ℕ → ℤ) (z : ℕ)
    (hsw : swChain n a f0 b (z / 2 ^ (a + 1)) (z % 2 ^ (a + 1) % 2 ^ b))
    (h1 : z ≠ critPos n a f0 b (z / 2 ^ (a + 1)) (z % 2 ^ (a + 1) % 2 ^ b))
    (h2 : z ≠ critPos n a f0 b (z / 2 ^ (a + 1)) (z % 2 ^ (a + 1) % 2 ^ b)
        + 2 ^ b) :
    valF n a f0 b z = valF n a f0 (b + 1) z := by
  have hK : (2 : ℕ) * 2 ^ b = 2 ^ (b + 1) := by rw [pow_succ]; ring
  have hkpos : (0 : ℕ) < 2 ^ b := by positivity
  have hKpos : (0 : ℕ) < 2 ^ (b + 1) := by positivity
  have hPpos : (0 : ℕ) < 2 ^ (a + 1) := by positivity
  by_cases hz : z < n
  case neg => rw [valF_of_ge f0 hz, valF_of_ge f0 hz]
  case pos =>
  obtain ⟨t, c, hzd, hclt⟩ : ∃ t c, z = 2 ^ (a + 1) * t + c ∧
      c < 2 ^ (a + 1) :=
    ⟨z / 2 ^ (a + 1), z % 2 ^ (a + 1), (Nat.div_add_mod z _).symm,
      Nat.mod_lt z hPpos⟩
  subst hzd
  have hdm := mod_div_eq_of_eq hPpos (rfl :
    2 ^ (a + 1) * t + c = 2 ^ (a + 1) * t + c) hclt
  rw [hdm.2, hdm.1] at hsw h1 h2
  obtain ⟨q', r', hcd, hr'⟩ : ∃ q' r', c = 2 ^ (b + 1) * q' + r' ∧
      r' < 2 ^ (b + 1) :=
    ⟨c / 2 ^ (b + 1), c % 2 ^ (b + 1), (Nat.div_add_mod c _).symm,
      Nat.mod_lt c hKpos⟩
  subst hcd
  rcases lt_or_le r' (2 ^ b) with hrA | hrB
  · have hcb := mod_div_eq_of_eq hkpos
      (show 2 ^ (b + 1) * q' + r' = 2 ^ b * (2 * q') + r' from by
        have hl : 2 ^ b * (2 * q') = 2 ^ (b + 1) * q' := by
          rw [pow_succ]; ring
        omega) hrA
    rw [hcb.1] at hsw h2
    unfold swChain at hsw
    have hq1 : q' ≠ Ssum n a f0 (b + 1) t (r' + 2 ^ b) + 1 := by
      intro hqb
      apply h2
      unfold critPos
      have hl : 2 ^ (b + 1) * (Ssum n a f0 (b + 1) t (r' + 2 ^ b) + 1)
          = 2 ^ (b + 1) * Ssum n a f0 (b + 1) t (r' + 2 ^ b)
            + 2 ^ (b + 1) := by ring
      rw [hqb]
      omega
    rw [valF_eval f0 hz hclt hcb.2 hcb.1,
      valF_eval f0 hz hclt
        (mod_div_eq_of_eq hKpos rfl hr').2
        (mod_div_eq_of_eq hKpos rfl hr').1]
    have hsplit := Ssum_split n a f0 t hrA
    exact ite01_congr (by omega)
  · have hrk : r' - 2 ^ b < 2 ^ b := by omega
    have hcb := mod_div_eq_of_eq hkpos
      (show 2 ^ (b + 1) * q' + r'
          = 2 ^ b * (2 * q' + 1) + (r' - 2 ^ b) from by
        have hl : 2 ^ b * (2 * q' + 1) = 2 ^ (b + 1) * q' + 2 ^ b := by
          rw [pow_succ]; ring
        omega) hrk
    rw [hcb.1] at hsw h1
    unfold swChain at hsw
    rw [show r' - 2 ^ b + 2 ^ b = r' from by omega] at hsw
    have hq1 : q' ≠ Ssum n a f0 (b + 1) t r' := by
      intro hqb
      apply h1
      unfold critPos
      rw [show r' - 2 ^ b + 2 ^ b = r' from by omega, ← hqb]
    rw [valF_eval f0 hz hclt hcb.2 hcb.1,
      valF_eval f0 hz hclt
        (mod_div_eq_of_eq hKpos rfl hr').2
        (mod_div_eq_of_eq hKpos rfl hr').1]
    have hsplit := Ssum_split n a f0 t hrk
    rw [show r' - 2 ^ b + 2 ^ b = r' from by omega] at hsplit
    exact ite01_congr (by omega)

theorem sweepG_start (n a b : ℕ) (f0 : ℕ → ℤ) :
    sweepG n a f0 b (2 ^ b) = valF n a f0 (b + 1) := by
  funext w
  unfold sweepG
  rw [if_neg]
  rintro ⟨_, hlt⟩
  unfold critPos at hlt
  omega

theorem sweepG_end {n a b : ℕ} (hba : b < a) (f0 : ℕ → ℤ) {s : ℕ}
    (hs : n - 2 ^ b ≤ s) : sweepG n a f0 b s = valF n a f0 b := by
  have hK : (2 : ℕ) * 2 ^ b = 2 ^ (b + 1) := by rw [pow_succ]; ring
  funext w
  unfold sweepG
  by_cases hsw : swChain n a f0 b (w / 2 ^ (a + 1)) (w % 2 ^ (a + 1) % 2 ^ b)
  · have hρ : w % 2 ^ (a + 1) % 2 ^ b < 2 ^ b :=
      Nat.mod_lt _ (by positivity)
    have hslots := swChain_slots hba f0 hρ hsw
    have hlt : critPos n a f0 b (w / 2 ^ (a + 1)) (w % 2 ^ (a + 1) % 2 ^ b)
        < s := by
      unfold critPos
      omega
    rw [if_pos ⟨hsw, hlt⟩]
  · rw [if_neg (fun hc => hsw hc.1)]
    exact (valF_noswap_eq f0 w hsw).symm

theorem sweepG_succ_of_nofire {n a b : ℕ} (hba : b < a) (f0 : ℕ → ℤ)
    {s : ℕ}
    (hnf : ¬ (swChain n a f0 b (s / 2 ^ (a + 1)) (s % 2 ^ (a + 1) % 2 ^ b)
        ∧ critPos n a f0 b (s / 2 ^ (a + 1)) (s % 2 ^ (a + 1) % 2 ^ b)
          = s)) :
    sweepG n a f0 b (s + 1) = sweepG n a f0 b s := by
  funext w
  unfold sweepG
  by_cases hsw : swChain n a f0 b (w / 2 ^ (a + 1)) (w % 2 ^ (a + 1) % 2 ^ b)
  · by_cases hcrit : critPos n a f0 b (w / 2 ^ (a + 1))
        (w % 2 ^ (a + 1) % 2 ^ b) = s
    · exfalso
      apply hnf
      have hρ : w % 2 ^ (a + 1) % 2 ^ b < 2 ^ b :=
        Nat.mod_lt _ (by positivity)
      have hch := critPos_chain hba f0 hρ hsw
      rw [← hcrit, hch.1, hch.2]
      exact ⟨hsw, rfl⟩
    · exact if_congr (and_congr_right fun _ => by omega) rfl rfl
  · rw [if_neg (fun hc => hsw hc.1), if_neg (fun hc => hsw hc.1)]

theorem sweepG_skip {n a b : ℕ} (hba : b < a) (f0 : ℕ → ℤ) {s : ℕ}
    (h : ¬ (sameBlock (2 ^ a) (2 ^ b) s ∧ s + 2 ^ b < n)) :
    sweepG n a f0 b (s + 1) = sweepG n a f0 b s := by
  refine sweepG_succ_of_nofire hba f0 ?_
  rintro ⟨hsw, hcrit⟩
  have hρ : s % 2 ^ (a + 1) % 2 ^ b < 2 ^ b := Nat.mod_lt _ (by positivity)
  have hslots := swChain_slots hba f0 hρ hsw
  have hK : (2 : ℕ) * 2 ^ b = 2 ^ (b + 1) := by rw [pow_succ]; ring
  apply h
  constructor
  · rw [← hcrit,
      sameBlock_iff_offset (show 2 ^ (b + 1) *
          Ssum n a f0 (b + 1) (s / 2 ^ (a + 1))
            (s % 2 ^ (a + 1) % 2 ^ b + 2 ^ b)
          + (s % 2 ^ (a + 1) % 2 ^ b + 2 ^ b) < 2 ^ (a + 1) from by omega)
        (show critPos n a f0 b (s / 2 ^ (a + 1)) (s % 2 ^ (a + 1) % 2 ^ b)
          = 2 ^ (a + 1) * (s / 2 ^ (a + 1)) +
            (2 ^ (b + 1) * Ssum n a f0 (b + 1) (s / 2 ^ (a + 1))
                (s % 2 ^ (a + 1) % 2 ^ b + 2 ^ b)
              + (s % 2 ^ (a + 1) % 2 ^ b + 2 ^ b)) from rfl)]
    omega
  · rw [← hcrit]
    unfold critPos
    omega

/-- The sweep-step lemma: a same-block comparator advances the sweep state
by one position. -/
theorem sweep_step {n a b : ℕ} (hba : b < a) (f0 : ℕ → ℤ) {s : ℕ}
    (hsb : sameBlock (2 ^ a) (2 ^ b) s) (hsn : s + 2 ^ b < n) :
    cmpExchF s (s + 2 ^ b) (sweepG n a f0 b s) = sweepG n a f0 b (s + 1) := by
  have hK : (2 : ℕ) * 2 ^ b = 2 ^ (b + 1) := by rw [pow_succ]; ring
  have hkpos : (0 : ℕ) < 2 ^ b := by positivity
  have hKpos : (0 : ℕ) < 2 ^ (b + 1) := by positivity
  have hPpos : (0 : ℕ) < 2 ^ (a + 1) := by positivity
  obtain ⟨t, c, hsd, hclt⟩ : ∃ t c, s = 2 ^ (a + 1) * t + c ∧
      c < 2 ^ (a + 1) :=
    ⟨s / 2 ^ (a + 1), s % 2 ^ (a + 1), (Nat.div_add_mod s _).symm,
      Nat.mod_lt s hPpos⟩
  subst hsd
  have hdm := mod_div_eq_of_eq hPpos (rfl :
    2 ^ (a + 1) * t + c = 2 ^ (a + 1) * t + c) hclt
  have hcP : c + 2 ^ b < 2 ^ (a + 1) :=
    (sameBlock_iff_offset hclt rfl).1 hsb
  have hdm2 := mod_div_eq_of_eq hPpos (rfl :
    2 ^ (a + 1) * t + (c + 2 ^ b) = 2 ^ (a + 1) * t + (c + 2 ^ b)) hcP
  have hρc : c % 2 ^ b < 2 ^ b := Nat.mod_lt c hkpos
  rw [show 2 ^ (a + 1) * t + c + 2 ^ b = 2 ^ (a + 1) * t + (c + 2 ^ b)
    from by omega]
  by_cases hfire : swChain n a f0 b t (c % 2 ^ b) ∧
      critPos n a f0 b t (c % 2 ^ b) = 2 ^ (a + 1) * t + c
  · obtain ⟨hsw, hcrit⟩ := hfire
    have hα := hsw
    unfold swChain at hα
    have hslots := swChain_slots hba f0 hρc hsw
    have hceq : c = 2 ^ (b + 1) * Ssum n a f0 (b + 1) t (c % 2 ^ b + 2 ^ b)
        + (c % 2 ^ b + 2 ^ b) := by
      unfold critPos at hcrit
      omega
    have hwK : c % 2 ^ b + 2 ^ b < 2 ^ (b + 1) := by omega
    have hvs1 : valF n a f0 (b + 1) (2 ^ (a + 1) * t + c) = 1 := by
      rw [valF_eval f0 (by omega) hclt
        (mod_div_eq_of_eq hKpos hceq hwK).2
        (mod_div_eq_of_eq hKpos hceq hwK).1]
      rw [if_neg (lt_irrefl _)]
    have hcP2 : c + 2 ^ b = 2 ^ (b + 1) *
        (Ssum n a f0 (b + 1) t (c % 2 ^ b + 2 ^ b) + 1) + c % 2 ^ b := by
      have hl : 2 ^ (b + 1) * (Ssum n a f0 (b + 1) t (c % 2 ^ b + 2 ^ b) + 1)
          = 2 ^ (b + 1) * Ssum n a f0 (b + 1) t (c % 2 ^ b + 2 ^ b)
            + 2 ^ (b + 1) := by ring
      omega
    have hvs2 : valF n a f0 (b + 1) (2 ^ (a + 1) * t + (c + 2 ^ b)) = 0 := by
      rw [valF_eval f0 (by omega) hcP
        (mod_div_eq_of_eq hKpos hcP2 (by omega)).2
        (mod_div_eq_of_eq hKpos hcP2 (by omega)).1]
      rw [if_pos (by omega)]
    have hsplit := Ssum_split n a f0 t hρc
    have hcbB : c = 2 ^ b *
        (2 * Ssum n a f0 (b + 1) t (c % 2 ^ b + 2 ^ b) + 1) + c % 2 ^ b := by
      have hl : 2 ^ b * (2 * Ssum n a f0 (b + 1) t (c % 2 ^ b + 2 ^ b) + 1)
          = 2 ^ (b + 1) * Ssum n a f0 (b + 1) t (c % 2 ^ b + 2 ^ b)
            + 2 ^ b := by
        rw [pow_succ]
        ring
      omega
    have hvb1 : valF n a f0 b (2 ^ (a + 1) * t + c) = 0 := by
      rw [valF_eval f0 (by omega) hclt
        (mod_div_eq_of_eq hkpos hcbB hρc).2
        (mod_div_eq_of_eq hkpos hcbB hρc).1]
      rw [if_pos (by omega)]
    have hcbB2 : c + 2 ^ b = 2 ^ b *
        (2 * Ssum n a f0 (b + 1) t (c % 2 ^ b + 2 ^ b) + 2) + c % 2 ^ b := by
      have hl : 2 ^ b * (2 * Ssum n a f0 (b + 1) t (c % 2 ^ b + 2 ^ b) + 2)
          = 2 ^ (b + 1) * Ssum n a f0 (b + 1) t (c % 2 ^ b + 2 ^ b)
            + 2 ^ (b + 1) := by
        rw [pow_succ]
        ring
      omega
    have hvb2 : valF n a f0 b (2 ^ (a + 1) * t + (c + 2 ^ b)) = 1 := by
      rw [valF_eval f0 (by omega) hcP
        (mod_div_eq_of_eq hkpos hcbB2 hρc).2
        (mod_div_eq_of_eq hkpos hcbB2 hρc).1]
      rw [if_neg (by omega)]
    have hGs1 : sweepG n a f0 b (2 ^ (a + 1) * t + c)
        (2 ^ (a + 1) * t + c) = 1 := by
      unfold sweepG
      rw [hdm.2, hdm.1,
        if_neg (by
          rintro ⟨_, hlt⟩
          rw [hcrit] at hlt
          exact lt_irrefl _ hlt)]
      exact hvs1
    have hGs2 : sweepG n a f0 b (2 ^ (a + 1) * t + c)
        (2 ^ (a + 1) * t + (c + 2 ^ b)) = 0 := by
      unfold sweepG
      rw [hdm2.2, hdm2.1, Nat.add_mod_right,
        if_neg (by
          rintro ⟨_, hlt⟩
          rw [hcrit] at hlt
          exact lt_irrefl _ hlt)]
      exact hvs2
    have hGs1' : sweepG n a f0 b (2 ^ (a + 1) * t + c + 1)
        (2 ^ (a + 1) * t + c) = 0 := by
      unfold sweepG
      rw [hdm.2, hdm.1, if_pos ⟨hsw, by rw [hcrit]; omega⟩]
      exact hvb1
    have hGs2' : sweepG n a f0 b (2 ^ (a + 1) * t + c + 1)
        (2 ^ (a + 1) * t + (c + 2 ^ b)) = 1 := by
      unfold sweepG
      rw [hdm2.2, hdm2.1, Nat.add_mod_right,
        if_pos ⟨hsw, by rw [hcrit]; omega⟩]
      exact hvb2
    funext w
    by_cases hw1 : w = 2 ^ (a + 1) * t + c
    · rw [hw1, cmpExchF_apply_fst, hGs1, hGs2, hGs1']
      norm_num
    · by_cases hw2 : w = 2 ^ (a + 1) * t + (c + 2 ^ b)
      · rw [hw2, cmpExchF_apply_snd (show 2 ^ (a + 1) * t + c
            ≠ 2 ^ (a + 1) * t + (c + 2 ^ b) from by omega),
          hGs1, hGs2, hGs2']
        norm_num
      · rw [cmpExchF_apply_other hw1 hw2]
        unfold sweepG
        by_cases hswW : swChain n a f0 b (w / 2 ^ (a + 1))
            (w % 2 ^ (a + 1) % 2 ^ b)
        · by_cases hcw : critPos n a f0 b (w / 2 ^ (a + 1))
              (w % 2 ^ (a + 1) % 2 ^ b) = 2 ^ (a + 1) * t + c
          · rw [if_neg (by
                rintro ⟨_, hlt⟩
                rw [hcw] at hlt
                exact lt_irrefl _ hlt),
              if_pos ⟨hswW, by rw [hcw]; omega⟩]
            exact (valF_swap_outside f0 w hswW
              (by rw [hcw]; exact hw1)
              (by
                rw [hcw]
                intro he
                exact hw2 (by omega))).symm
          · exact if_congr (and_congr_right fun _ => by omega) rfl rfl
        · rw [if_neg (fun hc => hswW hc.1), if_neg (fun hc => hswW hc.1)]
  · have hord : sweepG n a f0 b (2 ^ (a + 1) * t + c)
        (2 ^ (a + 1) * t + c)
        ≤ sweepG n a f0 b (2 ^ (a + 1) * t + c)
          (2 ^ (a + 1) * t + (c + 2 ^ b)) := by
      unfold sweepG
      rw [hdm.2, hdm.1, hdm2.2, hdm2.1, Nat.add_mod_right]
      by_cases hcond : swChain n a f0 b t (c % 2 ^ b) ∧
          critPos n a f0 b t (c % 2 ^ b) < 2 ^ (a + 1) * t + c
      · rw [if_pos hcond, if_pos hcond]
        have h := valF_step_ordered f0 (2 ^ (a + 1) * t + c) hsb hsn
        rwa [show 2 ^ (a + 1) * t + c + 2 ^ b
          = 2 ^ (a + 1) * t + (c + 2 ^ b) from by omega] at h
      · rw [if_neg hcond, if_neg hcond]
        obtain ⟨q', r', hcd, hr'⟩ : ∃ q' r', c = 2 ^ (b + 1) * q' + r' ∧
            r' < 2 ^ (b + 1) :=
          ⟨c / 2 ^ (b + 1), c % 2 ^ (b + 1), (Nat.div_add_mod c _).symm,
            Nat.mod_lt c hKpos⟩
        subst hcd
        rcases lt_or_le r' (2 ^ b) with hrA | hrB
        · rw [valF_eval f0 (by omega) hclt
              (mod_div_eq_of_eq hKpos rfl hr').2
              (mod_div_eq_of_eq hKpos rfl hr').1,
            valF_eval f0 (by omega) hcP
              (mod_div_eq_of_eq hKpos
                (show 2 ^ (b + 1) * q' + r' + 2 ^ b
                  = 2 ^ (b + 1) * q' + (r' + 2 ^ b) from by omega)
                (by omega)).2
              (mod_div_eq_of_eq hKpos
                (show 2 ^ (b + 1) * q' + r' + 2 ^ b
                  = 2 ^ (b + 1) * q' + (r' + 2 ^ b) from by omega)
                (by omega)).1]
          apply ite01_le_ite01
          intro h
          have hsib := Ssum_sibling n a f0 t hrA
          omega
        · have hρeq : (2 ^ (b + 1) * q' + r') % 2 ^ b = r' - 2 ^ b := by
            have hl : 2 ^ b * (2 * q' + 1) = 2 ^ (b + 1) * q' + 2 ^ b := by
              rw [pow_succ]
              ring
            exact (mod_div_eq_of_eq hkpos
              (show 2 ^ (b + 1) * q' + r'
                = 2 ^ b * (2 * q' + 1) + (r' - 2 ^ b) from by omega)
              (by omega)).1
          rw [hρeq] at hfire
          have hCe : 2 ^ (b + 1) * q' + r' + 2 ^ b
              = 2 ^ (b + 1) * (q' + 1) + (r' - 2 ^ b) := by
            have hl : 2 ^ (b + 1) * (q' + 1) = 2 ^ (b + 1) * q' + 2 ^ (b + 1) := by
              ring
            omega
          rw [valF_eval f0 (by omega) hclt
              (mod_div_eq_of_eq hKpos rfl hr').2
              (mod_div_eq_of_eq hKpos rfl hr').1,
            valF_eval f0 (by omega) hcP
              (mod_div_eq_of_eq hKpos hCe (by omega)).2
              (mod_div_eq_of_eq hKpos hCe (by omega)).1]
          apply ite01_le_ite01
          intro h
          have hsib := Ssum_sibling n a f0 t (show r' - 2 ^ b < 2 ^ b from by
            omega)
          rw [show r' - 2 ^ b + 2 ^ b = r' from by omega] at hsib
          by_cases hsw2 : swChain n a f0 b t (r' - 2 ^ b)
          · have hq'ne : q' ≠ Ssum n a f0 (b + 1) t r' := by
              intro hqb
              apply hfire
              refine ⟨hsw2, ?_⟩
              unfold critPos
              rw [show r' - 2 ^ b + 2 ^ b = r' from by omega, ← hqb]
            have hα := hsw2
            unfold swChain at hα
            rw [show r' - 2 ^ b + 2 ^ b = r' from by omega] at hα
            omega
          · have hα : ¬ (Ssum n a f0 (b + 1) t (r' - 2 ^ b)
                = Ssum n a f0 (b + 1) t (r' - 2 ^ b + 2 ^ b) + 2) := hsw2
            rw [show r' - 2 ^ b + 2 ^ b = r' from by omega] at hα
            omega
    rw [cmpExchF_of_le hord]
    exact (sweepG_succ_of_nofire hba f0 (by rw [hdm.2, hdm.1]; exact hfire)).symm

/-- Peeling one iteration off Listing 1's inner loop. -/
theorem l1I_peel {n p k j : ℕ} (hj : j + k < n) :
    l1I n p k j = (if j / (p + p) = (j + k) / (p + p)
      then [(j, j + k)] else []) ++ l1I n p k (j + 1) := by
  have hfun : ((fun i => if (j + i) / (p + p) = (j + i + k) / (p + p)
      then some (j + i, j + i + k) else none) ∘ Nat.succ)
      = fun i => if (j + 1 + i) / (p + p) = (j + 1 + i + k) / (p + p)
        then some (j + 1 + i, j + 1 + i + k) else none := by
    funext i
    simp only [Function.comp_apply]
    rw [show j + Nat.succ i = j + 1 + i from by omega]
  by_cases hdt : j / (p + p) = (j + k) / (p + p)
  · rw [if_pos hdt]
    show l1I n p k j = (j, j + k) :: l1I n p k (j + 1)
    unfold l1I
    rw [show n - j - k = n - (j + 1) - k + 1 from by omega,
      List.range_succ_eq_map,
      List.filterMap_cons_some (by
        simp only [Nat.add_zero]
        rw [if_pos hdt]),
      List.filterMap_map, hfun]
  · rw [if_neg hdt]
    show l1I n p k j = l1I n p k (j + 1)
    unfold l1I
    rw [show n - j - k = n - (j + 1) - k + 1 from by omega,
      List.range_succ_eq_map,
      List.filterMap_cons_none (by
        simp only [Nat.add_zero]
        rw [if_neg hdt]),
      List.filterMap_map, hfun]

/-- Listing 1's inner loop is empty once the remaining range is empty. -/
theorem l1I_nil {n p k j : ℕ} (hj : n ≤ j + k) : l1I n p k j = [] := by
  unfold l1I
  rw [show n - j - k = 0 from by omega]
  rfl

/-- The sweep induction: from any front position `j`, Listing 1's inner
sweep completes the stage. -/
theorem sweep_main {n a b : ℕ} (hba : b < a) (f0 : ℕ → ℤ) :
    ∀ m j, n - 2 ^ b ≤ j + m →
      applyPairsF (l1I n (2 ^ a) (2 ^ b) j) (sweepG n a f0 b j)
        = valF n a f0 b := by
  have hppos : (0 : ℕ) < 2 ^ a := by positivity
  have hkpos : (0 : ℕ) < 2 ^ b := by positivity
  intro m
  induction m with
  | zero =>
    intro j hjm
    rw [l1I_nil (by omega), applyPairsF_nil, sweepG_end hba f0 (by omega)]
  | succ m ih =>
    intro j hjm
    rcases lt_or_le (j + 2 ^ b) n with hjk | hjk
    · rw [l1I_peel hjk, applyPairsF_append]
      by_cases hsb : sameBlock (2 ^ a) (2 ^ b) j
      · rw [if_pos ((div_test_iff_sameBlock hppos j (2 ^ b)).2 hsb),
          applyPairsF_cons, applyPairsF_nil, sweep_step hba f0 hsb hjk]
        exact ih (j + 1) (by omega)
      · rw [if_neg (fun hc =>
            hsb ((div_test_iff_sameBlock hppos j (2 ^ b)).1 hc)),
          applyPairsF_nil, ← sweepG_skip hba f0 (fun hc => hsb hc.1)]
        exact ih (j + 1) (by omega)
    · rw [l1I_nil (by omega), applyPairsF_nil, sweepG_end hba f0 (by omega)]

/-- Listing 1's first inner sweep of a refinement stage performs the whole
stage. -/
theorem l1_first_sweep {n a b : ℕ} (hba : b < a) (f0 : ℕ → ℤ) :
    applyPairsF (l1I n (2 ^ a) (2 ^ b) (2 ^ b)) (valF n a f0 (b + 1))
      = valF n a f0 b := by
  rw [← sweepG_start n a b f0]
  exact sweep_main hba f0 n (2 ^ b) (by
    have hk : (0 : ℕ) < 2 ^ b := by positivity
    omega)

/-- Listing 1's whole `j`-loop for a refinement stage: the first sweep does
the stage, the later sweeps find every pair already ordered. -/
theorem l1J_phase_step (n a b : ℕ) (hba : b < a) (f0 : ℕ → ℤ) :
    applyPairsF (l1J n (2 ^ a) (2 ^ b)) (valF n a f0 (b + 1))
      = valF n a f0 b := by
  have hppos : (0 : ℕ) < 2 ^ a := by positivity
  have hkpos : (0 : ℕ) < 2 ^ b := by positivity
  have hkH : (2 : ℕ) ^ b < 2 ^ a := Nat.pow_lt_pow_right one_lt_two hba
  have hK : (2 : ℕ) * 2 ^ b = 2 ^ (b + 1) := by rw [pow_succ]; ring
  unfold l1J
  rw [Nat.mod_eq_of_lt hkH]
  rcases lt_or_le (2 ^ b) (n - 2 ^ b) with hlt | hle
  · rw [stepRange_eq_cons (by omega) _ _ hlt, List.flatMap_cons,
      applyPairsF_append, l1_first_sweep hba f0]
    apply applyPairsF_noop
    intro q hq
    rw [List.mem_flatMap] at hq
    obtain ⟨j, hjmem, hq⟩ := hq
    obtain ⟨i, hin, hblock, rfl⟩ := (mem_l1I hppos).1 hq
    exact valF_step_ordered f0 (j + i) hblock hin
  · rw [stepRange_eq_nil hle]
    simp only [List.flatMap_nil]
    rw [applyPairsF_nil]
    funext w
    refine (valF_noswap_eq f0 w ?_).symm
    intro hsw
    have hρ : w % 2 ^ (a + 1) % 2 ^ b < 2 ^ b := Nat.mod_lt _ hkpos
    have hslots := swChain_slots hba f0 hρ hsw
    omega

/-- Listing 1's `j`-loop for the base stage `k = p`: the sweeps revisit the
same pairwise-disjoint comparator set, so it acts like the canonical
stage. -/
theorem l1J_phase_base (n a : ℕ) (g : ℕ → ℤ) :
    applyPairsF (l1J n (2 ^ a) (2 ^ a)) g
      = applyPairsF (stageList n a a) g := by
  have hp : (0 : ℕ) < 2 ^ a := by positivity
  refine applyPairsF_eq_of_mem_eqdisj ?_ (stageList_eqdisj n a a (le_refl a))
    ?_ ?_
  · refine wchar_eqdisj (le_refl a) fun q hq => ?_
    obtain ⟨x, rfl, _, _, hblk⟩ := (mem_l1J hp hp).1 hq
    exact ⟨x, rfl, (inWindow_top_iff a x).2 hblk⟩
  · intro q hq
    obtain ⟨x, rfl, _, _, _⟩ := (mem_l1J hp hp).1 hq
    show x < x + 2 ^ a
    omega
  · intro q
    rw [mem_l1J hp hp, mem_stageList]
    constructor
    · rintro ⟨x, rfl, _, hxn, hblk⟩
      exact ⟨x, rfl, hxn, (inWindow_top_iff a x).2 hblk, hblk⟩
    · rintro ⟨x, rfl, hxn, hwin, hblk⟩
      refine ⟨x, rfl, ?_, hxn, hblk⟩
      rw [Nat.mod_self]
      omega

/-- Listing 1's whole phase merges its blocks, despite the duplicate
comparators. -/
theorem l1K_phase (n a : ℕ) (f0 : ℕ → ℤ) (h01 : z01 f0)
    (hso : blockOrderedF n (2 ^ a) f0) :
    applyPairsF (l1K n a) f0 = valF n a f0 0 := by
  have htail : ∀ c, c ≤ a →
      applyPairsF (((List.range c).reverse).flatMap
        fun b => l1J n (2 ^ a) (2 ^ b)) (valF n a f0 c) = valF n a f0 0 := by
    intro c
    induction c with
    | zero => intro _; rfl
    | succ c ihc =>
      intro hc
      rw [List.range_succ, List.reverse_append, List.reverse_singleton,
        List.singleton_append, List.flatMap_cons, applyPairsF_append,
        l1J_phase_step n a c (by omega) f0]
      exact ihc (by omega)
  show applyPairsF (((List.range (a + 1)).reverse).flatMap
    fun b => l1J n (2 ^ a) (2 ^ b)) f0 = valF n a f0 0
  rw [List.range_succ, List.reverse_append, List.reverse_singleton,
    List.singleton_append, List.flatMap_cons, applyPairsF_append,
    l1J_phase_base n a f0, stage_base n a f0 h01 hso]
  exact htail a (le_refl a)

/-! ### The four networks sort -/

theorem net1_sorts (n : ℕ) :
    ∀ f : ℕ → ℤ, ∀ i j, i < j → j < n →
      applyPairsF (batcher1Pairs n) f i ≤ applyPairsF (batcher1Pairs n) f j :=
  netSched_sorts n (l1K n) (fun a f0 h01 hso => l1K_phase n a f0 h01 hso)

theorem net2_sorts (n : ℕ) :
    ∀ f : ℕ → ℤ, ∀ i j, i < j → j < n →
      applyPairsF (batcher2Pairs n) f i ≤ applyPairsF (batcher2Pairs n) f j :=
  netSched_sorts n (l2K n) (fun a f0 h01 hso => l2K_phase n a f0 h01 hso)

theorem net3_sorts (n : ℕ) :
    ∀ f : ℕ → ℤ, ∀ i j, i < j → j < n →
      applyPairsF (batcher3Pairs n) f i ≤ applyPairsF (batcher3Pairs n) f j :=
  netSched_sorts n (l3K n) (fun a f0 h01 hso => l3K_phase n a f0 h01 hso)

theorem net4_sorts (n : ℕ) :
    ∀ f : ℕ → ℤ, ∀ i j, i < j → j < n →
      applyPairsF (batcher4Pairs n) f i ≤ applyPairsF (batcher4Pairs n) f j :=
  netSched_sorts n (l4K n) (fun a f0 h01 hso => l4K_phase n a f0 h01 hso)

/-! ### Sortedness of the four listings, at the list level -/

theorem sortListing1_sorted {n : ℕ} {A : List ℤ} (h : A.length = n) :
    ∀ i j, i < j → j < n →
      (sortListing1 A n).getD i 0 ≤ (sortListing1 A n).getD j 0 := by
  intro i j hij hj
  have ht : (fun z => (applyPairs (batcher1Pairs n) A).getD z 0)
      = applyPairsF (batcher1Pairs n) (fun z => A.getD z 0) :=
    getD_applyPairs_eq_applyPairsF (fun q hq => by
      have hb := batcher1Pairs_bounds hq
      rw [h]
      exact hb)
  rw [sortListing1_eq]
  calc (applyPairs (batcher1Pairs n) A).getD i 0
      = applyPairsF (batcher1Pairs n) (fun z => A.getD z 0) i :=
        congrFun ht i
    _ ≤ applyPairsF (batcher1Pairs n) (fun z => A.getD z 0) j :=
        net1_sorts n _ i j hij hj
    _ = (applyPairs (batcher1Pairs n) A).getD j 0 := (congrFun ht j).symm

theorem sortListing2_sorted {n : ℕ} {A : List ℤ} (h : A.length = n) :
    ∀ i j, i < j → j < n →
      (sortListing2 A n).getD i 0 ≤ (sortListing2 A n).getD j 0 := by
  intro i j hij hj
  have ht : (fun z => (applyPairs (batcher2Pairs n) A).getD z 0)
      = applyPairsF (batcher2Pairs n) (fun z => A.getD z 0) :=
    getD_applyPairs_eq_applyPairsF (fun q hq => by
      have hb := batcher2Pairs_bounds hq
      rw [h]
      exact hb)
  rw [sortListing2_eq]
  calc (applyPairs (batcher2Pairs n) A).getD i 0
      = applyPairsF (batcher2Pairs n) (fun z => A.getD z 0) i :=
        congrFun ht i
    _ ≤ applyPairsF (batcher2Pairs n) (fun z => A.getD z 0) j :=
        net2_sorts n _ i j hij hj
    _ = (applyPairs (batcher2Pairs n) A).getD j 0 := (congrFun ht j).symm

theorem sortListing3_sorted {n : ℕ} {A : List ℤ} (h : A.length = n) :
    ∀ i j, i < j → j < n →
      (sortListing3 A n).getD i 0 ≤ (sortListing3 A n).getD j 0 := by
  intro i j hij hj
  have ht : (fun z => (applyPairs (batcher3Pairs n) A).getD z 0)
      = applyPairsF (batcher3Pairs n) (fun z => A.getD z 0) :=
    getD_applyPairs_eq_applyPairsF (fun q hq => by
      have hb := batcher3Pairs_bounds hq
      rw [h]
      exact hb)
  rw [sortListing3_eq]
  calc (applyPairs (batcher3Pairs n) A).getD i 0
      = applyPairsF (batcher3Pairs n) (fun z => A.getD z 0) i :=
        congrFun ht i
    _ ≤ applyPairsF (batcher3Pairs n) (fun z => A.getD z 0) j :=
        net3_sorts n _ i j hij hj
    _ = (applyPairs (batcher3Pairs n) A).getD j 0 := (congrFun ht j).symm

theorem sortListing4_sorted {n : ℕ} {A : List ℤ} (h : A.length = n) :
    ∀ i j, i < j → j < n →
      (sortListing4 A n).getD i 0 ≤ (sortListing4 A n).getD j 0 := by
  intro i j hij hj
  have ht : (fun z => (applyPairs (batcher4Pairs n) A).getD z 0)
      = applyPairsF (batcher4Pairs n) (fun z => A.getD z 0) :=
    getD_applyPairs_eq_applyPairsF (fun q hq => by
      have hb := batcher4Pairs_bounds hq
      rw [h]
      exact hb)
  rw [sortListing4_eq]
  calc (applyPairs (batcher4Pairs n) A).getD i 0
      = applyPairsF (batcher4Pairs n) (fun z => A.getD z 0) i :=
        congrFun ht i
    _ ≤ applyPairsF (batcher4Pairs n) (fun z => A.getD z 0) j :=
        net4_sorts n _ i j hij hj
    _ = (applyPairs (batcher4Pairs n) A).getD j 0 := (congrFun ht j).symm

theorem sortListing1_sortedList {n : ℕ} {A : List ℤ} (h : A.length = n) :
    (sortListing1 A n).Sorted (· ≤ ·) := by
  have hlen : (sortListing1 A n).length = n := by
    rw [(sortListing1_perm h).length_eq, h]
  refine List.pairwise_iff_getElem.mpr ?_
  intro i j hi hj hij
  have hs := sortListing1_sorted h i j hij (by omega)
  rwa [List.getD_eq_getElem _ 0 hi, List.getD_eq_getElem _ 0 hj] at hs

theorem sortListing2_sortedList {n : ℕ} {A : List ℤ} (h : A.length = n) :
    (sortListing2 A n).Sorted (· ≤ ·) := by
  have hlen : (sortListing2 A n).length = n := by
    rw [(sortListing2_perm h).length_eq, h]
  refine List.pairwise_iff_getElem.mpr ?_
  intro i j hi hj hij
  have hs := sortListing2_sorted h i j hij (by omega)
  rwa [List.getD_eq_getElem _ 0 hi, List.getD_eq_getElem _ 0 hj] at hs

theorem sortListing3_sortedList {n : ℕ} {A : List ℤ} (h : A.length = n) :
    (sortListing3 A n).Sorted (· ≤ ·) := by
  have hlen : (sortListing3 A n).length = n := by
    rw [(sortListing3_perm h).length_eq, h]
  refine List.pairwise_iff_getElem.mpr ?_
  intro i j hi hj hij
  have hs := sortListing3_sorted h i j hij (by omega)
  rwa [List.getD_eq_getElem _ 0 hi, List.getD_eq_getElem _ 0 hj] at hs

theorem sortListing4_sortedList {n : ℕ} {A : List ℤ} (h : A.length = n) :
    (sortListing4 A n).Sorted (· ≤ ·) := by
  have hlen : (sortListing4 A n).length = n := by
    rw [(sortListing4_perm h).length_eq, h]
  refine List.pairwise_iff_getElem.mpr ?_
  intro i j hi hj hij
  have hs := sortListing4_sorted h i j hij (by omega)
  rwa [List.getD_eq_getElem _ 0 hi, List.getD_eq_getElem _ 0 hj] at hs

/-- Sorted permutations of the same array are equal, so the four variants
agree on every input. -/
theorem sortListings_agree {n : ℕ} {A : List ℤ} (h : A.length = n) :
    sortListing2 A n = sortListing1 A n ∧
      sortListing3 A n = sortListing1 A n ∧
      sortListing4 A n = sortListing1 A n :=
  ⟨List.eq_of_perm_of_sorted
      ((sortListing2_perm h).trans (sortListing1_perm h).symm)
      (sortListing2_sortedList h) (sortListing1_sortedList h),
    List.eq_of_perm_of_sorted
      ((sortListing3_perm h).trans (sortListing1_perm h).symm)
      (sortListing3_sortedList h) (sortListing1_sortedList h),
    List.eq_of_perm_of_sorted
      ((sortListing4_perm h).trans (sortListing1_perm h).symm)
      (sortListing4_sortedList h) (sortListing1_sortedList h)⟩

/-! ## Claim theorems -/

/-- C2: for every `n ≥ 0` and every integer array `A` of length `n`, the
output of each sequential sort is a permutation of `A` (same multiset of
elements); and each compare-exchange on indices `x < y` either leaves the
array unchanged or swaps exactly the values at `x` and `y`, leaving every
other position untouched, and afterward `A[x] ≤ A[y]`. -/
theorem claim_C2 :
    (∀ (n : ℕ) (A : List ℤ), A.length = n →
      List.Perm (sortListing1 A n) A ∧ List.Perm (sortListing2 A n) A ∧
        List.Perm (sortListing3 A n) A ∧ List.Perm (sortListing4 A n) A) ∧
    (∀ (x y : ℕ) (A : List ℤ), x < y → y < A.length →
      (cmpExch x y A).getD x 0 ≤ (cmpExch x y A).getD y 0 ∧
        (∀ z, z ≠ x → z ≠ y → (cmpExch x y A).getD z 0 = A.getD z 0) ∧
        (cmpExch x y A = A ∨
          ((cmpExch x y A).getD x 0 = A.getD y 0 ∧
            (cmpExch x y A).getD y 0 = A.getD x 0))) := by
  constructor
  · intro n A h
    exact ⟨sortListing1_perm h, sortListing2_perm h, sortListing3_perm h,
      sortListing4_perm h⟩
  · intro x y A hxy hy
    have hx : x < A.length := by omega
    refine ⟨?_, fun z hzx hzy => cmpExch_getD_other hzx hzy A, ?_⟩
    · rw [cmpExch_getD_fst (by omega) hx, cmpExch_getD_snd x hy]
      exact min_le_max
    · by_cases h : A.getD y 0 < A.getD x 0
      · right
        rw [cmpExch_getD_fst (by omega) hx, cmpExch_getD_snd x hy]
        omega
      · left
        exact cmpExch_of_le (by omega)

/-- C2 witness: the theorem applied at concrete inputs. -/
theorem claim_C2_witness :
    List.Perm (sortListing1 [5, 3, 4, 1, 2] 5) [5, 3, 4, 1, 2] ∧
      (cmpExch 0 1 [3, 2] = [3, 2] ∨
        ((cmpExch 0 1 [3, 2]).getD 0 0 = ([3, 2] : List ℤ).getD 1 0 ∧
          (cmpExch 0 1 [3, 2]).getD 1 0 = ([3, 2] : List ℤ).getD 0 0)) :=
  ⟨(claim_C2.1 5 [5, 3, 4, 1, 2] rfl).1,
    (claim_C2.2 0 1 [3, 2] (by norm_num) (by norm_num)).2.2⟩

/-- C4: for every fixed `n ≥ 0`, the set of pairs at which a
compare-exchange is performed during the full `(p,k,j,i)` sweep of each
sequential variant is exactly the comparator set of Batcher's odd-even merge
network restricted to indices `< n` (`specBatcherNet`), and hence this set
is the same for all four sequential variants, even though the order in which
pairs are visited differs (and Listing 1 revisits pairs).  Every emitted
pair is ordered (`x < y`, claim C8), so equality of the sets of ordered
pairs is equality of the sets of unordered pairs `{x, y}`. -/
theorem claim_C4 :
    ∀ (n : ℕ) (q : ℕ × ℕ),
      (q ∈ batcher1Pairs n ↔ specBatcherNet n q) ∧
        (q ∈ batcher2Pairs n ↔ specBatcherNet n q) ∧
        (q ∈ batcher3Pairs n ↔ specBatcherNet n q) ∧
        (q ∈ batcher4Pairs n ↔ specBatcherNet n q) :=
  fun _ _ => ⟨batcher1Pairs_iff_net, batcher2Pairs_iff_net,
    batcher3Pairs_iff_net, batcher4Pairs_iff_net⟩

/-- C5: for powers of two `k ≤ p`, `k & (p-1)` equals `k % p`; Listing 4's
same-block test `(j | (2p-1)) == ((j+k) | (2p-1))` holds exactly when
variant 1's division test `j/(p+p) == (j+k)/(p+p)` does; and `sortListing4`
performs the same comparator set as `sortListing1`. -/
theorem claim_C5 :
    (∀ a b : ℕ, b ≤ a → 2 ^ b &&& (2 ^ a - 1) = 2 ^ b % 2 ^ a) ∧
    (∀ a j k : ℕ,
      (j ||| (2 * 2 ^ a - 1)) = ((j + k) ||| (2 * 2 ^ a - 1)) ↔
        j / (2 ^ a + 2 ^ a) = (j + k) / (2 ^ a + 2 ^ a)) ∧
    (∀ (n : ℕ) (q : ℕ × ℕ), q ∈ batcher4Pairs n ↔ q ∈ batcher1Pairs n) := by
  refine ⟨fun a b _ => Nat.and_pow_two_sub_one_eq_mod _ _, fun a j k => ?_,
    fun n q => Iff.trans batcher4Pairs_iff_net batcher1Pairs_iff_net.symm⟩
  rw [show 2 * 2 ^ a = 2 ^ (a + 1) from by ring,
    show 2 ^ a + 2 ^ a = 2 ^ (a + 1) from by ring, lor_mask_eq_iff]

/-- C5 witness: the theorem applied at concrete inputs. -/
theorem claim_C5_witness :
    2 ^ 1 &&& (2 ^ 3 - 1) = 2 ^ 1 % 2 ^ 3 ∧
      ((5 ||| (2 * 2 ^ 2 - 1)) = ((5 + 2) ||| (2 * 2 ^ 2 - 1)) ↔
        5 / (2 ^ 2 + 2 ^ 2) = (5 + 2) / (2 ^ 2 + 2 ^ 2)) ∧
      ((1, 2) ∈ batcher4Pairs 3 ↔ (1, 2) ∈ batcher1Pairs 3) :=
  ⟨claim_C5.1 3 1 (by norm_num), claim_C5.2.1 2 5 2, claim_C5.2.2 3 (1, 2)⟩

/-- C6 counterexample: on an array of size 16, `sortListing1` executes 280
compare-exchange operations, not 63 — its inner loop bound `i < n-j-k`
revisits comparators, so the executed count exceeds the Batcher network
size. -/
theorem claim_C6_counterexample :
    sortListing1 [15, 14, 13, 12, 11, 10, 9, 8, 7, 6, 5, 4, 3, 2, 1, 0] 16 =
        applyPairs (batcher1Pairs 16)
          [15, 14, 13, 12, 11, 10, 9, 8, 7, 6, 5, 4, 3, 2, 1, 0] ∧
      (batcher1Pairs 16).length = 280 ∧
      ¬(batcher1Pairs 16).length = 63 :=
  ⟨sortListing1_eq _ 16, by decide, by decide⟩

/-- C6 (amended): on the reverse-sorted input of size `n = 16`, every
sequential variant's output is fully ascending; the number of
compare-exchange operations executed equals the theoretical Batcher network
size 63 for variants 2, 3 and 4, while variant 1 executes 280 because its
inner loop bound `i < n-j-k` revisits comparators. -/
theorem claim_C6 :
    ((sortListing1 [15, 14, 13, 12, 11, 10, 9, 8, 7, 6, 5, 4, 3, 2, 1, 0]
        16).Pairwise (· ≤ ·) ∧
      (sortListing2 [15, 14, 13, 12, 11, 10, 9, 8, 7, 6, 5, 4, 3, 2, 1, 0]
        16).Pairwise (· ≤ ·) ∧
      (sortListing3 [15, 14, 13, 12, 11, 10, 9, 8, 7, 6, 5, 4, 3, 2, 1, 0]
        16).Pairwise (· ≤ ·) ∧
      (sortListing4 [15, 14, 13, 12, 11, 10, 9, 8, 7, 6, 5, 4, 3, 2, 1, 0]
        16).Pairwise (· ≤ ·)) ∧
    (batcher2Pairs 16).length = 63 ∧
    (batcher3Pairs 16).length = 63 ∧
    (batcher4Pairs 16).length = 63 ∧
    (batcher1Pairs 16).length = 280 := by
  refine ⟨⟨?_, ?_, ?_, ?_⟩, by decide, by decide, by decide, by decide⟩
  · have e : ∀ (L : List (ℕ × ℕ)) (B : List ℤ),
        applyPairs L B = applyPairs (L.drop 70) (applyPairs (L.take 70) B) := by
      intro L B
      rw [← applyPairs_append, List.take_append_drop]
    rw [sortListing1_eq, e]
    rw [show applyPairs ((batcher1Pairs 16).take 70)
        [15, 14, 13, 12, 11, 10, 9, 8, 7, 6, 5, 4, 3, 2, 1, 0] =
        [12, 13, 14, 15, 8, 9, 10, 11, 4, 5, 6, 7, 0, 1, 2, 3] from by decide]
    rw [e]
    rw [show applyPairs (((batcher1Pairs 16).drop 70).take 70)
        [12, 13, 14, 15, 8, 9, 10, 11, 4, 5, 6, 7, 0, 1, 2, 3] =
        [8, 9, 10, 11, 12, 13, 14, 15, 0, 1, 2, 3, 4, 5, 6, 7] from by decide]
    rw [e]
    rw [show applyPairs ((((batcher1Pairs 16).drop 70).drop 70).take 70)
        [8, 9, 10, 11, 12, 13, 14, 15, 0, 1, 2, 3, 4, 5, 6, 7] =
        [0, 1, 2, 3, 4, 5, 6, 7, 8, 9, 10, 11, 12, 13, 14, 15] from by decide]
    rw [show applyPairs ((((batcher1Pairs 16).drop 70).drop 70).drop 70)
        [0, 1, 2, 3, 4, 5, 6, 7, 8, 9, 10, 11, 12, 13, 14, 15] =
        [0, 1, 2, 3, 4, 5, 6, 7, 8, 9, 10, 11, 12, 13, 14, 15] from by decide]
    decide
  · rw [sortListing2_eq]
    decide
  · rw [sortListing3_eq]
    decide
  · rw [sortListing4_eq]
    decide

/-- C7: for `n = 0` and `n = 1`, every sequential sort terminates
immediately with zero compare-exchange emissions and no mutation of the
array (the phase loop condition `p < n` is false on entry), and returns the
buffer unchanged; on input `[]` the output is `[]` and on input `[7]` the
output is `[7]`. -/
theorem claim_C7 :
    (batcher1Pairs 0 = [] ∧ batcher2Pairs 0 = [] ∧ batcher3Pairs 0 = [] ∧
      batcher4Pairs 0 = []) ∧
    (batcher1Pairs 1 = [] ∧ batcher2Pairs 1 = [] ∧ batcher3Pairs 1 = [] ∧
      batcher4Pairs 1 = []) ∧
    (∀ A : List ℤ,
      (sortListing1 A 0 = A ∧ sortListing2 A 0 = A ∧ sortListing3 A 0 = A ∧
        sortListing4 A 0 = A) ∧
      (sortListing1 A 1 = A ∧ sortListing2 A 1 = A ∧ sortListing3 A 1 = A ∧
        sortListing4 A 1 = A)) ∧
    sortListing1 [] 0 = ([] : List ℤ) ∧ sortListing1 [7] 1 = [7] := by
  refine ⟨⟨by decide, by decide, by decide, by decide⟩,
    ⟨by decide, by decide, by decide, by decide⟩, fun A => ?_, ?_, ?_⟩
  · refine ⟨⟨?_, ?_, ?_, ?_⟩, ⟨?_, ?_, ?_, ?_⟩⟩ <;>
      simp [sortListing1_eq, sortListing2_eq, sortListing3_eq,
        sortListing4_eq, show batcher1Pairs 0 = [] from by decide,
        show batcher2Pairs 0 = [] from by decide,
        show batcher3Pairs 0 = [] from by decide,
        show batcher4Pairs 0 = [] from by decide,
        show batcher1Pairs 1 = [] from by decide,
        show batcher2Pairs 1 = [] from by decide,
        show batcher3Pairs 1 = [] from by decide,
        show batcher4Pairs 1 = [] from by decide, applyPairs_nil]
  · rw [sortListing1_eq]
    decide
  · rw [sortListing1_eq]
    decide

/-- C8: every array index read or written by any sequential sort lies in
`[0, n)`: both indices of every emitted pair are below `n` (and the pair is
ordered), guaranteed by the loop bounds alone. -/
theorem claim_C8 :
    ∀ (n : ℕ) (q : ℕ × ℕ),
      (q ∈ batcher1Pairs n → q.1 < q.2 ∧ q.2 < n) ∧
        (q ∈ batcher2Pairs n → q.1 < q.2 ∧ q.2 < n) ∧
        (q ∈ batcher3Pairs n → q.1 < q.2 ∧ q.2 < n) ∧
        (q ∈ batcher4Pairs n → q.1 < q.2 ∧ q.2 < n) :=
  fun _ _ => ⟨batcher1Pairs_bounds, batcher2Pairs_bounds,
    batcher3Pairs_bounds, batcher4Pairs_bounds⟩

/-- C8 witness: the theorem applied at a concrete emitted pair. -/
theorem claim_C8_witness : (0, 1).1 < (0, 1).2 ∧ (0, 1).2 < 2 :=
  (claim_C8 2 (0, 1)).1 (by decide)

/-- C9 counterexample: in `sortListing1`'s sweep for `n = 4`, the
`(p,k,j) = (2,1,1)` group emits the pairs `(1,2)` and `(2,3)`, which share
array position 2 — the group is not index-disjoint.  (`l1J 4 2 1` shows this
group is the entire `j`-run of that stage, so it does arise in the sweep.) -/
theorem claim_C9_counterexample :
    l1I 4 2 1 1 = [(1, 2), (2, 3)] ∧ l1J 4 2 1 = l1I 4 2 1 1 ∧
      (2 ^ 1 < 4 ∧ (1 : ℕ) ≤ 2) ∧
      ¬(l1I 4 2 1 1).Pairwise pairDisj := by
  refine ⟨by decide, by decide, by decide, by decide⟩

/-- C9 (amended): for variants 2, 3 and 4, the comparator pairs emitted
within one `(p,k,j)` group are pairwise index-disjoint (for variant 2 under
the sweep invariants `0 < p` and `k ≤ p`); variant 1's groups are not
(see the counterexample). -/
theorem claim_C9 :
    ∀ n p k j : ℕ, 0 < p → k ≤ p →
      (l2I n p k j).Pairwise pairDisj ∧ (l3I n p k j).Pairwise pairDisj ∧
        (l4I n p k j).Pairwise pairDisj :=
  fun n p k j hp hkp =>
    ⟨l2I_pairwise n p k j hp hkp, l3I_pairwise n p k j, l4I_pairwise n p k j⟩

/-- C9 witness: the theorem applied at a concrete group. -/
theorem claim_C9_witness :
    (l2I 8 2 2 0).Pairwise pairDisj ∧ (l3I 8 2 2 0).Pairwise pairDisj ∧
      (l4I 8 2 2 0).Pairwise pairDisj :=
  claim_C9 8 2 2 0 (by norm_num) (by norm_num)

/-- C10: each sequential sort terminates: the literal loop nests
(`run1P` .. `run4P`, whose recursions Lean certifies well-founded because
`p` strictly doubles from 1 toward the bound `n`, `k` strictly halves from
`p` to 1, `j` strictly increases by `2k ≥ 2` toward its bound, and the
innermost position loops are bounded) compute exactly the fold of the finite
explicit schedule `batcherXPairs n`, so the full nested iteration is
finite. -/
theorem claim_C10 :
    ∀ (n : ℕ) (A : List ℤ),
      sortListing1 A n = applyPairs (batcher1Pairs n) A ∧
        sortListing2 A n = applyPairs (batcher2Pairs n) A ∧
        sortListing3 A n = applyPairs (batcher3Pairs n) A ∧
        sortListing4 A n = applyPairs (batcher4Pairs n) A :=
  fun n A => ⟨sortListing1_eq A n, sortListing2_eq A n, sortListing3_eq A n,
    sortListing4_eq A n⟩

/-- C1: for every `n ≥ 0` and every integer array `A` of length `n`, each
sequential sort (`sortListing1` … `sortListing4`) returns the array in
non-decreasing order: for all positions `i < j < n`,
`output[i] ≤ output[j]`. -/
theorem claim_C1 :
    ∀ (n : ℕ) (A : List ℤ), A.length = n → ∀ i j, i < j → j < n →
      (sortListing1 A n).getD i 0 ≤ (sortListing1 A n).getD j 0 ∧
        (sortListing2 A n).getD i 0 ≤ (sortListing2 A n).getD j 0 ∧
        (sortListing3 A n).getD i 0 ≤ (sortListing3 A n).getD j 0 ∧
        (sortListing4 A n).getD i 0 ≤ (sortListing4 A n).getD j 0 :=
  fun _ _ h i j hij hj =>
    ⟨sortListing1_sorted h i j hij hj, sortListing2_sorted h i j hij hj,
      sortListing3_sorted h i j hij hj, sortListing4_sorted h i j hij hj⟩

theorem claim_C1_witness :
    ([5, 3, 4, 1, 2] : List ℤ).length = 5 ∧ (0 : ℕ) < 1 ∧ (1 : ℕ) < 5 ∧
      ((sortListing1 [5, 3, 4, 1, 2] 5).getD 0 0
          ≤ (sortListing1 [5, 3, 4, 1, 2] 5).getD 1 0 ∧
        (sortListing2 [5, 3, 4, 1, 2] 5).getD 0 0
          ≤ (sortListing2 [5, 3, 4, 1, 2] 5).getD 1 0 ∧
        (sortListing3 [5, 3, 4, 1, 2] 5).getD 0 0
          ≤ (sortListing3 [5, 3, 4, 1, 2] 5).getD 1 0 ∧
        (sortListing4 [5, 3, 4, 1, 2] 5).getD 0 0
          ≤ (sortListing4 [5, 3, 4, 1, 2] 5).getD 1 0) :=
  ⟨rfl, by norm_num, by norm_num,
    claim_C1 5 [5, 3, 4, 1, 2] rfl 0 1 (by norm_num) (by norm_num)⟩

/-- C3: for every `n ≥ 0` and every integer array `A` of length `n`, the
four sequential variants produce the identical final array; in particular
on input `[5,3,4,1,2]` (`n = 5`) every sequential variant outputs
`[1,2,3,4,5]`. -/
theorem claim_C3 :
    (∀ (n : ℕ) (A : List ℤ), A.length = n →
      sortListing2 A n = sortListing1 A n ∧
        sortListing3 A n = sortListing1 A n ∧
        sortListing4 A n = sortListing1 A n) ∧
      (sortListing1 [5, 3, 4, 1, 2] 5 = [1, 2, 3, 4, 5] ∧
        sortListing2 [5, 3, 4, 1, 2] 5 = [1, 2, 3, 4, 5] ∧
        sortListing3 [5, 3, 4, 1, 2] 5 = [1, 2, 3, 4, 5] ∧
        sortListing4 [5, 3, 4, 1, 2] 5 = [1, 2, 3, 4, 5]) := by
  refine ⟨fun n A h => sortListings_agree h, ?_, ?_, ?_, ?_⟩
  · rw [sortListing1_eq]
    decide
  · rw [sortListing2_eq]
    decide
  · rw [sortListing3_eq]
    decide
  · rw [sortListing4_eq]
    decide

theorem claim_C3_witness :
    ([1, 0] : List ℤ).length = 2 ∧
      (sortListing2 [1, 0] 2 = sortListing1 [1, 0] 2 ∧
        sortListing3 [1, 0] 2 = sortListing1 [1, 0] 2 ∧
        sortListing4 [1, 0] 2 = sortListing1 [1, 0] 2) :=
  ⟨rfl, claim_C3.1 2 [1, 0] rfl⟩

end OddEvenSort
